import Mathlib

/-!
# zpic `em2ds/fft.c`: a shallow embedding and its verification

The mixed-radix FFT of `fft.c` is embedded over an exact scalar field `K`
(standing for `float` with exact arithmetic).  `float complex` is `Cx K`.
Unsigned 32-bit index arithmetic is kept where it can wrap (`butterflyN`),
and the `int` locals of `transform` are `int`s: a radix above `INT_MAX` is a
negative loop bound, and an overflowing subscript product has no result.
The real-input adapters and the two-dimensional real transforms are embedded
on top of it; the contents of local and allocated arrays before their first
store are parameters.  A second embedding (`transform_acc`) lists the array
subscripts that `fft_c2c` uses.
-/

namespace Fft

/-! ## Scalars: `float complex` over an exact field -/

/-- The C type `float complex`, over an exact scalar type `K`. -/
@[ext]
structure Cx (K : Type) where
  re : K
  im : K
deriving DecidableEq, Repr

namespace Cx

variable {K : Type}

instance [Zero K] : Zero (Cx K) := ⟨⟨0, 0⟩⟩
instance [Zero K] [One K] : One (Cx K) := ⟨⟨1, 0⟩⟩
instance [Add K] : Add (Cx K) := ⟨fun a b => ⟨a.re + b.re, a.im + b.im⟩⟩
instance [Neg K] : Neg (Cx K) := ⟨fun a => ⟨-a.re, -a.im⟩⟩
instance [Sub K] : Sub (Cx K) := ⟨fun a b => ⟨a.re - b.re, a.im - b.im⟩⟩
instance [Add K] [Sub K] [Mul K] : Mul (Cx K) :=
  ⟨fun a b => ⟨a.re * b.re - a.im * b.im, a.re * b.im + a.im * b.re⟩⟩

/-- The imaginary unit `I` of `<complex.h>`. -/
def I [Zero K] [One K] : Cx K := ⟨0, 1⟩

/-- Conversion of a real (`float`) value to `float complex`. -/
def ofReal [Zero K] (r : K) : Cx K := ⟨r, 0⟩

/-- The C function `conjf`. -/
def conjf [Neg K] (z : Cx K) : Cx K := ⟨z.re, -z.im⟩

/-- The C function `creal`. -/
def creal (z : Cx K) : K := z.re

/-- The C function `cimag`. -/
def cimag (z : Cx K) : K := z.im

end Cx

/-! ### Algebra of `Cx` -/

namespace Cx

variable {K : Type}

@[simp]
theorem zero_re [Zero K] : (0 : Cx K).re = 0 := rfl
@[simp]
theorem zero_im [Zero K] : (0 : Cx K).im = 0 := rfl
@[simp]
theorem one_re [Zero K] [One K] : (1 : Cx K).re = 1 := rfl
@[simp]
theorem one_im [Zero K] [One K] : (1 : Cx K).im = 0 := rfl
@[simp]
theorem add_re [Add K] (a b : Cx K) : (a + b).re = a.re + b.re := rfl
@[simp]
theorem add_im [Add K] (a b : Cx K) : (a + b).im = a.im + b.im := rfl
@[simp]
theorem neg_re [Neg K] (a : Cx K) : (-a).re = -a.re := rfl
@[simp]
theorem neg_im [Neg K] (a : Cx K) : (-a).im = -a.im := rfl
@[simp]
theorem sub_re [Sub K] (a b : Cx K) : (a - b).re = a.re - b.re := rfl
@[simp]
theorem sub_im [Sub K] (a b : Cx K) : (a - b).im = a.im - b.im := rfl
@[simp]
theorem mul_re [Add K] [Sub K] [Mul K] (a b : Cx K) :
    (a * b).re = a.re * b.re - a.im * b.im := rfl
@[simp]
theorem mul_im [Add K] [Sub K] [Mul K] (a b : Cx K) :
    (a * b).im = a.re * b.im + a.im * b.re := rfl
@[simp]
theorem I_re [Zero K] [One K] : (I : Cx K).re = 0 := rfl
@[simp]
theorem I_im [Zero K] [One K] : (I : Cx K).im = 1 := rfl
@[simp]
theorem ofReal_re [Zero K] (r : K) : (ofReal r).re = r := rfl
@[simp]
theorem ofReal_im [Zero K] (r : K) : (ofReal r).im = 0 := rfl
@[simp]
theorem conjf_re [Neg K] (z : Cx K) : (conjf z).re = z.re := rfl
@[simp]
theorem conjf_im [Neg K] (z : Cx K) : (conjf z).im = -z.im := rfl
@[simp]
theorem creal_eq (z : Cx K) : creal z = z.re := rfl
@[simp]
theorem cimag_eq (z : Cx K) : cimag z = z.im := rfl

instance [CommRing K] : CommRing (Cx K) where
  add_assoc a b c := by ext <;> simp [add_assoc]
  zero_add a := by ext <;> simp
  add_zero a := by ext <;> simp
  add_comm a b := by ext <;> simp [add_comm]
  neg_add_cancel a := by ext <;> simp
  sub_eq_add_neg a b := by ext <;> simp [sub_eq_add_neg]
  mul_assoc a b c := by ext <;> simp <;> ring
  one_mul a := by ext <;> simp
  mul_one a := by ext <;> simp
  left_distrib a b c := by ext <;> simp <;> ring
  right_distrib a b c := by ext <;> simp <;> ring
  mul_comm a b := by ext <;> simp <;> ring
  zero_mul a := by ext <;> simp
  mul_zero a := by ext <;> simp
  nsmul := nsmulRec
  zsmul := zsmulRec

end Cx

/-! ## Loops -/

/-- The loop `for (i = 0; i < n; i++) s = body i s`. -/
def forLoop {σ : Type} : Nat → (Nat → σ → σ) → σ → σ
  | 0, _, s => s
  | n + 1, body, s => body n (forLoop n body s)

/-- The loop `for (i = lo; i < lo + cnt; i++) s = body i s`. -/
def forFrom {σ : Type} (lo cnt : Nat) (body : Nat → σ → σ) (s : σ) : σ :=
  forLoop cnt (fun i => body (lo + i)) s


/-! ## Configuration records (declared in `fft.h`) -/

/-- The C enum `fft_direction`. -/
inductive fft_direction where
  | FFT_FORWARD
  | FFT_BACKWARD
deriving DecidableEq, Repr

open fft_direction

/-- The C struct `t_fft_factors`: radix `p` and remaining size `n`. -/
structure t_fft_factors where
  p : Nat
  n : Nat
deriving DecidableEq, Repr

/-- The C struct `t_fft_cfg`.  `factors` holds the entries of the C array that
`fft_init_factors` has written (the rest of the array is indeterminate);
`phase` is the `malloc`ed twiddle table. -/
structure t_fft_cfg (K : Type) where
  n : Nat
  direction : fft_direction
  factors : List t_fft_factors
  phase : List (Cx K)

/-- The C struct `t_fftr_cfg`: half-length complex config and packing table. -/
structure t_fftr_cfg (K : Type) where
  cfg : t_fft_cfg K
  phase : List (Cx K)

/-- The part of `<math.h>` the initialisers call, in exact arithmetic. -/
structure Libm (K : Type) where
  M_PI : K
  cos : K → K
  sin : K → K

/-- A `float complex` array addressed from its base; `get i` is `a[i]`. -/
@[ext]
structure Buf (K : Type) where
  get : Nat → Cx K

/-- The array store `a[i] = v`. -/
def Buf.set {K : Type} (a : Buf K) (i : Nat) (v : Cx K) : Buf K :=
  ⟨fun j => if j = i then v else a.get j⟩

/-- A read `phase[i]` of a twiddle table (zero outside the table). -/
def tw {K : Type} [Zero K] (phase : List (Cx K)) (i : Nat) : Cx K :=
  phase.getD i 0

/-- Reduction of an `unsigned int` result modulo `2^32`. -/
def u32 (x : Nat) : Nat := x % 2 ^ 32

/-- The largest value of the 32-bit type `int`. -/
def INT_MAX : Nat := 2147483647

/-- The value an `int` takes when an `unsigned int` holding `x` is assigned to
it: values above `INT_MAX` come out negative (two's complement). -/
def toInt (x : Nat) : Int := if x ≤ INT_MAX then (x : Int) else (x : Int) - 4294967296

/-- The product `i * m` of two `int`s; signed overflow is undefined, so it
yields no result. -/
def intMul (i m : Int) : Option Int :=
  if -2147483648 ≤ i * m ∧ i * m ≤ 2147483647 then some (i * m) else none

/-- The pointer `&a[k]` for a pointer `a` at offset `o` of its array and an
`int` subscript `k`; a pointer before the start of the array yields no
result. -/
def ptrAdd (o : Nat) (k : Int) : Option Nat :=
  if 0 ≤ (o : Int) + k then some ((o : Int) + k).toNat else none

/-- The input array of `transform`: either storage disjoint from `out`, or the
very same array as `out` (in-place call). -/
inductive InBuf (K : Type) where
  | disjoint (data : Buf K)
  | aliased

/-- A read `in[i]`, given the current contents of `out`. -/
def InBuf.read {K : Type} : InBuf K → Buf K → Nat → Cx K
  | InBuf.disjoint data, _, i => data.get i
  | InBuf.aliased, out, i => out.get i

/-! ## Butterfly kernels -/

section Kernels

variable {K : Type} [Field K]

/-- The C function `butterfly2`; `o` is the offset of the `out` pointer. -/
def butterfly2 (out : Buf K) (o stride : Nat) (phase : List (Cx K)) (m : Nat) : Buf K :=
  forLoop m (fun i out =>
    let t0 := out.get (o + i)
    let t1 := out.get (o + (i + m)) * tw phase (i * stride)
    let out := out.set (o + i) (t0 + t1)
    out.set (o + (i + m)) (t0 - t1)) out

/-- The C function `butterfly3`. -/
def butterfly3 (out : Buf K) (o stride : Nat) (phase : List (Cx K)) (m : Nat) : Buf K :=
  let ima : Cx K := Cx.I * Cx.ofReal (Cx.cimag (tw phase (stride * m)))
  forLoop m (fun i out =>
    let t0 := out.get (o + i)
    let t1 := out.get (o + (i + m)) * tw phase (i * stride)
    let t2 := out.get (o + (i + 2 * m)) * tw phase (2 * i * stride)
    let s0 := t1 + t2
    let s1 := t1 - t2
    let out := out.set (o + i) (t0 + s0)
    let out := out.set (o + (i + m)) (t0 - Cx.ofReal (1 / 2) * s0 + ima * s1)
    out.set (o + (i + 2 * m)) (t0 - Cx.ofReal (1 / 2) * s0 - ima * s1)) out

/-- The C function `butterfly4`. -/
def butterfly4 (out : Buf K) (o stride : Nat) (phase : List (Cx K)) (m : Nat)
    (direction : fft_direction) : Buf K :=
  let p : Cx K := if direction = FFT_BACKWARD then Cx.I else -Cx.I
  forLoop m (fun i out =>
    let t0 := out.get (o + i)
    let t1 := out.get (o + (i + m)) * tw phase (i * stride)
    let t2 := out.get (o + (i + 2 * m)) * tw phase (2 * i * stride)
    let t3 := out.get (o + (i + 3 * m)) * tw phase (3 * i * stride)
    let s0 := t1 + t3
    let s1 := t1 - t3
    let s2 := t0 + t2
    let s3 := t0 - t2
    let out := out.set (o + i) (s2 + s0)
    let out := out.set (o + (i + m)) (s3 + p * s1)
    let out := out.set (o + (i + 2 * m)) (s2 - s0)
    out.set (o + (i + 3 * m)) (s3 - p * s1)) out

/-- The C function `butterfly5`. -/
def butterfly5 (out : Buf K) (o stride : Nat) (phase : List (Cx K)) (m : Nat) : Buf K :=
  let ra : K := Cx.creal (tw phase (stride * m))
  let ia : K := Cx.cimag (tw phase (stride * m))
  let rb : K := Cx.creal (tw phase (2 * stride * m))
  let ib : K := Cx.cimag (tw phase (2 * stride * m))
  forLoop m (fun i out =>
    let t0 := out.get (o + i)
    let t1 := out.get (o + (m + i)) * tw phase (i * stride)
    let t2 := out.get (o + (2 * m + i)) * tw phase (2 * i * stride)
    let t3 := out.get (o + (3 * m + i)) * tw phase (3 * i * stride)
    let t4 := out.get (o + (4 * m + i)) * tw phase (4 * i * stride)
    let s0 := t1 + t4
    let s1 := t1 - t4
    let s2 := t2 + t3
    let s3 := t2 - t3
    let s4 := t0 + s0 * Cx.ofReal ra + s2 * Cx.ofReal rb
    let s5 := t0 + s0 * Cx.ofReal rb + s2 * Cx.ofReal ra
    let s6 := -Cx.I * (s1 * Cx.ofReal ia + s3 * Cx.ofReal ib)
    let s7 := Cx.I * (s1 * Cx.ofReal ib - s3 * Cx.ofReal ia)
    let out := out.set (o + i) (t0 + s0 + s2)
    let out := out.set (o + (i + m)) (s4 - s6)
    let out := out.set (o + (i + 2 * m)) (s5 + s7)
    let out := out.set (o + (i + 3 * m)) (s5 - s7)
    out.set (o + (i + 4 * m)) (s4 + s6)) out

/-- The C function `butterflyN`.  `t` is the local array `t[p]`; the index
products are `unsigned int`, so they are reduced modulo `2^32`. -/
def butterflyN (out : Buf K) (o stride : Nat) (phase : List (Cx K)) (m p n : Nat) : Buf K :=
  forLoop m (fun i out =>
    let t : Nat → Cx K := fun j => out.get (o + (i + m * j))
    forLoop p (fun j out =>
      let tstride := u32 ((i + j * m) * stride)
      let s := forFrom 1 (p - 1) (fun k s => s + t k * tw phase (u32 (k * tstride) % n)) (t 0)
      out.set (o + (i + j * m)) s) out) out

/-- The `switch (p)` at the end of the C function `transform`. -/
def butterfly (cfg : t_fft_cfg K) (out : Buf K) (o out_stride m p : Nat) : Buf K :=
  match p with
  | 2 => butterfly2 out o out_stride cfg.phase m
  | 3 => butterfly3 out o out_stride cfg.phase m
  | 4 => butterfly4 out o out_stride cfg.phase m cfg.direction
  | 5 => butterfly5 out o out_stride cfg.phase m
  | _ => butterflyN out o out_stride cfg.phase m p cfg.n

/-- The C function `transform`.  `i_off` and `o` are the offsets of the `in`
and `out` pointers; reading a factor entry that was never written yields no
result.  The locals `p`, `m` and `i` are `int`s: the loops run `p` times when
the `int` `p` is positive and not at all otherwise, and the subscript `i*m` of
`&out[i*m]` is an `int` product.  The kernels take `m` and `p` back as
`unsigned int`, which restores the factor entry.  The `unsigned int` products
of the strides are not reduced: on the calls `fft_c2c` makes for a
configuration set up by `fft_init_cfg` they stay below its length. -/
def transform (cfg : t_fft_cfg K) :
    List t_fft_factors → InBuf K → Nat → Nat → Buf K → Nat → Nat → Option (Buf K)
  | [], _, _, _, _, _, _ => none
  | f :: factors, inp, i_off, in_stride, out, o, out_stride =>
    let p : Int := toInt f.p
    let m : Int := toInt f.n
    let r : Option (Buf K) :=
      if m = 1 then
        some (forLoop p.toNat (fun i out =>
          out.set (o + i) (inp.read out (i_off + i * in_stride * out_stride))) out)
      else
        forLoop p.toNat (fun i r => r.bind (fun out =>
          (intMul (i : Int) m).bind (fun im => (ptrAdd o im).bind (fun o_sub =>
            transform cfg factors inp (i_off + i * out_stride * in_stride) in_stride
              out o_sub (out_stride * f.p))))) (some out)
    r.map (fun out => butterfly cfg out o out_stride f.n f.p)

/-- The C function `fft_c2c`. -/
def fft_c2c (cfg : t_fft_cfg K) (inp : InBuf K) (out : Buf K) : Option (Buf K) :=
  transform cfg cfg.factors inp 0 1 out 0 1

end Kernels

/-! ## Factorizer and configuration set-up -/

/-- The `switch (p)` of `fft_init_factors`: the next trial radix. -/
def nextTrial (p : Nat) : Nat :=
  match p with
  | 4 => 2
  | 2 => 3
  | _ => p + 2

/-- The inner loop `while ( n % p ) { switch ...; if ( p > s ) p = n; }` of
`fft_init_factors`, returning the final `p`; `none` when `fuel` tests do not
end it. -/
def trialLoop : Nat → Nat → Nat → Nat → Option Nat
  | 0, _, _, _ => none
  | fuel + 1, n, s, p =>
    if n % p = 0 then some p
    else
      let p := nextTrial p
      let p := if p > s then n else p
      trialLoop fuel n s p

/-- The loop `for (i = 0, p = 4; n > 1; i++)` of `fft_init_factors`, started
at the state `(i, p, n)` with `acc` the entries written so far.  The result is
the returned status and the written entries; `none` when `fuel` runs out. -/
def factorLoop (MAX_FACTORS s : Nat) :
    Nat → Nat → Nat → Nat → List t_fft_factors → Option (Int × List t_fft_factors)
  | 0, _, _, _, _ => none
  | fuel + 1, i, p, n, acc =>
    if n > 1 then
      if i ≥ MAX_FACTORS then some (-1, acc)
      else
        match trialLoop (s + 3) n s p with
        | none => none
        | some p => factorLoop MAX_FACTORS s fuel (i + 1) p (n / p) (acc ++ [⟨p, n / p⟩])
    else some (0, acc)

/-- The C function `fft_init_factors`: status and updated config.  The
constant `MAX_FACTORS` of `fft.h` is a parameter; `floor(sqrt((double) n))`
is `Nat.sqrt n`, exact for every `unsigned int`. -/
def fft_init_factors {K : Type} (MAX_FACTORS : Nat) (cfg : t_fft_cfg K) :
    Option (Int × t_fft_cfg K) :=
  (factorLoop MAX_FACTORS (Nat.sqrt cfg.n) (cfg.n + 1) 0 4 cfg.n []).map
    (fun r => (r.1, { cfg with factors := r.2 }))

section Init

variable {K : Type} [Field K]

/-- The twiddle table written by `fft_init_cfg`. -/
def phaseTable (L : Libm K) (n : Nat) (direction : fft_direction) : List (Cx K) :=
  let phase_mult : K :=
    if direction = FFT_BACKWARD then (2 * L.M_PI) / (n : K) else -(2 * L.M_PI) / (n : K)
  (List.range n).map (fun (i : Nat) =>
    Cx.ofReal (L.cos ((i : K) * phase_mult)) + Cx.I * Cx.ofReal (L.sin ((i : K) * phase_mult)))

/-- The C function `fft_init_cfg` (the allocation is taken to succeed). -/
def fft_init_cfg (L : Libm K) (MAX_FACTORS : Nat) (cfg : t_fft_cfg K) (n : Nat)
    (direction : fft_direction) : Option (Int × t_fft_cfg K) :=
  fft_init_factors MAX_FACTORS
    { cfg with n := n, direction := direction, phase := phaseTable L n direction }

/-- The packing table written by `fftr_init_cfg` for half length `n`. -/
def packTable (L : Libm K) (n : Nat) (direction : fft_direction) : List (Cx K) :=
  let p : K := if direction = FFT_BACKWARD then L.M_PI else -L.M_PI
  (List.range (n / 2)).map (fun (i : Nat) =>
    let phase : K := p * (((i + 1 : Nat) : K) / (n : K) + 1 / 2)
    Cx.ofReal (L.cos phase) + Cx.I * Cx.ofReal (L.sin phase))

/-- The C function `fftr_init_cfg` (the allocation is taken to succeed); the
status of the inner `fft_init_cfg` call is discarded, as in the source. -/
def fftr_init_cfg (L : Libm K) (MAX_FACTORS : Nat) (rcfg : t_fftr_cfg K) (nr : Nat)
    (direction : fft_direction) : Option (Int × t_fftr_cfg K) :=
  if nr % 2 ≠ 0 then some (-1, rcfg)
  else
    let n := nr / 2
    match fft_init_cfg L MAX_FACTORS rcfg.cfg n direction with
    | none => none
    | some (_, cfg) => some (0, { cfg := cfg, phase := packTable L n direction })

/-! ## Real-input adapter -/

/-- The cast `(float complex *) in` of a `float` array. -/
def castComplex (a : Nat → K) : Buf K := ⟨fun j => ⟨a (2 * j), a (2 * j + 1)⟩⟩

/-- The `float` array seen through a `float complex` array stored over it. -/
def castReal (b : Buf K) : Nat → K :=
  fun k => if k % 2 = 0 then (b.get (k / 2)).re else (b.get (k / 2)).im

/-- The C function `fftr_r2c`; `scratch` is the state of the `malloc`ed
`buffer` before it is written. -/
def fftr_r2c (rcfg : t_fftr_cfg K) (scratch : Buf K) (inp : Nat → K) (out : Buf K) :
    Option (Buf K) :=
  if rcfg.cfg.direction ≠ FFT_FORWARD then some out
  else
    let n := rcfg.cfg.n
    (fft_c2c rcfg.cfg (InBuf.disjoint (castComplex inp)) scratch).map (fun buffer =>
      let out := out.set 0 (Cx.ofReal (Cx.creal (buffer.get 0) + Cx.cimag (buffer.get 0)))
      let out := out.set n (Cx.ofReal (Cx.creal (buffer.get 0) - Cx.cimag (buffer.get 0)))
      forFrom 1 (n / 2) (fun i out =>
        let z0 := buffer.get i
        let z1 := Cx.conjf (buffer.get (n - i))
        let s0 := z0 + z1
        let s1 := (z0 - z1) * tw rcfg.phase (i - 1)
        let out := out.set i (Cx.ofReal (1 / 2) * (s0 + s1))
        out.set (n - i) (Cx.ofReal (1 / 2) * Cx.conjf (s0 - s1))) out)

/-- The C function `fftr_c2r`; `scratch` is the state of the `malloc`ed
`buffer` before it is written. -/
def fftr_c2r (rcfg : t_fftr_cfg K) (scratch : Buf K) (inp : Buf K) (out : Nat → K) :
    Option (Nat → K) :=
  if rcfg.cfg.direction ≠ FFT_BACKWARD then some out
  else
    let n := rcfg.cfg.n
    let buffer := scratch.set 0
      (Cx.ofReal (Cx.creal (inp.get 0) + Cx.creal (inp.get n))
        + Cx.I * Cx.ofReal (Cx.creal (inp.get 0) - Cx.creal (inp.get n)))
    let buffer := forFrom 1 (n / 2) (fun i buffer =>
      let z0 := inp.get i
      let z1 := Cx.conjf (inp.get (n - i))
      let s0 := z0 + z1
      let s1 := (z0 - z1) * tw rcfg.phase (i - 1)
      let buffer := buffer.set i (s0 + s1)
      buffer.set (n - i) (Cx.conjf (s0 - s1))) buffer
    let norm : K := 1 / ((2 * n : Nat) : K)
    let buffer := forLoop n (fun i buffer => buffer.set i (buffer.get i * Cx.ofReal norm)) buffer
    (fft_c2c rcfg.cfg (InBuf.disjoint buffer) (castComplex out)).map castReal

end Init

/-! ## Specification vocabulary -/

/-- Position of a trial radix in the search order `4, 2, 3, 5, 7, ...`. -/
def trialPos (p : Nat) : Nat := if p = 4 then 0 else if p = 2 then 1 else p

/-- Each stage divides the remaining length by a radix of at least two, and the
sequence ends when the remaining length is at most one. -/
def StageChain : Nat → List t_fft_factors → Prop
  | n, [] => n ≤ 1
  | n, f :: fs => 2 ≤ f.p ∧ f.p * f.n = n ∧ StageChain f.n fs

/-- Odd prime radices in non-decreasing order, none below `lb`. -/
def OddTail (lb : Nat) (ps : List Nat) : Prop :=
  List.Chain (· ≤ ·) lb ps ∧ ∀ q ∈ ps, Nat.Prime q ∧ q % 2 = 1

/-- The shape claimed for the radix sequence of a remaining length `n`: `a`
radices 4 with `4 ^ a` the largest power of 4 dividing `n`, then one radix 2
exactly when the rest is even, then odd primes in non-decreasing order. -/
def RadixShape (n : Nat) (ps : List Nat) : Prop :=
  ∃ a b odds, ps = List.replicate a 4 ++ List.replicate b 2 ++ odds ∧
    4 ^ a ∣ n ∧ ¬ 4 ∣ n / 4 ^ a ∧ b ≤ 1 ∧ (b = 1 ↔ 2 ∣ n / 4 ^ a) ∧
    List.Sorted (· ≤ ·) odds ∧ ∀ q ∈ odds, Nat.Prime q ∧ q % 2 = 1

/-- A configuration record with `n = 360` before factorization. -/
def cfg360 : t_fft_cfg ℚ := ⟨360, FFT_FORWARD, [], []⟩

/-- The record `cfg360` after `fft_init_factors`. -/
def cfg360' : t_fft_cfg ℚ :=
  ⟨360, FFT_FORWARD, [⟨4, 90⟩, ⟨2, 45⟩, ⟨3, 15⟩, ⟨3, 5⟩, ⟨5, 1⟩], []⟩

/-- The exact forward configuration of length 4: one radix-4 stage and the table
`1, -i, -1, i`. -/
def cfg4 : t_fft_cfg ℚ :=
  ⟨4, FFT_FORWARD, [⟨4, 1⟩], [⟨1, 0⟩, ⟨0, -1⟩, ⟨-1, 0⟩, ⟨0, 1⟩]⟩

/-- A configuration record with the prime length `n = 7` before factorization. -/
def cfg7 : t_fft_cfg ℚ := ⟨7, FFT_FORWARD, [], []⟩

/-- The value `butterflyN` stores for output `j` of lane `i`, from the buffer
`b` it was called on: tap 0 plus the taps `1 .. p-1` weighted by the table
entries at the 32-bit index `(k * tstride) % n`. -/
def genericSum {K : Type} [Field K] (b : Buf K) (o stride : Nat) (phase : List (Cx K)) (m p n i j : Nat) : Cx K :=
  b.get (o + (i + m * 0)) +
    ∑ k in Finset.range (p - 1),
      b.get (o + (i + m * (1 + k))) * tw phase (u32 ((1 + k) * u32 ((i + j * m) * stride)) % n)

/-- The angle `θ = +2π/n` for `FFT_BACKWARD` and `-2π/n` for `FFT_FORWARD`. -/
def angle {K : Type} [Field K] (L : Libm K) (n : Nat) (direction : fft_direction) : K :=
  if direction = FFT_BACKWARD then (2 * L.M_PI) / (n : K) else -(2 * L.M_PI) / (n : K)

/-- The root of unity `exp(i θ)` of the given length and direction, written as
`cos θ + i sin θ`. -/
def twiddle {K : Type} [Field K] (L : Libm K) (n : Nat) (direction : fft_direction) : Cx K :=
  Cx.ofReal (L.cos (angle L n direction)) + Cx.I * Cx.ofReal (L.sin (angle L n direction))

/-- The discrete Fourier transform `sum over j < n of x[j] * w^(j*k)`. -/
def dft {K : Type} [Field K] (w : Cx K) (n : Nat) (x : Buf K) (k : Nat) : Cx K :=
  ∑ j in Finset.range n, x.get j * w ^ (j * k)

/-- The sequence that is `1` at index `a` and `0` elsewhere. -/
def impulse {K : Type} [Field K] (a : Nat) : Buf K := ⟨fun j => if j = a then 1 else 0⟩

/-- The real-input transform `sum over j < N of x[j] * w^(j*k)`. -/
def rdft {K : Type} [Field K] (w : Cx K) (N : Nat) (x : Nat → K) (k : Nat) : Cx K :=
  ∑ j in Finset.range N, Cx.ofReal (x j) * w ^ (j * k)

/-- The real sequence that is `1` at index `a` and `0` elsewhere. -/
def realImpulse {K : Type} [Field K] (a : Nat) : Nat → K := fun j => if j = a then 1 else 0

/-- A kernel in lane form: for every lane `i < m` read the taps
`t r = out[i + m*r]`, then store `f t i q` in `out[i + q*m]` for `q < p`. -/
def laneKernel {K : Type} (f : (Nat → Cx K) → Nat → Nat → Cx K) (out : Buf K) (o m p : Nat) :
    Buf K :=
  forLoop m (fun i out =>
    let t : Nat → Cx K := fun r => out.get (o + (i + m * r))
    forLoop p (fun q out => out.set (o + (i + q * m)) (f t i q)) out) out

/-- The outputs of `butterfly2` from the taps of a lane. -/
def out2 {K : Type} [Field K] (stride : Nat) (phase : List (Cx K))
    (t : Nat → Cx K) (i q : Nat) : Cx K :=
  match q with
  | 0 => t 0 + t 1 * tw phase (i * stride)
  | _ => t 0 - t 1 * tw phase (i * stride)

/-- The outputs of `butterfly3` from the taps of a lane. -/
def out3 {K : Type} [Field K] (stride m : Nat) (phase : List (Cx K))
    (t : Nat → Cx K) (i q : Nat) : Cx K :=
  let ima : Cx K := Cx.I * Cx.ofReal (Cx.cimag (tw phase (stride * m)))
  let t1 := t 1 * tw phase (i * stride)
  let t2 := t 2 * tw phase (2 * i * stride)
  match q with
  | 0 => t 0 + (t1 + t2)
  | 1 => t 0 - Cx.ofReal (1 / 2) * (t1 + t2) + ima * (t1 - t2)
  | _ => t 0 - Cx.ofReal (1 / 2) * (t1 + t2) - ima * (t1 - t2)

/-- The outputs of `butterfly4` from the taps of a lane. -/
def out4 {K : Type} [Field K] (stride : Nat) (phase : List (Cx K)) (direction : fft_direction)
    (t : Nat → Cx K) (i q : Nat) : Cx K :=
  let p : Cx K := if direction = FFT_BACKWARD then Cx.I else -Cx.I
  let t1 := t 1 * tw phase (i * stride)
  let t2 := t 2 * tw phase (2 * i * stride)
  let t3 := t 3 * tw phase (3 * i * stride)
  match q with
  | 0 => (t 0 + t2) + (t1 + t3)
  | 1 => (t 0 - t2) + p * (t1 - t3)
  | 2 => (t 0 + t2) - (t1 + t3)
  | _ => (t 0 - t2) - p * (t1 - t3)

/-- The outputs of `butterfly5` from the taps of a lane. -/
def out5 {K : Type} [Field K] (stride m : Nat) (phase : List (Cx K))
    (t : Nat → Cx K) (i q : Nat) : Cx K :=
  let ra : K := Cx.creal (tw phase (stride * m))
  let ia : K := Cx.cimag (tw phase (stride * m))
  let rb : K := Cx.creal (tw phase (2 * stride * m))
  let ib : K := Cx.cimag (tw phase (2 * stride * m))
  let t1 := t 1 * tw phase (i * stride)
  let t2 := t 2 * tw phase (2 * i * stride)
  let t3 := t 3 * tw phase (3 * i * stride)
  let t4 := t 4 * tw phase (4 * i * stride)
  let s0 := t1 + t4
  let s1 := t1 - t4
  let s2 := t2 + t3
  let s3 := t2 - t3
  let s4 := t 0 + s0 * Cx.ofReal ra + s2 * Cx.ofReal rb
  let s5 := t 0 + s0 * Cx.ofReal rb + s2 * Cx.ofReal ra
  let s6 := -Cx.I * (s1 * Cx.ofReal ia + s3 * Cx.ofReal ib)
  let s7 := Cx.I * (s1 * Cx.ofReal ib - s3 * Cx.ofReal ia)
  match q with
  | 0 => t 0 + s0 + s2
  | 1 => s4 - s6
  | 2 => s5 + s7
  | 3 => s5 - s7
  | _ => s4 + s6

/-- The outputs of `butterflyN` from the taps of a lane. -/
def outN {K : Type} [Field K] (stride m p n : Nat) (phase : List (Cx K))
    (t : Nat → Cx K) (i q : Nat) : Cx K :=
  forFrom 1 (p - 1)
    (fun k s => s + t k * tw phase (u32 (k * u32 ((i + q * m) * stride)) % n)) (t 0)

/-- What the kernels use of an exact twiddle table: its entries are the powers
of a root of unity `w` of order `n` with `w^(n/2) = -1`, `w^(n/4) = ±i` by
direction, `Re w^(n/3) = -1/2`, and `conj (w^a) = w^(n-a)`. -/
structure ExactTwiddles {K : Type} [Field K] (cfg : t_fft_cfg K) (w : Cx K) : Prop where
  table : ∀ a, a < cfg.n → tw cfg.phase a = w ^ a
  pow_n : w ^ cfg.n = 1
  half : ∀ h, 2 * h = cfg.n → w ^ h = -1
  quarter : ∀ h, 4 * h = cfg.n → w ^ h = if cfg.direction = FFT_BACKWARD then Cx.I else -Cx.I
  third : ∀ h, 3 * h = cfg.n → (w ^ h).re = -(1 / 2)
  conj_pow : ∀ a, a ≤ cfg.n → Cx.conjf (w ^ a) = w ^ (cfg.n - a)

/-- The twiddle index `(k*tstride) % n` of `butterflyN`, with
`tstride = (i + j*m) * stride`, both products in `unsigned int` arithmetic. -/
def twiddleIndex (stride m n i j k : Nat) : Nat :=
  u32 (k * u32 ((i + j * m) * stride)) % n

/-- Nesting depth of the calls of `transform` started on a factor array: the
call itself, plus the calls on `&factors[1]` unless `m == 1`. -/
def transformDepth : List t_fft_factors → Nat
  | [] => 0
  | f :: factors => if f.n = 1 then 1 else 1 + transformDepth factors

/-- A real-transform record before initialisation. -/
def rcfg0 : t_fftr_cfg ℚ := ⟨⟨0, FFT_FORWARD, [], []⟩, []⟩

/-- Stand-in for `<math.h>` over the rationals (the values of `cos` and `sin`
play no part where it is used). -/
def libmQ : Libm ℚ := ⟨3, fun _ => 1, fun _ => 0⟩

/-- The array subscripts used during a call, in program order: those of the
twiddle table `phase`, of the input `in`, and of `out` (reads and writes),
each counted from the base of the array handed to `fft_c2c`. -/
structure Accesses where
  phase : List Nat
  inp : List Nat
  out : List Nat
deriving DecidableEq, Repr

/-- No access. -/
def Accesses.empty : Accesses := ⟨[], [], []⟩

/-- The accesses of `a` followed by those of `b`. -/
def Accesses.append (a b : Accesses) : Accesses :=
  ⟨a.phase ++ b.phase, a.inp ++ b.inp, a.out ++ b.out⟩

/-- The accesses of a loop `for (i = 0; i < n; i++)` whose iteration `i` makes
the accesses `f i`. -/
def Accesses.loop (n : Nat) (f : Nat → Accesses) : Accesses :=
  forLoop n (fun i acc => acc.append (f i)) Accesses.empty

/-- The subscripts used by the C function `butterfly2`. -/
def butterfly2_acc (o stride m : Nat) : Accesses :=
  Accesses.loop m (fun i =>
    ⟨[i * stride], [], [o + i, o + (i + m), o + i, o + (i + m)]⟩)

/-- The subscripts used by the C function `butterfly3`. -/
def butterfly3_acc (o stride m : Nat) : Accesses :=
  Accesses.append ⟨[stride * m], [], []⟩
    (Accesses.loop m (fun i =>
      ⟨[i * stride, 2 * i * stride], [],
        [o + i, o + (i + m), o + (i + 2 * m), o + i, o + (i + m), o + (i + 2 * m)]⟩))

/-- The subscripts used by the C function `butterfly4`. -/
def butterfly4_acc (o stride m : Nat) : Accesses :=
  Accesses.loop m (fun i =>
    ⟨[i * stride, 2 * i * stride, 3 * i * stride], [],
      [o + i, o + (i + m), o + (i + 2 * m), o + (i + 3 * m),
       o + i, o + (i + m), o + (i + 2 * m), o + (i + 3 * m)]⟩)

/-- The subscripts used by the C function `butterfly5`. -/
def butterfly5_acc (o stride m : Nat) : Accesses :=
  Accesses.append ⟨[stride * m, stride * m, 2 * stride * m, 2 * stride * m], [], []⟩
    (Accesses.loop m (fun i =>
      ⟨[i * stride, 2 * i * stride, 3 * i * stride, 4 * i * stride], [],
        [o + i, o + (m + i), o + (2 * m + i), o + (3 * m + i), o + (4 * m + i),
         o + i, o + (i + m), o + (i + 2 * m), o + (i + 3 * m), o + (i + 4 * m)]⟩))

/-- The subscripts used by the C function `butterflyN` (the local array `t[p]`
is left out); the twiddle subscript is `(k*tstride) % n` in `unsigned int`
arithmetic. -/
def butterflyN_acc (o stride m p n : Nat) : Accesses :=
  Accesses.loop m (fun i =>
    Accesses.append
      (Accesses.loop p (fun j => ⟨[], [], [o + (i + m * j)]⟩))
      (Accesses.loop p (fun j =>
        Accesses.append
          (Accesses.loop (p - 1) (fun k =>
            ⟨[u32 ((1 + k) * u32 ((i + j * m) * stride)) % n], [], []⟩))
          ⟨[], [], [o + (i + j * m)]⟩)))

/-- The subscripts used by the kernel that the `switch (p)` of `transform`
selects. -/
def butterfly_acc (n o out_stride m p : Nat) : Accesses :=
  match p with
  | 2 => butterfly2_acc o out_stride m
  | 3 => butterfly3_acc o out_stride m
  | 4 => butterfly4_acc o out_stride m
  | 5 => butterfly5_acc o out_stride m
  | _ => butterflyN_acc o out_stride m p n

/-- The subscripts used by the C function `transform` on a configuration of
length `n`; no result where a factor entry that was never written is read,
where the `int` product `i*m` overflows, or where `&out[i*m]` lies before the
array. -/
def transform_acc (n : Nat) : List t_fft_factors → Nat → Nat → Nat → Nat → Option Accesses
  | [], _, _, _, _ => none
  | f :: factors, i_off, in_stride, o, out_stride =>
    let p : Int := toInt f.p
    let m : Int := toInt f.n
    let r : Option Accesses :=
      if m = 1 then
        some (Accesses.loop p.toNat (fun i =>
          ⟨[], [i_off + i * in_stride * out_stride], [o + i]⟩))
      else
        forLoop p.toNat (fun i r => r.bind (fun acc =>
          (intMul (i : Int) m).bind (fun im => (ptrAdd o im).bind (fun o_sub =>
            (transform_acc n factors (i_off + i * out_stride * in_stride) in_stride
              o_sub (out_stride * f.p)).map (fun a => acc.append a))))) (some Accesses.empty)
    r.map (fun acc => acc.append (butterfly_acc n o out_stride f.n f.p))

/-- The subscripts used by the C function `fft_c2c`. -/
def fft_c2c_acc {K : Type} (cfg : t_fft_cfg K) : Option Accesses :=
  transform_acc cfg.n cfg.factors 0 1 0 1

/-- Every twiddle and input subscript is below `n` and every `out` subscript
lies in `[lo, hi)`. -/
def Accesses.Within (a : Accesses) (n lo hi : Nat) : Prop :=
  (∀ i ∈ a.phase, i < n) ∧ (∀ i ∈ a.inp, i < n) ∧ (∀ i ∈ a.out, lo ≤ i ∧ i < hi)

/-- The C struct `t_fftr2d_cfg`: grid size, distance between rows, the real
configuration for the rows and the complex configuration for the columns. -/
structure t_fftr2d_cfg (K : Type) where
  nx : Nat
  ny : Nat
  stridey : Nat
  cfgx : t_fftr_cfg K
  cfgy : t_fft_cfg K

/-- The pointer `&a[off]` into a `float complex` array. -/
def Buf.offset {K : Type} (a : Buf K) (off : Nat) : Buf K := ⟨fun k => a.get (off + k)⟩

/-- The C function `fftr2d_init_cfg`: status and updated record. -/
def fftr2d_init_cfg {K : Type} [Field K] (L : Libm K) (MAX_FACTORS : Nat)
    (cfg : t_fftr2d_cfg K) (nx ny stridey : Nat) (direction : fft_direction) :
    Option (Int × t_fftr2d_cfg K) :=
  let cfg := { cfg with nx := nx, ny := ny, stridey := if stridey > 0 then stridey else nx }
  match fftr_init_cfg L MAX_FACTORS cfg.cfgx nx direction with
  | none => none
  | some (ierr, cfgx) =>
    let cfg := { cfg with cfgx := cfgx }
    if ierr ≠ 0 then some (ierr, cfg)
    else
      match fft_init_cfg L MAX_FACTORS cfg.cfgy ny direction with
      | none => none
      | some (ierr, cfgy) =>
        let cfg := { cfg with cfgy := cfgy }
        if ierr ≠ 0 then some (ierr, cfg) else some (0, cfg)

/-- The C function `fftr2d_r2c`.  `scratch j` is the state of the buffer that
the `j`-th call of `fftr_r2c` allocates, `tmpx j` and `tmpy j` the state of the
local arrays `tmp` of the `j`-th iteration of the first and of the second loop
when they are declared. -/
def fftr2d_r2c {K : Type} [Field K] (cfg : t_fftr2d_cfg K) (scratch tmpx tmpy : Nat → Buf K)
    (inp : Nat → K) (out : Buf K) : Option (Buf K) :=
  let r2c_size := cfg.nx / 2 + 1
  let r : Option (Buf K) := forLoop cfg.ny (fun j r => r.bind (fun out =>
    (fftr_r2c cfg.cfgx (scratch j) (fun k => inp (j * cfg.stridey + k)) (tmpx j)).map
      (fun tmp => forLoop r2c_size (fun i out => out.set (j + i * cfg.ny) (tmp.get i)) out)))
    (some out)
  r.bind (fun out => forLoop r2c_size (fun j r => r.bind (fun out =>
    (fft_c2c cfg.cfgy (InBuf.disjoint (out.offset (j * cfg.ny))) (tmpy j)).map
      (fun tmp => forLoop cfg.ny (fun i out => out.set (i + j * cfg.ny) (tmp.get i)) out)))
    (some out))

/-- The C function `fftr2d_c2r`.  `tmp` and `tmp_line j` are the states of the
local arrays when they are declared, `scratch j` that of the buffer which the
`j`-th call of `fftr_c2r` allocates; `&out[j * stridey]` is the part of `out`
from that cell on. -/
def fftr2d_c2r {K : Type} [Field K] (cfg : t_fftr2d_cfg K) (scratch tmp_line : Nat → Buf K)
    (tmp : Buf K) (inp : Buf K) (out : Nat → K) : Option (Nat → K) :=
  let r2c_size := cfg.nx / 2 + 1
  let norm : K := 1 / (cfg.ny : K)
  let r : Option (Buf K) := forLoop r2c_size (fun j r => r.bind (fun tmp =>
    (fft_c2c cfg.cfgy (InBuf.disjoint (inp.offset (j * cfg.ny))) (tmp_line j)).map
      (fun line => forLoop cfg.ny (fun i tmp =>
        tmp.set (j + i * r2c_size) (line.get i * Cx.ofReal norm)) tmp)))
    (some tmp)
  r.bind (fun tmp => forLoop cfg.ny (fun j r => r.bind (fun out =>
    (fftr_c2r cfg.cfgx (scratch j) (tmp.offset (j * r2c_size))
      (fun k => out (j * cfg.stridey + k))).map
      (fun row => fun k => if j * cfg.stridey ≤ k then row (k - j * cfg.stridey) else out k)))
    (some out))

/-- The two-dimensional transform of a real grid with row distance `stridey`:
`sum over y < ny and x < nx of in[y*stridey + x] * wx^(x*kx) * wy^(y*ky)`. -/
def dft2 {K : Type} [Field K] (wx wy : Cx K) (nx ny stridey : Nat) (inp : Nat → K)
    (kx ky : Nat) : Cx K :=
  ∑ y in Finset.range ny, ∑ x in Finset.range nx,
    Cx.ofReal (inp (y * stridey + x)) * wx ^ (x * kx) * wy ^ (y * ky)

/-- A two-dimensional record before initialisation. -/
def cfg2d0 (K : Type) : t_fftr2d_cfg K :=
  ⟨0, 0, 0, ⟨⟨0, FFT_FORWARD, [], []⟩, []⟩, ⟨0, FFT_FORWARD, [], []⟩⟩

/-! # Verification -/

/-! ## The `int` locals of `transform` -/

theorem forLoop_congr {σ : Type} (n : Nat) (f g : Nat → σ → σ) (s : σ)
    (h : ∀ i, i < n → ∀ t, f i t = g i t) : forLoop n f s = forLoop n g s := by
  induction n with
  | zero => rfl
  | succ n ih =>
    show f n (forLoop n f s) = g n (forLoop n g s)
    rw [ih (fun i hi => h i (Nat.lt_succ_of_lt hi)), h n (Nat.lt_succ_self n)]

theorem toInt_of_le {x : Nat} (h : x ≤ INT_MAX) : toInt x = (x : Int) := if_pos h

theorem toInt_toNat_of_le {x : Nat} (h : x ≤ INT_MAX) : (toInt x).toNat = x := by
  rw [toInt_of_le h, Int.toNat_ofNat]

/-- An entry above `INT_MAX` is a negative `int`: the loops of `transform` do
not run. -/
theorem toInt_toNat_of_gt {x : Nat} (h : INT_MAX < x) (h32 : x < 2 ^ 32) :
    (toInt x).toNat = 0 := by
  unfold toInt
  rw [if_neg (Nat.not_le.2 h)]
  apply Int.toNat_eq_zero.2
  have : (x : Int) < 4294967296 := by exact_mod_cast h32
  omega

theorem toInt_one : toInt 1 = 1 := rfl

theorem toInt_eq_one {x : Nat} (h : x ≤ INT_MAX) : toInt x = 1 ↔ x = 1 := by
  rw [toInt_of_le h]
  exact_mod_cast Iff.rfl

theorem intMul_of_le {i m : Nat} (h : i * m ≤ INT_MAX) :
    intMul (i : Int) (m : Int) = some ((i * m : Nat) : Int) := by
  unfold intMul
  have h1 : ((i * m : Nat) : Int) ≤ 2147483647 := by exact_mod_cast h
  have h0 : (0 : Int) ≤ ((i * m : Nat) : Int) := Int.ofNat_nonneg _
  rw [Nat.cast_mul] at h1 h0
  rw [if_pos ⟨by omega, h1⟩, Nat.cast_mul]

theorem ptrAdd_natCast (o k : Nat) : ptrAdd o ((k : Nat) : Int) = some (o + k) := by
  unfold ptrAdd
  have h0 : (0 : Int) ≤ (o : Int) + (k : Int) := by positivity
  rw [if_pos h0, ← Nat.cast_add, Int.toNat_ofNat]

/-- The subscript `&out[i*m]` below `INT_MAX`. -/
theorem out_subscript {i m : Nat} (o : Nat) (hm : m ≤ INT_MAX) (h : i * m ≤ INT_MAX)
    {α : Type} (k : Nat → Option α) :
    ((intMul (i : Int) (toInt m)).bind fun im => (ptrAdd o im).bind k) = k (o + i * m) := by
  rw [toInt_of_le hm, intMul_of_le h, Option.some_bind, ptrAdd_natCast, Option.some_bind]

/-- A stage `(p, m)` of a sub-length `N = p * m` that fits an `int`: so do `p`,
`m` and every product `i * m` with `i < p`. -/
theorem stage_le_int_max {f : t_fft_factors} {N : Nat} (hp2 : 2 ≤ f.p) (hmul : f.p * f.n = N)
    (hN : 2 ≤ N) (hmax : N ≤ INT_MAX) :
    f.p ≤ INT_MAX ∧ f.n ≤ INT_MAX ∧ f.p * f.n ≤ INT_MAX := by
  have hm0 : 0 < f.n := by
    rcases Nat.eq_zero_or_pos f.n with h0 | h0
    · rw [h0, Nat.mul_zero] at hmul; omega
    · exact h0
  have h1 : f.p ≤ f.p * f.n := Nat.le_mul_of_pos_right _ hm0
  have h2 : f.n ≤ f.p * f.n := Nat.le_mul_of_pos_left _ (by omega)
  rw [hmul] at h1 h2 ⊢
  exact ⟨le_trans h1 hmax, le_trans h2 hmax, hmax⟩

/-- The body of `transform` for entries whose product is at most `INT_MAX`:
the `int` locals behave as the `unsigned int` entries. -/
theorem transform_cons {K : Type} [Field K] (cfg : t_fft_cfg K) (f : t_fft_factors)
    (factors : List t_fft_factors) (inp : InBuf K) (i_off in_stride : Nat) (out : Buf K)
    (o out_stride : Nat) (hp : f.p ≤ INT_MAX) (hm : f.n ≤ INT_MAX)
    (hpm : f.p * f.n ≤ INT_MAX) :
    transform cfg (f :: factors) inp i_off in_stride out o out_stride =
      (if f.n = 1 then
        some (forLoop f.p (fun i out =>
          out.set (o + i) (inp.read out (i_off + i * in_stride * out_stride))) out)
      else
        forLoop f.p (fun i r => r.bind (fun out =>
          transform cfg factors inp (i_off + i * out_stride * in_stride) in_stride
            out (o + i * f.n) (out_stride * f.p))) (some out)).map
        (fun out => butterfly cfg out o out_stride f.n f.p) := by
  rw [transform]
  simp only [toInt_toNat_of_le hp, toInt_eq_one hm]
  congr 1
  split_ifs with h1
  · rfl
  · apply forLoop_congr
    intro i hi r
    cases r with
    | none => rfl
    | some b =>
      simp only [Option.some_bind]
      exact out_subscript o hm
        (le_trans (Nat.mul_le_mul_right _ (Nat.le_of_lt hi)) hpm) _

/-- A single stage `(p, 1)`: the gather loop, run as often as the `int` `p`
allows, then the kernel. -/
theorem transform_single {K : Type} [Field K] (cfg : t_fft_cfg K) (p : Nat) (inp : InBuf K)
    (i_off in_stride : Nat) (out : Buf K) (o out_stride : Nat) :
    transform cfg [⟨p, 1⟩] inp i_off in_stride out o out_stride =
      some (butterfly cfg (forLoop (toInt p).toNat (fun i out => out.set (o + i)
        (inp.read out (i_off + i * in_stride * out_stride))) out) o out_stride 1 p) := by
  simp only [transform, toInt_one, if_true, Option.map_some']

/-- The body of `transform_acc` for entries whose product is at most
`INT_MAX`. -/
theorem transform_acc_cons (n : Nat) (f : t_fft_factors) (factors : List t_fft_factors)
    (i_off in_stride o out_stride : Nat) (hp : f.p ≤ INT_MAX) (hm : f.n ≤ INT_MAX)
    (hpm : f.p * f.n ≤ INT_MAX) :
    transform_acc n (f :: factors) i_off in_stride o out_stride =
      (if f.n = 1 then
        some (Accesses.loop f.p (fun i =>
          ⟨[], [i_off + i * in_stride * out_stride], [o + i]⟩))
      else
        forLoop f.p (fun i r => r.bind (fun acc =>
          (transform_acc n factors (i_off + i * out_stride * in_stride) in_stride
            (o + i * f.n) (out_stride * f.p)).map (fun a => acc.append a)))
          (some Accesses.empty)).map
        (fun acc => acc.append (butterfly_acc n o out_stride f.n f.p)) := by
  rw [transform_acc]
  simp only [toInt_toNat_of_le hp, toInt_eq_one hm]
  congr 1
  split_ifs with h1
  · rfl
  · apply forLoop_congr
    intro i hi r
    cases r with
    | none => rfl
    | some b =>
      simp only [Option.some_bind]
      exact out_subscript o hm
        (le_trans (Nat.mul_le_mul_right _ (Nat.le_of_lt hi)) hpm) _

/-! ## The factorizer -/

theorem nextTrial_eq (p : Nat) :
    nextTrial p = if p = 4 then 2 else if p = 2 then 3 else p + 2 := by
  unfold nextTrial
  split <;> simp_all

theorem trialPos_le (p : Nat) : trialPos p ≤ p := by
  unfold trialPos
  split_ifs <;> omega

theorem trialPos_nextTrial (p : Nat) : trialPos p < trialPos (nextTrial p) := by
  rw [nextTrial_eq]
  unfold trialPos
  split_ifs <;> omega

theorem nextTrial_ge_two (p : Nat) : 2 ≤ nextTrial p := by
  rw [nextTrial_eq]
  split_ifs <;> omega

theorem trialLoop_succ (fuel n s p : Nat) :
    trialLoop (fuel + 1) n s p =
      if n % p = 0 then some p
      else trialLoop fuel n s (if nextTrial p > s then n else nextTrial p) := rfl

theorem trialLoop_dvd {fuel n s p q : Nat} (h : trialLoop fuel n s p = some q) :
    n % q = 0 := by
  induction fuel generalizing p with
  | zero => simp [trialLoop] at h
  | succ fuel ih =>
    rw [trialLoop_succ] at h
    split_ifs at h with h0 h1
    · cases h; exact h0
    · exact ih h
    · exact ih h

theorem trialLoop_ge_two {fuel n s p q : Nat} (hp : 2 ≤ p) (hn : 2 ≤ n)
    (h : trialLoop fuel n s p = some q) : 2 ≤ q := by
  induction fuel generalizing p with
  | zero => simp [trialLoop] at h
  | succ fuel ih =>
    rw [trialLoop_succ] at h
    split_ifs at h with h0 h1
    · cases h; exact hp
    · exact ih hn h
    · exact ih (nextTrial_ge_two p) h

theorem trialLoop_total (n s fuel p : Nat) (h : s + 1 - trialPos p + 2 ≤ fuel) :
    ∃ q, trialLoop fuel n s p = some q := by
  induction fuel generalizing p with
  | zero => omega
  | succ fuel ih =>
    rw [trialLoop_succ]
    split_ifs with h0 h1
    · exact ⟨p, rfl⟩
    · cases fuel with
      | zero => omega
      | succ fuel =>
        rw [trialLoop_succ, if_pos (Nat.mod_self n)]
        exact ⟨n, rfl⟩
    · apply ih
      have h2 := trialPos_nextTrial p
      have h3 := trialPos_le (nextTrial p)
      omega

theorem factorLoop_succ (MAX_FACTORS s fuel i p n : Nat) (acc : List t_fft_factors) :
    factorLoop MAX_FACTORS s (fuel + 1) i p n acc =
      if n > 1 then
        if i ≥ MAX_FACTORS then some (-1, acc)
        else
          match trialLoop (s + 3) n s p with
          | none => none
          | some p => factorLoop MAX_FACTORS s fuel (i + 1) p (n / p) (acc ++ [⟨p, n / p⟩])
      else some (0, acc) := rfl

/-- The factor loop always returns: with `fs` the full stage sequence from the
current state, the status is `0` exactly when `fs` fits the capacity, and the
written entries are the first ones of `fs` that fit. -/
theorem factorLoop_total (s fuel p n : Nat) (hf : n + 1 ≤ fuel) (hp : 2 ≤ p) :
    ∃ fs : List t_fft_factors, ∀ MAX_FACTORS i acc, i ≤ MAX_FACTORS →
      factorLoop MAX_FACTORS s fuel i p n acc =
        some (if i + fs.length ≤ MAX_FACTORS then 0 else -1, acc ++ fs.take (MAX_FACTORS - i)) := by
  induction fuel generalizing p n with
  | zero => omega
  | succ fuel ih =>
    by_cases hn : n > 1
    · obtain ⟨q, hq⟩ := trialLoop_total n s (s + 3) p (by omega)
      have hq2 : 2 ≤ q := trialLoop_ge_two hp hn hq
      have hdiv : n / q < n := Nat.div_lt_self (by omega) hq2
      obtain ⟨fs, hfs⟩ := ih q (n / q) (by omega) hq2
      refine ⟨⟨q, n / q⟩ :: fs, ?_⟩
      intro MAX_FACTORS i acc hi
      rw [factorLoop_succ, if_pos hn]
      by_cases hcap : i ≥ MAX_FACTORS
      · rw [if_pos hcap]
        have : MAX_FACTORS - i = 0 := by omega
        simp [this]
        omega
      · rw [if_neg hcap, hq]
        simp only
        rw [hfs MAX_FACTORS (i + 1) _ (by omega)]
        have h1 : MAX_FACTORS - i = (MAX_FACTORS - (i + 1)) + 1 := by omega
        rw [h1, List.take_succ_cons]
        simp only [List.length_cons, List.append_assoc, List.singleton_append]
        congr 2
        rw [show i + 1 + fs.length = i + (fs.length + 1) by omega]
    · refine ⟨[], ?_⟩
      intro MAX_FACTORS i acc hi
      rw [factorLoop_succ, if_neg hn]
      simp [hi]

theorem factorLoop_chain {MAX_FACTORS s fuel i p n : Nat} {acc out : List t_fft_factors}
    (hp : 2 ≤ p) (h : factorLoop MAX_FACTORS s fuel i p n acc = some (0, out)) :
    ∃ fs, out = acc ++ fs ∧ StageChain n fs := by
  induction fuel generalizing i p n acc with
  | zero => simp [factorLoop] at h
  | succ fuel ih =>
    rw [factorLoop_succ] at h
    by_cases hn : n > 1
    · rw [if_pos hn] at h
      by_cases hcap : i ≥ MAX_FACTORS
      · rw [if_pos hcap] at h
        simp at h
      · rw [if_neg hcap] at h
        cases hq : trialLoop (s + 3) n s p with
        | none => rw [hq] at h; simp at h
        | some q =>
          rw [hq] at h
          simp only at h
          have hq2 : 2 ≤ q := trialLoop_ge_two hp hn hq
          obtain ⟨fs, hfs, hch⟩ := ih hq2 h
          refine ⟨⟨q, n / q⟩ :: fs, by simp [hfs], hq2, ?_, hch⟩
          exact Nat.mul_div_cancel' (Nat.dvd_of_mod_eq_zero (trialLoop_dvd hq))
    · rw [if_neg hn] at h
      simp only [Option.some.injEq, Prod.mk.injEq, true_and] at h
      exact ⟨[], by simp [h], by simpa [StageChain] using hn⟩

theorem StageChain.prod_eq {n : Nat} {fs : List t_fft_factors} (h : StageChain n fs)
    (hn : 1 ≤ n) : (fs.map (·.p)).prod = n := by
  induction fs generalizing n with
  | nil => simp [StageChain] at h ⊢; omega
  | cons f fs ih =>
    obtain ⟨h2, hmul, hch⟩ := h
    have hfn : 1 ≤ f.n := by
      rcases Nat.eq_zero_or_pos f.n with h0 | h0
      · rw [h0] at hmul; omega
      · exact h0
    simp [ih hch hfn, hmul]

theorem StageChain.rem_eq {n : Nat} {fs : List t_fft_factors} (h : StageChain n fs)
    (i : Nat) (hi : i < fs.length) :
    fs[i].n = n / ((fs.take (i + 1)).map (·.p)).prod := by
  induction fs generalizing n i with
  | nil => simp at hi
  | cons f fs ih =>
    obtain ⟨h2, hmul, hch⟩ := h
    have hdiv : n / f.p = f.n := by
      rw [← hmul]; exact Nat.mul_div_cancel_left _ (by omega)
    cases i with
    | zero => simp [hdiv]
    | succ i =>
      simp only [List.length_cons, Nat.add_lt_add_iff_right] at hi
      simp only [List.getElem_cons_succ, List.take_succ_cons, List.map_cons, List.prod_cons]
      rw [ih hch i hi, ← Nat.div_div_eq_div_mul, hdiv]

theorem StageChain.step_eq {n : Nat} {fs : List t_fft_factors} (h : StageChain n fs)
    (i : Nat) (hi : i < fs.length) :
    fs[i].p * fs[i].n = if i = 0 then n else (fs.getD (i - 1) ⟨0, 0⟩).n := by
  induction fs generalizing n i with
  | nil => simp at hi
  | cons f fs ih =>
    obtain ⟨h2, hmul, hch⟩ := h
    cases i with
    | zero => simp [hmul]
    | succ i =>
      simp only [List.length_cons, Nat.add_lt_add_iff_right] at hi
      have := ih hch i hi
      simp only [List.getElem_cons_succ, this]
      cases i with
      | zero => simp
      | succ i => simp

theorem StageChain.last_eq {n : Nat} {fs : List t_fft_factors} (h : StageChain n fs)
    (hn : 1 ≤ n) (f : t_fft_factors) (hf : fs.getLast? = some f) : f.n = 1 := by
  induction fs generalizing n with
  | nil => simp at hf
  | cons g fs ih =>
    obtain ⟨h2, hmul, hch⟩ := h
    have hgn : 1 ≤ g.n := by
      rcases Nat.eq_zero_or_pos g.n with h0 | h0
      · rw [h0] at hmul; omega
      · exact h0
    cases fs with
    | nil =>
      simp at hf
      subst hf
      simp [StageChain] at hch
      omega
    | cons g2 fs =>
      rw [List.getLast?_cons_cons] at hf
      exact ih hch hgn hf

theorem fft_init_factors_eq {K : Type} (MAX_FACTORS : Nat) (cfg : t_fft_cfg K) :
    fft_init_factors MAX_FACTORS cfg =
      (factorLoop MAX_FACTORS (Nat.sqrt cfg.n) (cfg.n + 1) 0 4 cfg.n []).map
        (fun r => (r.1, { cfg with factors := r.2 })) := rfl

theorem fft_init_factors_chain {K : Type} {MAX_FACTORS : Nat} {cfg cfg' : t_fft_cfg K}
    (h : fft_init_factors MAX_FACTORS cfg = some (0, cfg')) :
    StageChain cfg.n cfg'.factors ∧ cfg' = { cfg with factors := cfg'.factors } := by
  rw [fft_init_factors_eq] at h
  cases hl : factorLoop MAX_FACTORS (Nat.sqrt cfg.n) (cfg.n + 1) 0 4 cfg.n [] with
  | none => rw [hl] at h; simp at h
  | some r =>
    rw [hl] at h
    obtain ⟨st, fs⟩ := r
    simp only [Option.map_some', Option.some.injEq, Prod.mk.injEq] at h
    obtain ⟨hst, hcfg⟩ := h
    subst hst
    obtain ⟨fs', hfs, hch⟩ := factorLoop_chain (by norm_num) hl
    simp only [List.nil_append] at hfs
    subst hfs
    subst hcfg
    exact ⟨hch, rfl⟩

/-! ### Shape of the radix sequence -/

theorem trialLoop_self {fuel n s q : Nat} (h : trialLoop fuel n s n = some q) : q = n := by
  cases fuel with
  | zero => simp [trialLoop] at h
  | succ fuel =>
    rw [trialLoop_succ, if_pos (Nat.mod_self n)] at h
    exact (Option.some.inj h).symm

theorem prime_of_least_dvd {n p : Nat} (hn : 1 < n) (hp : 2 ≤ p) (hd : p ∣ n)
    (hnd : ∀ d, 2 ≤ d → d < p → ¬ d ∣ n) : p.Prime := by
  have hne : n ≠ 1 := by omega
  have h1 := Nat.minFac_prime hne
  have h2 : n.minFac ≤ p := Nat.minFac_le_of_dvd hp hd
  have h3 : ¬ n.minFac < p := fun hlt => hnd _ h1.two_le hlt (Nat.minFac_dvd n)
  have h4 : n.minFac = p := by omega
  rw [← h4]; exact h1

theorem prime_of_no_small_dvd {n s b : Nat} (hn : 1 < n) (hs : Nat.sqrt n ≤ s) (hb : s < b)
    (hnd : ∀ d, 2 ≤ d → d < b → ¬ d ∣ n) : n.Prime := by
  rw [Nat.prime_def_le_sqrt]
  exact ⟨hn, fun m hm2 hms => hnd m hm2 (by omega)⟩

theorem trialLoop_odd {fuel n s p q : Nat} (hn : 1 < n) (hs : Nat.sqrt n ≤ s)
    (hp3 : 3 ≤ p) (hodd : p % 2 = 1) (hnd : ∀ d, 2 ≤ d → d < p → ¬ d ∣ n)
    (h : trialLoop fuel n s p = some q) :
    q.Prime ∧ p ≤ q ∧ q ∣ n ∧ q % 2 = 1 ∧ ∀ d, 2 ≤ d → d < q → ¬ d ∣ n := by
  have h2n : ¬ 2 ∣ n := hnd 2 (le_refl _) (by omega)
  induction fuel generalizing p with
  | zero => simp [trialLoop] at h
  | succ fuel ih =>
    rw [trialLoop_succ] at h
    by_cases h0 : n % p = 0
    · rw [if_pos h0] at h
      have hq : q = p := (Option.some.inj h).symm
      rw [hq]
      have hd : p ∣ n := Nat.dvd_of_mod_eq_zero h0
      exact ⟨prime_of_least_dvd hn (by omega) hd hnd, le_refl _, hd, hodd, hnd⟩
    · rw [if_neg h0] at h
      have hnext : nextTrial p = p + 2 := by
        rw [nextTrial_eq, if_neg (by omega), if_neg (by omega)]
      rw [hnext] at h
      have hnd2 : ∀ d, 2 ≤ d → d < p + 2 → ¬ d ∣ n := by
        intro d hd2 hdlt hdn
        by_cases h1 : d < p
        · exact hnd d hd2 h1 hdn
        · by_cases h2 : d = p
          · subst h2; exact h0 (Nat.mod_eq_zero_of_dvd hdn)
          · have h3 : d = p + 1 := by omega
            have : 2 ∣ d := by
              apply Nat.dvd_of_mod_eq_zero; omega
            exact h2n (Nat.dvd_trans this hdn)
      by_cases hgt : p + 2 > s
      · rw [if_pos hgt] at h
        have hq := trialLoop_self h
        subst hq
        have hprime : q.Prime := prime_of_no_small_dvd hn hs hgt hnd2
        refine ⟨hprime, ?_, dvd_refl _, ?_, ?_⟩
        · by_contra hlt
          exact hnd q hn (by omega) (dvd_refl _)
        · by_contra hev
          exact h2n (Nat.dvd_of_mod_eq_zero (by omega))
        · intro d hd2 hdlt hdn
          rcases (Nat.dvd_prime hprime).1 hdn with h1 | h1 <;> omega
      · rw [if_neg hgt] at h
        obtain ⟨a1, a2, a3, a4, a5⟩ := ih (by omega) (by omega) hnd2 h
        exact ⟨a1, by omega, a3, a4, a5⟩

theorem trialLoop_two {fuel n s q : Nat} (hn : 1 < n) (hs : Nat.sqrt n ≤ s)
    (h : trialLoop fuel n s 2 = some q) :
    (n % 2 = 0 ∧ q = 2) ∨
    (n % 2 = 1 ∧ q.Prime ∧ 3 ≤ q ∧ q ∣ n ∧ q % 2 = 1 ∧ ∀ d, 2 ≤ d → d < q → ¬ d ∣ n) := by
  cases fuel with
  | zero => simp [trialLoop] at h
  | succ fuel =>
    rw [trialLoop_succ] at h
    by_cases h0 : n % 2 = 0
    · rw [if_pos h0] at h
      have hq : q = _ := (Option.some.inj h).symm
      exact Or.inl ⟨h0, hq⟩
    · rw [if_neg h0] at h
      have hnext : nextTrial 2 = 3 := rfl
      rw [hnext] at h
      have hnd3 : ∀ d, 2 ≤ d → d < 3 → ¬ d ∣ n := by
        intro d hd2 hdlt hdn
        have : d = 2 := by omega
        subst this
        exact h0 (Nat.mod_eq_zero_of_dvd hdn)
      right
      refine ⟨by omega, ?_⟩
      by_cases hgt : 3 > s
      · rw [if_pos hgt] at h
        have hq := trialLoop_self h
        subst hq
        have hprime : q.Prime := prime_of_no_small_dvd hn hs hgt hnd3
        refine ⟨hprime, by omega, dvd_refl _, by omega, ?_⟩
        intro d hd2 hdlt hdn
        rcases (Nat.dvd_prime hprime).1 hdn with h1 | h1 <;> omega
      · rw [if_neg hgt] at h
        exact trialLoop_odd hn hs (le_refl _) (by norm_num) hnd3 h

theorem trialLoop_four {fuel n s q : Nat} (hn : 1 < n) (hs : Nat.sqrt n ≤ s)
    (h : trialLoop fuel n s 4 = some q) :
    (n % 4 = 0 ∧ q = 4) ∨ (n % 4 ≠ 0 ∧ n % 2 = 0 ∧ q = 2) ∨
    (n % 2 = 1 ∧ q.Prime ∧ 3 ≤ q ∧ q ∣ n ∧ q % 2 = 1 ∧ ∀ d, 2 ≤ d → d < q → ¬ d ∣ n) := by
  cases fuel with
  | zero => simp [trialLoop] at h
  | succ fuel =>
    rw [trialLoop_succ] at h
    by_cases h0 : n % 4 = 0
    · rw [if_pos h0] at h
      have hq : q = _ := (Option.some.inj h).symm
      exact Or.inl ⟨h0, hq⟩
    · rw [if_neg h0] at h
      have hnext : nextTrial 4 = 2 := rfl
      rw [hnext] at h
      right
      by_cases hgt : 2 > s
      · rw [if_pos hgt] at h
        have hq := trialLoop_self h
        subst hq
        have hlt : q < 2 * 2 := Nat.sqrt_lt.1 (by omega)
        have h23 : q = 2 ∨ q = 3 := by omega
        rcases h23 with rfl | rfl
        · exact Or.inl ⟨by norm_num, by norm_num, rfl⟩
        · refine Or.inr ⟨by norm_num, by norm_num, by norm_num, dvd_refl _, by norm_num, ?_⟩
          intro d hd2 hdlt hdn
          have : d = 2 := by omega
          subst this
          omega
      · rw [if_neg hgt] at h
        rcases trialLoop_two hn hs h with ⟨h1, h2⟩ | h1
        · exact Or.inl ⟨h0, h1, h2⟩
        · exact Or.inr h1

theorem OddTail.mono {a b : Nat} {ps : List Nat} (hab : a ≤ b) (h : OddTail b ps) :
    OddTail a ps := by
  refine ⟨?_, h.2⟩
  cases ps with
  | nil => exact List.Chain.nil
  | cons q ps =>
    have := h.1
    rw [List.chain_cons] at this ⊢
    exact ⟨le_trans hab this.1, this.2⟩

theorem div_facts {n q : Nat} (hn1 : 1 ≤ n) (hq : q ∣ n) (hq2 : 2 ≤ q) :
    1 ≤ n / q ∧ n / q ≤ n ∧ n / q ∣ n := by
  obtain ⟨k, rfl⟩ := hq
  have hk : 1 ≤ k := by
    rcases Nat.eq_zero_or_pos k with h0 | h0
    · subst h0; omega
    · exact h0
  rw [Nat.mul_div_cancel_left _ (by omega : 0 < q)]
  exact ⟨hk, Nat.le_mul_of_pos_left _ (by omega), Dvd.intro_left _ rfl⟩

theorem factorLoop_odd {MAX_FACTORS s fuel i p n : Nat} {acc out : List t_fft_factors}
    (hn1 : 1 ≤ n) (hs : Nat.sqrt n ≤ s) (hp3 : 3 ≤ p) (hodd : p % 2 = 1)
    (hnd : ∀ d, 2 ≤ d → d < p → ¬ d ∣ n)
    (h : factorLoop MAX_FACTORS s fuel i p n acc = some (0, out)) :
    ∃ fs, out = acc ++ fs ∧ OddTail p (fs.map (·.p)) := by
  induction fuel generalizing i p n acc with
  | zero => simp [factorLoop] at h
  | succ fuel ih =>
    rw [factorLoop_succ] at h
    by_cases hn : n > 1
    · rw [if_pos hn] at h
      by_cases hcap : i ≥ MAX_FACTORS
      · rw [if_pos hcap] at h
        simp at h
      · rw [if_neg hcap] at h
        cases hq : trialLoop (s + 3) n s p with
        | none => rw [hq] at h; simp at h
        | some q =>
          rw [hq] at h
          simp only at h
          obtain ⟨hprime, hpq, hqn, hqodd, hqnd⟩ := trialLoop_odd hn hs hp3 hodd hnd hq
          obtain ⟨d1, d2, d3⟩ := div_facts hn1 hqn hprime.two_le
          obtain ⟨fs, hfs, hch, hpr⟩ := ih d1 (le_trans (Nat.sqrt_le_sqrt d2) hs)
            (by omega) hqodd (fun d hd2 hdlt hdn => hqnd d hd2 hdlt (Nat.dvd_trans hdn d3)) h
          refine ⟨⟨q, n / q⟩ :: fs, by simp [hfs], ?_, ?_⟩
          · simp only [List.map_cons]
            exact List.Chain.cons hpq hch
          · intro r hr
            simp only [List.map_cons, List.mem_cons] at hr
            rcases hr with rfl | hr
            · exact ⟨hprime, hqodd⟩
            · exact hpr r hr
    · rw [if_neg hn] at h
      simp only [Option.some.injEq, Prod.mk.injEq, true_and] at h
      exact ⟨[], by simp [h], List.Chain.nil, by simp⟩

theorem factorLoop_two_odd {MAX_FACTORS s fuel i n : Nat} {acc out : List t_fft_factors}
    (hn1 : 1 ≤ n) (hs : Nat.sqrt n ≤ s) (hnodd : n % 2 = 1)
    (h : factorLoop MAX_FACTORS s fuel i 2 n acc = some (0, out)) :
    ∃ fs, out = acc ++ fs ∧ OddTail 3 (fs.map (·.p)) := by
  cases fuel with
  | zero => simp [factorLoop] at h
  | succ fuel =>
    rw [factorLoop_succ] at h
    by_cases hn : n > 1
    · rw [if_pos hn] at h
      by_cases hcap : i ≥ MAX_FACTORS
      · rw [if_pos hcap] at h
        simp at h
      · rw [if_neg hcap] at h
        cases hq : trialLoop (s + 3) n s 2 with
        | none => rw [hq] at h; simp at h
        | some q =>
          rw [hq] at h
          simp only at h
          rcases trialLoop_two hn hs hq with ⟨h0, -⟩ | ⟨-, hprime, hq3, hqn, hqodd, hqnd⟩
          · omega
          · obtain ⟨d1, d2, d3⟩ := div_facts hn1 hqn hprime.two_le
            obtain ⟨fs, hfs, hch, hpr⟩ := factorLoop_odd d1 (le_trans (Nat.sqrt_le_sqrt d2) hs)
              hq3 hqodd (fun d hd2 hdlt hdn => hqnd d hd2 hdlt (Nat.dvd_trans hdn d3)) h
            refine ⟨⟨q, n / q⟩ :: fs, by simp [hfs], ?_, ?_⟩
            · simp only [List.map_cons]
              exact List.Chain.cons hq3 hch
            · intro r hr
              simp only [List.map_cons, List.mem_cons] at hr
              rcases hr with rfl | hr
              · exact ⟨hprime, hqodd⟩
              · exact hpr r hr
    · rw [if_neg hn] at h
      simp only [Option.some.injEq, Prod.mk.injEq, true_and] at h
      exact ⟨[], by simp [h], List.Chain.nil, by simp⟩

theorem OddTail.sorted {lb : Nat} {ps : List Nat} (h : OddTail lb ps) :
    List.Sorted (· ≤ ·) ps := by
  have := (List.chain_iff_pairwise.1 h.1)
  exact (List.pairwise_cons.1 this).2

theorem factorLoop_four {MAX_FACTORS s fuel i n : Nat} {acc out : List t_fft_factors}
    (hn1 : 1 ≤ n) (hs : Nat.sqrt n ≤ s)
    (h : factorLoop MAX_FACTORS s fuel i 4 n acc = some (0, out)) :
    ∃ fs, out = acc ++ fs ∧ RadixShape n (fs.map (·.p)) := by
  induction fuel generalizing i n acc with
  | zero => simp [factorLoop] at h
  | succ fuel ih =>
    rw [factorLoop_succ] at h
    by_cases hn : n > 1
    · rw [if_pos hn] at h
      by_cases hcap : i ≥ MAX_FACTORS
      · rw [if_pos hcap] at h
        simp at h
      · rw [if_neg hcap] at h
        cases hq : trialLoop (s + 3) n s 4 with
        | none => rw [hq] at h; simp at h
        | some q =>
          rw [hq] at h
          simp only at h
          rcases trialLoop_four hn hs hq with ⟨h4, rfl⟩ | ⟨h4, h2, rfl⟩ |
            ⟨hnodd, hprime, hq3, hqn, hqodd, hqnd⟩
          · obtain ⟨d1, d2, d3⟩ := div_facts hn1 (Nat.dvd_of_mod_eq_zero h4) (by norm_num)
            obtain ⟨fs, hfs, a, b, odds, e1, e2, e3, e4, e5, e6, e7⟩ :=
              ih d1 (le_trans (Nat.sqrt_le_sqrt d2) hs) h
            have hdd : n / 4 ^ (a + 1) = n / 4 / 4 ^ a := by
              rw [pow_succ, Nat.mul_comm, Nat.div_div_eq_div_mul]
            refine ⟨⟨4, n / 4⟩ :: fs, by simp [hfs], a + 1, b, odds, ?_, ?_, ?_, e4, ?_, e6, e7⟩
            · simp only [List.map_cons, e1, List.replicate_succ, List.cons_append]
            · rw [pow_succ, Nat.mul_comm]
              exact Nat.mul_dvd_of_dvd_div (Nat.dvd_of_mod_eq_zero h4) e2
            · rw [hdd]; exact e3
            · rw [hdd]; exact e5
          · have h2n : 2 ∣ n := Nat.dvd_of_mod_eq_zero h2
            obtain ⟨d1, d2, d3⟩ := div_facts hn1 h2n (le_refl _)
            obtain ⟨fs, hfs, htail⟩ := factorLoop_two_odd d1
              (le_trans (Nat.sqrt_le_sqrt d2) hs) (by omega) h
            refine ⟨⟨2, n / 2⟩ :: fs, by simp [hfs], 0, 1, fs.map (·.p), by simp, by simp,
              ?_, le_refl _, by simpa using h2n, htail.sorted, htail.2⟩
            simpa using fun h => h4 (Nat.mod_eq_zero_of_dvd h)
          · obtain ⟨d1, d2, d3⟩ := div_facts hn1 hqn hprime.two_le
            obtain ⟨fs, hfs, hch, hpr⟩ := factorLoop_odd d1 (le_trans (Nat.sqrt_le_sqrt d2) hs)
              hq3 hqodd (fun d hd2 hdlt hdn => hqnd d hd2 hdlt (Nat.dvd_trans hdn d3)) h
            have htail : OddTail 3 (q :: fs.map (·.p)) := by
              refine ⟨List.Chain.cons hq3 hch, ?_⟩
              intro r hr
              simp only [List.mem_cons] at hr
              rcases hr with rfl | hr
              · exact ⟨hprime, hqodd⟩
              · exact hpr r hr
            refine ⟨⟨q, n / q⟩ :: fs, by simp [hfs], 0, 0, q :: fs.map (·.p), by simp, by simp,
              ?_, by norm_num, ?_, htail.sorted, htail.2⟩
            · simp only [pow_zero, Nat.div_one]
              intro h; have := Nat.mod_eq_zero_of_dvd h; omega
            · simp only [pow_zero, Nat.div_one]
              constructor
              · intro h; omega
              · intro h; have := Nat.mod_eq_zero_of_dvd h; omega
    · rw [if_neg hn] at h
      simp only [Option.some.injEq, Prod.mk.injEq, true_and] at h
      have hn' : n = 1 := by omega
      subst hn'
      exact ⟨[], by simp [h], 0, 0, [], by simp, by simp, by norm_num, by norm_num,
        by norm_num, List.sorted_nil, by simp⟩

theorem sqrt_360 : Nat.sqrt 360 = 18 := by
  symm; rw [Nat.eq_sqrt]; norm_num

theorem factorLoop_360 :
    factorLoop 32 18 (360 + 1) 0 4 360 [] =
      some (0, [⟨4, 90⟩, ⟨2, 45⟩, ⟨3, 15⟩, ⟨3, 5⟩, ⟨5, 1⟩]) := by
  decide

theorem fft_init_factors_360 : fft_init_factors 32 cfg360 = some (0, cfg360') := by
  rw [fft_init_factors_eq]
  simp only [cfg360, sqrt_360, factorLoop_360, Option.map_some']
  rfl

/-- Claim C6: when `fft_init_factors` returns `0` for a length `n ≥ 1`, the radices multiply
to `n`, every recorded remaining size is `n` divided by the radices so far (so
`p_i * m_i` is the previous remaining size, `n` for the first), and the last
remaining size is `1`. -/
theorem fft_init_factors_product {K : Type} (MAX_FACTORS : Nat) (cfg cfg' : t_fft_cfg K)
    (hn : 1 ≤ cfg.n) (h : fft_init_factors MAX_FACTORS cfg = some (0, cfg')) :
    (cfg'.factors.map (·.p)).prod = cfg.n ∧
    (∀ i (hi : i < cfg'.factors.length),
      cfg'.factors[i].n = cfg.n / ((cfg'.factors.take (i + 1)).map (·.p)).prod) ∧
    (∀ i (hi : i < cfg'.factors.length),
      cfg'.factors[i].p * cfg'.factors[i].n =
        if i = 0 then cfg.n else (cfg'.factors.getD (i - 1) ⟨0, 0⟩).n) ∧
    (∀ f, cfg'.factors.getLast? = some f → f.n = 1) := by
  obtain ⟨hch, -⟩ := fft_init_factors_chain h
  exact ⟨hch.prod_eq hn, hch.rem_eq, hch.step_eq, hch.last_eq hn⟩

/-- The stage sequence of a length, and the outcome for every capacity. -/
theorem fft_init_factors_stages {K : Type} (cfg : t_fft_cfg K) :
    ∃ fs : List t_fft_factors, StageChain cfg.n fs ∧ ∀ MAX_FACTORS,
      fft_init_factors MAX_FACTORS cfg =
        some (if fs.length ≤ MAX_FACTORS then 0 else -1,
              { cfg with factors := fs.take MAX_FACTORS }) := by
  obtain ⟨fs, hfs⟩ := factorLoop_total (Nat.sqrt cfg.n) (cfg.n + 1) 4 cfg.n
    (le_refl _) (by norm_num)
  have hall : ∀ MAX_FACTORS, fft_init_factors MAX_FACTORS cfg =
        some (if fs.length ≤ MAX_FACTORS then 0 else -1,
              { cfg with factors := fs.take MAX_FACTORS }) := by
    intro MAX_FACTORS
    rw [fft_init_factors_eq, hfs MAX_FACTORS 0 [] (Nat.zero_le _)]
    simp
  refine ⟨fs, ?_, hall⟩
  have h := hall fs.length
  simp only [le_refl, if_true, List.take_length] at h
  exact (fft_init_factors_chain h).1

/-- Claim C9: `fft_init_factors` always returns, and there is one stage sequence `fs`
for the length such that, for every capacity, the status is `-1` exactly when
`fs` has more stages than the capacity; otherwise (also with exactly
`MAX_FACTORS` stages) the status is `0` and all of `fs` is recorded. -/
theorem fft_init_factors_status {K : Type} (cfg : t_fft_cfg K) :
    ∃ fs : List t_fft_factors, StageChain cfg.n fs ∧ ∀ MAX_FACTORS,
      fft_init_factors MAX_FACTORS cfg =
        some (if fs.length ≤ MAX_FACTORS then 0 else -1,
              { cfg with factors := fs.take MAX_FACTORS }) :=
  fft_init_factors_stages cfg

/-- Witness for claim C6 at `n = 360` with capacity 32. -/
theorem fft_init_factors_product_witness :
    1 ≤ cfg360.n ∧ fft_init_factors 32 cfg360 = some (0, cfg360') ∧
    ((cfg360'.factors.map (·.p)).prod = cfg360.n ∧
    (∀ i (hi : i < cfg360'.factors.length),
      cfg360'.factors[i].n = cfg360.n / ((cfg360'.factors.take (i + 1)).map (·.p)).prod) ∧
    (∀ i (hi : i < cfg360'.factors.length),
      cfg360'.factors[i].p * cfg360'.factors[i].n =
        if i = 0 then cfg360.n else (cfg360'.factors.getD (i - 1) ⟨0, 0⟩).n) ∧
    (∀ f, cfg360'.factors.getLast? = some f → f.n = 1)) :=
  ⟨by decide, fft_init_factors_360,
    fft_init_factors_product 32 cfg360 cfg360' (by decide) fft_init_factors_360⟩

/-- Claim C7: for `n ≥ 2`, when `fft_init_factors` returns `0` the radix sequence is
`a` radices 4 (with `4 ^ a` the largest power of 4 dividing `n`), then one
radix 2 exactly when the remaining length is even, then odd primes in
non-decreasing order. -/
theorem fft_init_factors_shape {K : Type} (MAX_FACTORS : Nat) (cfg cfg' : t_fft_cfg K)
    (hn : 2 ≤ cfg.n) (h : fft_init_factors MAX_FACTORS cfg = some (0, cfg')) :
    ∃ a b odds, cfg'.factors.map (·.p) = List.replicate a 4 ++ List.replicate b 2 ++ odds ∧
      4 ^ a ∣ cfg.n ∧ ¬ 4 ∣ cfg.n / 4 ^ a ∧ b ≤ 1 ∧ (b = 1 ↔ 2 ∣ cfg.n / 4 ^ a) ∧
      List.Sorted (· ≤ ·) odds ∧ ∀ q ∈ odds, Nat.Prime q ∧ q % 2 = 1 := by
  rw [fft_init_factors_eq] at h
  cases hl : factorLoop MAX_FACTORS (Nat.sqrt cfg.n) (cfg.n + 1) 0 4 cfg.n [] with
  | none => rw [hl] at h; simp at h
  | some r =>
    rw [hl] at h
    obtain ⟨st, fs⟩ := r
    simp only [Option.map_some', Option.some.injEq, Prod.mk.injEq] at h
    obtain ⟨hst, hcfg⟩ := h
    subst hst
    obtain ⟨fs', hfs, hsh⟩ := factorLoop_four (by omega) (le_refl _) hl
    simp only [List.nil_append] at hfs
    subst hfs
    subst hcfg
    exact hsh

/-- Witness for claim C7: `n = 360` gives exactly `[(4,90),(2,45),(3,15),(3,5),(5,1)]`. -/
theorem fft_init_factors_shape_witness :
    2 ≤ cfg360.n ∧ fft_init_factors 32 cfg360 = some (0, cfg360') ∧
    cfg360'.factors = [⟨4, 90⟩, ⟨2, 45⟩, ⟨3, 15⟩, ⟨3, 5⟩, ⟨5, 1⟩] ∧
    ∃ a b odds, cfg360'.factors.map (·.p) = List.replicate a 4 ++ List.replicate b 2 ++ odds ∧
      4 ^ a ∣ cfg360.n ∧ ¬ 4 ∣ cfg360.n / 4 ^ a ∧ b ≤ 1 ∧ (b = 1 ↔ 2 ∣ cfg360.n / 4 ^ a) ∧
      List.Sorted (· ≤ ·) odds ∧ ∀ q ∈ odds, Nat.Prime q ∧ q % 2 = 1 :=
  ⟨by decide, fft_init_factors_360, rfl,
    fft_init_factors_shape 32 cfg360 cfg360' (by decide) fft_init_factors_360⟩

theorem butterfly_generic {K : Type} [Field K] (cfg : t_fft_cfg K) (out : Buf K)
    (o out_stride m p : Nat) (hp : 5 < p) :
    butterfly cfg out o out_stride m p = butterflyN out o out_stride cfg.phase m p cfg.n := by
  unfold butterfly
  split <;> first | omega | rfl

theorem StageChain.of_prime {n : Nat} {fs : List t_fft_factors} (h : StageChain n fs)
    (hn : n.Prime) : fs = [⟨n, 1⟩] := by
  cases fs with
  | nil => simp [StageChain] at h; have := hn.two_le; omega
  | cons f fs =>
    obtain ⟨h2, hmul, hch⟩ := h
    have hfp : f.p = n := by
      rcases (Nat.dvd_prime hn).1 (Dvd.intro _ hmul) with h1 | h1
      · omega
      · exact h1
    have hfn : f.n = 1 := by
      rw [hfp] at hmul
      have hpos : 0 < n := hn.pos
      exact Nat.eq_of_mul_eq_mul_left hpos (by rw [hmul, Nat.mul_one])
    cases fs with
    | nil =>
      obtain ⟨fp, fn⟩ := f
      simp only at hfp hfn
      subst hfp; subst hfn; rfl
    | cons g fs =>
      obtain ⟨g2, gmul, -⟩ := hch
      rw [hfn] at gmul
      have := Nat.eq_one_of_mul_eq_one_right gmul
      have := Nat.eq_one_of_mul_eq_one_left gmul
      omega

/-- A prime length is factorized into the single stage `(n, 1)`, which for
`n > 5` runs the generic kernel after the gather loop. -/
theorem prime_single_stage {K : Type} [Field K] (MAX_FACTORS : Nat) (cfg : t_fft_cfg K)
    (hcap : 0 < MAX_FACTORS) (hn : cfg.n.Prime) :
    fft_init_factors MAX_FACTORS cfg = some (0, { cfg with factors := [⟨cfg.n, 1⟩] }) ∧
    (5 < cfg.n → ∀ (inp : InBuf K) (out : Buf K),
      fft_c2c { cfg with factors := [⟨cfg.n, 1⟩] } inp out =
        some (butterflyN
          (forLoop (toInt cfg.n).toNat
            (fun i out => out.set (0 + i) (inp.read out (0 + i * 1 * 1))) out)
          0 1 cfg.phase 1 cfg.n cfg.n)) := by
  obtain ⟨fs, hch, hall⟩ := fft_init_factors_stages cfg
  have hfs := hch.of_prime hn
  subst hfs
  refine ⟨?_, ?_⟩
  · rw [hall MAX_FACTORS]
    have : ([⟨cfg.n, 1⟩] : List t_fft_factors).length ≤ MAX_FACTORS := by simpa using hcap
    rw [if_pos this, List.take_of_length_le this]
  · intro h5 inp out
    rw [fft_c2c, transform_single, butterfly_generic _ _ _ _ _ _ h5]

/-- Claim C8: for a prime length `n` (and a capacity of at least one stage)
`fft_init_factors` returns `0` with the single stage `(n, 1)`; for prime
`n > 5`, `fft_c2c` on that configuration is the gather loop of `transform`,
run as often as its `int` copy of `n` allows, followed by the generic kernel
`butterflyN` with radix `n`. -/
theorem fft_init_factors_prime {K : Type} [Field K] (MAX_FACTORS : Nat) (cfg : t_fft_cfg K)
    (hcap : 0 < MAX_FACTORS) (hn : cfg.n.Prime) :
    fft_init_factors MAX_FACTORS cfg = some (0, { cfg with factors := [⟨cfg.n, 1⟩] }) ∧
    (5 < cfg.n → ∀ (inp : InBuf K) (out : Buf K),
      fft_c2c { cfg with factors := [⟨cfg.n, 1⟩] } inp out =
        some (butterflyN
          (forLoop (toInt cfg.n).toNat
            (fun i out => out.set (0 + i) (inp.read out (0 + i * 1 * 1))) out)
          0 1 cfg.phase 1 cfg.n cfg.n)) :=
  prime_single_stage MAX_FACTORS cfg hcap hn

/-- Witness for claim C8 at the prime `n = 7` with capacity 32. -/
theorem fft_init_factors_prime_witness :
    0 < 32 ∧ cfg7.n.Prime ∧
    (fft_init_factors 32 cfg7 = some (0, { cfg7 with factors := [⟨cfg7.n, 1⟩] }) ∧
    (5 < cfg7.n → ∀ (inp : InBuf ℚ) (out : Buf ℚ),
      fft_c2c { cfg7 with factors := [⟨cfg7.n, 1⟩] } inp out =
        some (butterflyN
          (forLoop (toInt cfg7.n).toNat
            (fun i out => out.set (0 + i) (inp.read out (0 + i * 1 * 1))) out)
          0 1 cfg7.phase 1 cfg7.n cfg7.n))) :=
  ⟨by decide, by norm_num [cfg7], fft_init_factors_prime 32 cfg7 (by decide) (by norm_num [cfg7])⟩

/-! ## Set-up of the real-input adapter -/

/-- Claim C10: for every odd length `nr`, `fftr_init_cfg` returns `-1` and the
configuration record is the one it was given: the inner complex config is not
initialised and no table is built. -/
theorem fftr_init_cfg_odd {K : Type} [Field K] (L : Libm K) (MAX_FACTORS : Nat)
    (rcfg : t_fftr_cfg K) (nr : Nat) (direction : fft_direction) (h : nr % 2 = 1) :
    fftr_init_cfg L MAX_FACTORS rcfg nr direction = some (-1, rcfg) := by
  unfold fftr_init_cfg
  rw [if_pos (by omega)]

/-- Witness for claim C10 at `nr = 3`. -/
theorem fftr_init_cfg_odd_witness :
    3 % 2 = 1 ∧
    fftr_init_cfg (⟨3, id, id⟩ : Libm ℚ) 32 ⟨cfg360, []⟩ 3 FFT_FORWARD =
      some (-1, ⟨cfg360, []⟩) :=
  ⟨by decide, fftr_init_cfg_odd _ 32 _ 3 FFT_FORWARD (by decide)⟩

/-! ## Buffers and loops -/

@[simp]
theorem Buf.get_set {K : Type} (a : Buf K) (i : Nat) (v : Cx K) (j : Nat) :
    (a.set i v).get j = if j = i then v else a.get j := rfl

theorem Buf.set_get_self {K : Type} (a : Buf K) (i : Nat) : a.set i (a.get i) = a := by
  refine Buf.ext (funext fun j => ?_)
  simp only [Buf.get_set]
  split_ifs with h
  · rw [h]
  · rfl

@[simp]
theorem forLoop_zero {σ : Type} (body : Nat → σ → σ) (s : σ) : forLoop 0 body s = s := rfl

theorem forLoop_succ {σ : Type} (n : Nat) (body : Nat → σ → σ) (s : σ) :
    forLoop (n + 1) body s = body n (forLoop n body s) := rfl

theorem forLoop_one {σ : Type} (body : Nat → σ → σ) (s : σ) : forLoop 1 body s = body 0 s := rfl

/-- A loop whose every iteration leaves the state alone does nothing. -/
theorem forLoop_id {σ : Type} (n : Nat) (body : Nat → σ → σ) (s : σ)
    (h : ∀ i, i < n → ∀ t, body i t = t) : forLoop n body s = s := by
  induction n with
  | zero => rfl
  | succ n ih =>
    rw [forLoop_succ, h n (Nat.lt_succ_self n), ih (fun i hi => h i (Nat.lt_succ_of_lt hi))]

/-- An accumulation loop is a finite sum. -/
theorem forLoop_sum {K : Type} [CommRing K] (cnt : Nat) (f : Nat → Cx K) (s0 : Cx K) :
    forLoop cnt (fun k s => s + f k) s0 = s0 + ∑ k in Finset.range cnt, f k := by
  induction cnt with
  | zero => simp
  | succ cnt ih => rw [forLoop_succ, ih, Finset.sum_range_succ, add_assoc]

/-- Cells that no later iteration writes keep the value of the shorter loop. -/
theorem forLoop_get_stable {K : Type} (a cnt : Nat) (body : Nat → Buf K → Buf K) (b : Buf K)
    (j : Nat) (hacnt : a ≤ cnt)
    (h : ∀ i, a ≤ i → i < cnt → ∀ t : Buf K, (body i t).get j = t.get j) :
    (forLoop cnt body b).get j = (forLoop a body b).get j := by
  induction cnt with
  | zero =>
    have : a = 0 := by omega
    subst this; rfl
  | succ cnt ih =>
    by_cases hc : a = cnt + 1
    · subst hc; rfl
    · rw [forLoop_succ, h cnt (by omega) (Nat.lt_succ_self _)]
      exact ih (by omega) (fun i h1 h2 => h i h1 (by omega))

/-- A loop of stores of state-independent values into distinct cells. -/
theorem forLoop_set_get {K : Type} (p : Nat) (c : Nat → Nat) (v : Nat → Cx K) (b : Buf K)
    (hinj : ∀ j j', j < p → j' < p → c j = c j' → j = j') (j : Nat) (hj : j < p) :
    (forLoop p (fun j out => out.set (c j) (v j)) b).get (c j) = v j := by
  rw [forLoop_get_stable (j + 1) p _ b (c j) hj]
  · rw [forLoop_succ, Buf.get_set, if_pos rfl]
  · intro i h1 h2 t
    rw [Buf.get_set, if_neg]
    intro h
    have := hinj j i hj h2 h
    omega

/-- A loop of stores leaves every cell outside the stored ones alone. -/
theorem forLoop_set_frame {K : Type} (p : Nat) (c : Nat → Nat) (v : Nat → Buf K → Cx K)
    (b : Buf K) (k : Nat) (hk : ∀ j, j < p → k ≠ c j) :
    (forLoop p (fun j out => out.set (c j) (v j out)) b).get k = b.get k := by
  rw [forLoop_get_stable 0 p _ b k (Nat.zero_le _)]
  · rfl
  · intro i _ h2 t
    rw [Buf.get_set, if_neg (hk i h2)]

/-- A loop over independent lanes: iteration `i` writes only cells of lane `i`
and what it writes there depends only on that lane. -/
theorem forLoop_lanes {K : Type} (L : Nat → Nat → Prop) (body : Nat → Buf K → Buf K) (m : Nat)
    (hframe : ∀ i, i < m → ∀ (b : Buf K) j, ¬ L i j → (body i b).get j = b.get j)
    (hlocal : ∀ i, i < m → ∀ b b' : Buf K, (∀ j, L i j → b.get j = b'.get j) →
      ∀ j, L i j → (body i b).get j = (body i b').get j)
    (hdisj : ∀ i i' j, i < m → i' < m → L i j → L i' j → i = i') (b : Buf K) :
    (∀ j, (∀ i, i < m → ¬ L i j) → (forLoop m body b).get j = b.get j) ∧
    (∀ i, i < m → ∀ j, L i j → (forLoop m body b).get j = (body i b).get j) := by
  induction m with
  | zero => exact ⟨fun j _ => rfl, fun i hi => absurd hi (Nat.not_lt_zero i)⟩
  | succ m ih =>
    obtain ⟨ih1, ih2⟩ := ih (fun i hi => hframe i (Nat.lt_succ_of_lt hi))
      (fun i hi => hlocal i (Nat.lt_succ_of_lt hi))
      (fun i i' j hi hi' => hdisj i i' j (Nat.lt_succ_of_lt hi) (Nat.lt_succ_of_lt hi'))
    refine ⟨?_, ?_⟩
    · intro j hj
      rw [forLoop_succ, hframe m (Nat.lt_succ_self m) _ j (hj m (Nat.lt_succ_self m))]
      exact ih1 j (fun i hi => hj i (Nat.lt_succ_of_lt hi))
    · intro i hi j hL
      rw [forLoop_succ]
      by_cases him : i = m
      · subst him
        apply hlocal i hi _ _ _ j hL
        intro j' hL'
        apply ih1
        intro i' hi' hL2
        have := hdisj i' i j' (Nat.lt_succ_of_lt hi') hi hL2 hL'
        omega
      · have hlt : i < m := by omega
        rw [hframe m (Nat.lt_succ_self m) _ j]
        · exact ih2 i hlt j hL
        · intro hL2
          exact him (hdisj i m j hi (Nat.lt_succ_self m) hL hL2)

/-! ## The generic kernel -/

theorem lane_inj {m i j j' : Nat} (hm : 0 < m) (h : i + j * m = i + j' * m) : j = j' := by
  have : j * m = j' * m := by omega
  exact Nat.eq_of_mul_eq_mul_right hm this

theorem lane_disj {m i i' j j' : Nat} (hi : i < m) (hi' : i' < m)
    (h : i + j * m = i' + j' * m) : i = i' := by
  have h1 : (i + j * m) % m = i := by rw [Nat.add_mul_mod_self_right, Nat.mod_eq_of_lt hi]
  have h2 : (i' + j' * m) % m = i' := by rw [Nat.add_mul_mod_self_right, Nat.mod_eq_of_lt hi']
  rw [h] at h1
  omega

theorem butterflyN_lane {K : Type} [Field K] (b : Buf K) (o stride : Nat) (phase : List (Cx K)) (m p n : Nat) :
    (∀ c, (∀ i j, i < m → j < p → c ≠ o + (i + j * m)) →
      (butterflyN b o stride phase m p n).get c = b.get c) ∧
    (∀ i j, i < m → j < p →
      (butterflyN b o stride phase m p n).get (o + (i + j * m)) =
        genericSum b o stride phase m p n i j) := by
  have key := forLoop_lanes (K := K) (fun i c => ∃ j, j < p ∧ c = o + (i + j * m))
    (fun i out =>
      let t : Nat → Cx K := fun j => out.get (o + (i + m * j))
      forLoop p (fun j out =>
        let tstride := u32 ((i + j * m) * stride)
        let s := forFrom 1 (p - 1) (fun k s => s + t k * tw phase (u32 (k * tstride) % n)) (t 0)
        out.set (o + (i + j * m)) s) out) m ?_ ?_ ?_ b
  · obtain ⟨k1, k2⟩ := key
    refine ⟨?_, ?_⟩
    · intro c hc
      apply k1
      rintro i hi ⟨j, hj, rfl⟩
      exact hc i j hi hj rfl
    · intro i j hi hj
      have := k2 i hi (o + (i + j * m)) ⟨j, hj, rfl⟩
      unfold butterflyN
      rw [this]
      simp only
      rw [forLoop_set_get p (fun j => o + (i + j * m)) _ b _ j hj]
      · unfold genericSum forFrom
        rw [forLoop_sum]
      · intro j1 j2 _ _ h
        exact lane_inj (by omega) (Nat.add_left_cancel h)
  · intro i hi b c hc
    simp only
    apply forLoop_set_frame p (fun j => o + (i + j * m)) (fun j _ => _) b c
    intro j hj hcj
    exact hc ⟨j, hj, hcj⟩
  · intro i hi b b' hbb c hc
    obtain ⟨j, hj, rfl⟩ := hc
    simp only
    have hinj : ∀ j1 j2, j1 < p → j2 < p → o + (i + j1 * m) = o + (i + j2 * m) → j1 = j2 :=
      fun j1 j2 _ _ h => lane_inj (by omega) (Nat.add_left_cancel h)
    rw [forLoop_set_get p (fun j => o + (i + j * m)) _ b hinj j hj,
      forLoop_set_get p (fun j => o + (i + j * m)) _ b' hinj j hj]
    have ht : ∀ k, k < p → b.get (o + (i + m * k)) = b'.get (o + (i + m * k)) := by
      intro k hk
      exact hbb _ ⟨k, hk, by rw [Nat.mul_comm]⟩
    unfold forFrom
    rw [forLoop_sum, forLoop_sum, ht 0 (by omega)]
    congr 1
    apply Finset.sum_congr rfl
    intro k hk
    rw [ht (1 + k) (by have := Finset.mem_range.1 hk; omega)]
  · rintro i i' c hi hi' ⟨j, hj, rfl⟩ ⟨j', hj', h⟩
    exact lane_disj hi hi' (Nat.add_left_cancel h)

theorem tw_phaseTable {K : Type} [Field K] (L : Libm K) (n : Nat) (direction : fft_direction) (i : Nat) (hi : i < n) :
    tw (phaseTable L n direction) i =
      Cx.ofReal (L.cos ((i : K) * (if direction = FFT_BACKWARD then (2 * L.M_PI) / (n : K)
        else -(2 * L.M_PI) / (n : K)))) +
      Cx.I * Cx.ofReal (L.sin ((i : K) * (if direction = FFT_BACKWARD then (2 * L.M_PI) / (n : K)
        else -(2 * L.M_PI) / (n : K)))) := by
  unfold tw phaseTable
  simp only
  have hlen : ∀ f : Nat → Cx K, i < ((List.range n).map f).length := by
    intro f; rw [List.length_map, List.length_range]; exact hi
  rw [List.getD_eq_getElem _ _ (hlen _), List.getElem_map, List.getElem_range]

/-- The gather loop of the base case of `transform`, for a disjoint input. -/
theorem gather_disjoint {K : Type} (data out : Buf K) (p i_off in_stride o out_stride : Nat) :
    (∀ i, i < p →
      (forLoop p (fun i out => out.set (o + i)
        ((InBuf.disjoint data).read out (i_off + i * in_stride * out_stride))) out).get (o + i) =
        data.get (i_off + i * in_stride * out_stride)) ∧
    (∀ c, (c < o ∨ o + p ≤ c) →
      (forLoop p (fun i out => out.set (o + i)
        ((InBuf.disjoint data).read out (i_off + i * in_stride * out_stride))) out).get c =
        out.get c) := by
  refine ⟨?_, ?_⟩
  · intro i hi
    exact forLoop_set_get p (fun i => o + i)
      (fun i => data.get (i_off + i * in_stride * out_stride)) out
      (fun j j' _ _ h => Nat.add_left_cancel h) i hi
  · intro c hc
    apply forLoop_set_frame p (fun i => o + i) (fun i _ => _) out c
    intro j hj
    omega

/-- The gather loop of an in-place single-stage call copies every cell onto itself. -/
theorem gather_aliased_top {K : Type} (out : Buf K) (p : Nat) :
    forLoop p (fun i out => out.set (0 + i)
      ((InBuf.aliased : InBuf K).read out (0 + i * 1 * 1))) out = out := by
  apply forLoop_id
  intro i _ t
  simp only [InBuf.read, Nat.zero_add, Nat.mul_one]
  exact Buf.set_get_self t i

/-! ## Exact twiddles over the reals -/

theorem cis_pow (θ : ℝ) (k : Nat) :
    (Cx.ofReal (Real.cos θ) + Cx.I * Cx.ofReal (Real.sin θ)) ^ k =
      (⟨Real.cos (k * θ), Real.sin (k * θ)⟩ : Cx ℝ) := by
  induction k with
  | zero => ext <;> simp
  | succ k ih =>
    rw [pow_succ, ih]
    have h : ((k + 1 : Nat) : ℝ) * θ = k * θ + θ := by push_cast; ring
    rw [h, Real.cos_add, Real.sin_add]
    ext <;> simp
    ring

theorem prime_65537 : Nat.Prime 65537 := by norm_num

theorem tw_phaseTable_zero {K : Type} [Field K] (L : Libm K) (n : Nat) (direction : fft_direction)
    (hn : 0 < n) (hc : L.cos 0 = 1) (hs : L.sin 0 = 0) :
    tw (phaseTable L n direction) 0 = 1 := by
  rw [tw_phaseTable L n direction 0 hn]
  ext <;> simp [hc, hs]

theorem impulse_get {K : Type} [Field K] (a j : Nat) :
    (impulse a : Buf K).get j = if j = a then 1 else 0 := rfl

theorem dft_impulse {K : Type} [Field K] (w : Cx K) (n a k : Nat) (ha : a < n) :
    dft w n (impulse a) k = w ^ (a * k) := by
  unfold dft
  rw [Finset.sum_eq_single a]
  · simp [impulse_get]
  · intro j _ hj
    simp [impulse_get, hj]
  · intro h
    exact absurd (Finset.mem_range.2 ha) h

/-- A prime length above 5 that fits an `int` is one generic stage: every
output is tap 0 plus the other taps weighted by the table entries at the
32-bit indices. -/
theorem fft_c2c_prime {K : Type} [Field K] (L : Libm K) (MAX_FACTORS : Nat) (cfg0 : t_fft_cfg K)
    (n : Nat) (direction : fft_direction) (hcap : 0 < MAX_FACTORS) (hn : n.Prime) (h5 : 5 < n)
    (hmax : n ≤ INT_MAX) (data out : Buf K) :
    ∃ cfg out', fft_init_cfg L MAX_FACTORS cfg0 n direction = some (0, cfg) ∧
      cfg.n = n ∧ cfg.direction = direction ∧ cfg.phase = phaseTable L n direction ∧
      fft_c2c cfg (InBuf.disjoint data) out = some out' ∧
      ∀ j, j < n → out'.get j = data.get 0 +
        ∑ k in Finset.range (n - 1),
          data.get (1 + k) * tw (phaseTable L n direction) (u32 ((1 + k) * u32 j) % n) := by
  obtain ⟨h1, h2⟩ := prime_single_stage MAX_FACTORS
    ({ cfg0 with n := n, direction := direction, phase := phaseTable L n direction } : t_fft_cfg K)
    hcap hn
  have h3 := h2 h5 (InBuf.disjoint data) out
  simp only [toInt_toNat_of_le hmax] at h3
  refine ⟨_, _, h1, rfl, rfl, rfl, h3, ?_⟩
  intro j hj
  obtain ⟨-, hval⟩ := butterflyN_lane
    (forLoop n (fun i out => out.set (0 + i)
      ((InBuf.disjoint data).read out (0 + i * 1 * 1))) out)
    0 1 (phaseTable L n direction) 1 n n
  have hv := hval 0 j Nat.one_pos hj
  simp only [Nat.zero_add, Nat.mul_one] at hv
  simp only [Nat.zero_add, Nat.mul_one]
  rw [hv]
  unfold genericSum
  obtain ⟨hg, -⟩ := gather_disjoint data out n 0 1 0 1
  simp only [Nat.zero_add, Nat.mul_one] at hg
  simp only [Nat.zero_add, Nat.mul_one, Nat.mul_zero, Nat.one_mul]
  rw [hg 0 (by omega)]
  congr 1
  apply Finset.sum_congr rfl
  intro k hk
  have hk' := Finset.mem_range.1 hk
  rw [hg _ (by omega)]

/-- Claim C1 fails at `n = 65537`: for the forward transform on the impulse at index 65536
the code stores `1` in `out[65536]`, since the twiddle index `65536 * 65536`
wraps to `0` in 32 bits, while the transform value there is not `1`. -/
theorem fft_c2c_wraps_65537 (MAX_FACTORS : Nat) (hcap : 0 < MAX_FACTORS) (cfg0 : t_fft_cfg ℝ)
    (out : Buf ℝ) :
    ∃ cfg out', fft_init_cfg ⟨Real.pi, Real.cos, Real.sin⟩ MAX_FACTORS cfg0 65537 FFT_FORWARD =
        some (0, cfg) ∧
      fft_c2c cfg (InBuf.disjoint (impulse 65536)) out = some out' ∧
      out'.get 65536 = 1 ∧
      dft (twiddle ⟨Real.pi, Real.cos, Real.sin⟩ 65537 FFT_FORWARD) 65537 (impulse 65536) 65536
        ≠ 1 := by
  obtain ⟨cfg, out', h1, -, -, -, h2, h3⟩ := fft_c2c_prime ⟨Real.pi, Real.cos, Real.sin⟩
    MAX_FACTORS cfg0 65537 FFT_FORWARD hcap prime_65537 (by norm_num) (by decide)
    (impulse 65536) out
  refine ⟨cfg, out', h1, h2, ?_, ?_⟩
  · rw [h3 65536 (by norm_num), Finset.sum_eq_single 65535]
    · have hidx : u32 ((1 + 65535) * u32 65536) % 65537 = 0 := by norm_num [u32]
      rw [hidx, tw_phaseTable_zero _ _ _ (by norm_num) Real.cos_zero Real.sin_zero]
      simp [impulse_get]
    · intro k hk hne
      have hk' := Finset.mem_range.1 hk
      have : 1 + k ≠ 65536 := by omega
      simp [impulse_get, this]
    · intro h
      exact absurd (Finset.mem_range.2 (by norm_num)) h
  · rw [dft_impulse _ _ _ _ (by norm_num)]
    unfold twiddle angle
    simp only [if_neg (by decide : ¬ FFT_FORWARD = FFT_BACKWARD)]
    rw [cis_pow]
    intro h
    have hcos := congrArg Cx.re h
    simp only [Cx.one_re] at hcos
    rw [Real.cos_eq_one_iff] at hcos
    obtain ⟨m, hm⟩ := hcos
    have hpi : Real.pi ≠ 0 := Real.pi_ne_zero
    have h2 : (m : ℝ) * 65537 = -(65536 * 65536) := by
      push_cast at hm
      field_simp at hm
      nlinarith [hm, Real.pi_pos]
    have h3 : m * 65537 = -(65536 * 65536) := by exact_mod_cast h2
    omega

theorem factorLoop_one (MAX_FACTORS s fuel i p : Nat) (acc : List t_fft_factors) :
    factorLoop MAX_FACTORS s (fuel + 1) i p 1 acc = some (0, acc) := by
  rw [factorLoop_succ, if_neg (by decide)]

/-- Length 1: `fft_init_cfg` returns `0` and writes no factor entry. -/
theorem fft_init_cfg_one {K : Type} [Field K] (L : Libm K) (MAX_FACTORS : Nat)
    (cfg0 : t_fft_cfg K) (direction : fft_direction) :
    fft_init_cfg L MAX_FACTORS cfg0 1 direction =
      some (0, { cfg0 with n := 1, direction := direction, phase := phaseTable L 1 direction,
                           factors := [] }) := by
  unfold fft_init_cfg
  rw [fft_init_factors_eq]
  simp only [factorLoop_one, Option.map_some']

/-- Claim C2 fails at `n = 1`: `fft_init_cfg` returns `0` but writes no factor entry, and
`fft_c2c` on that configuration reads `factors[0]`, which holds nothing: no
output is defined, in either direction, so there is no round trip. -/
theorem fft_c2c_length_one {K : Type} [Field K] (L : Libm K) (MAX_FACTORS : Nat)
    (cfg0 : t_fft_cfg K) (direction : fft_direction) (inp : InBuf K) (out : Buf K) :
    ∃ cfg, fft_init_cfg L MAX_FACTORS cfg0 1 direction = some (0, cfg) ∧
      cfg.factors = [] ∧ fft_c2c cfg inp out = none :=
  ⟨_, fft_init_cfg_one L MAX_FACTORS cfg0 direction, rfl, rfl⟩

/-- Claim C3 fails at real length 2: `fftr_init_cfg` returns `0` with an inner complex
config of length 1, on which the forward real transform has no defined output,
so there is nothing for `fftr_c2r` to invert. -/
theorem fftr_r2c_length_two {K : Type} [Field K] (L : Libm K) (MAX_FACTORS : Nat)
    (rcfg0 : t_fftr_cfg K) (scratch : Buf K) (inp : Nat → K) (out : Buf K) :
    ∃ rcfg, fftr_init_cfg L MAX_FACTORS rcfg0 2 FFT_FORWARD = some (0, rcfg) ∧
      rcfg.cfg.n = 1 ∧ rcfg.cfg.factors = [] ∧
      fftr_r2c rcfg scratch inp out = none := by
  have h1 := fft_init_cfg_one L MAX_FACTORS rcfg0.cfg FFT_FORWARD
  refine ⟨t_fftr_cfg.mk
    ({ rcfg0.cfg with n := 1, direction := FFT_FORWARD, phase := phaseTable L 1 FFT_FORWARD,
                      factors := [] } : t_fft_cfg K)
    (packTable L 1 FFT_FORWARD), ?_, rfl, rfl, ?_⟩
  · unfold fftr_init_cfg
    rw [if_neg (by decide)]
    simp only [Nat.reduceDiv, h1]
  · unfold fftr_r2c
    rw [if_neg (by simp)]
    rfl

theorem Cx.natCast_re {K : Type} [CommRing K] (n : Nat) : ((n : Cx K)).re = (n : K) := by
  induction n with
  | zero => simp
  | succ n ih => simp [ih]

theorem Cx.natCast_im {K : Type} [CommRing K] (n : Nat) : ((n : Cx K)).im = 0 := by
  induction n with
  | zero => simp
  | succ n ih => simp [ih]

theorem Cx.ofNat_re {K : Type} [CommRing K] (n : Nat) [n.AtLeastTwo] :
    (OfNat.ofNat n : Cx K).re = OfNat.ofNat n := by
  rw [← Nat.cast_ofNat, Cx.natCast_re, Nat.cast_ofNat]

theorem Cx.ofNat_im {K : Type} [CommRing K] (n : Nat) [n.AtLeastTwo] :
    (OfNat.ofNat n : Cx K).im = 0 := by
  rw [← Nat.cast_ofNat, Cx.natCast_im]

theorem sqrt_8 : Nat.sqrt 8 = 2 := by
  symm; rw [Nat.eq_sqrt]; norm_num

theorem factorLoop_8 :
    factorLoop 32 2 (8 + 1) 0 4 8 [] = some (0, [⟨4, 2⟩, ⟨2, 1⟩]) := by
  decide

/-- In-place call on a `(4,2),(2,1)` configuration (length 8): cell 0. -/
theorem inplace_eight_get_zero {K : Type} [Field K] (cfg : t_fft_cfg K)
    (hf : cfg.factors = [⟨4, 2⟩, ⟨2, 1⟩]) (h0 : tw cfg.phase 0 = 1) (b : Buf K) :
    ∃ r, fft_c2c cfg InBuf.aliased b = some r ∧
      r.get 0 = 4 * b.get 0 - 2 * b.get 4 + b.get 5 + b.get 6 + b.get 7 := by
  have e2 : (toInt 2).toNat = 2 := rfl
  refine ⟨_, by
    rw [fft_c2c, hf, transform_cons cfg ⟨4, 2⟩ [⟨2, 1⟩] _ _ _ _ _ _ (by decide) (by decide)
      (by decide), if_neg (by decide : ¬ ((⟨4, 2⟩ : t_fft_factors).n = 1))]
    simp only [transform_single, e2, forLoop, Option.bind, Option.map]; rfl, ?_⟩
  simp [butterfly, butterfly2, butterfly4, forLoop, InBuf.read, h0]
  ring

/-- Disjoint call on a `(4,2),(2,1)` configuration (length 8): cell 0. -/
theorem disjoint_eight_get_zero {K : Type} [Field K] (cfg : t_fft_cfg K)
    (hf : cfg.factors = [⟨4, 2⟩, ⟨2, 1⟩]) (h0 : tw cfg.phase 0 = 1) (b out : Buf K) :
    ∃ r, fft_c2c cfg (InBuf.disjoint b) out = some r ∧
      r.get 0 = b.get 0 + b.get 1 + b.get 2 + b.get 3 + b.get 4 + b.get 5 + b.get 6 + b.get 7 := by
  have e2 : (toInt 2).toNat = 2 := rfl
  refine ⟨_, by
    rw [fft_c2c, hf, transform_cons cfg ⟨4, 2⟩ [⟨2, 1⟩] _ _ _ _ _ _ (by decide) (by decide)
      (by decide), if_neg (by decide : ¬ ((⟨4, 2⟩ : t_fft_factors).n = 1))]
    simp only [transform_single, e2, forLoop, Option.bind, Option.map]; rfl, ?_⟩
  simp [butterfly, butterfly2, butterfly4, forLoop, InBuf.read, h0]
  ring

/-- Counterexample to claim C5: for the exact forward configuration of length 8 and the
impulse `[1,0,0,0,0,0,0,0]`, the in-place call leaves `4` in cell 0 while the
call with a disjoint output buffer leaves `1` there. -/
theorem fft_c2c_inplace_differs :
    ∃ cfg r r',
      fft_init_cfg (⟨Real.pi, Real.cos, Real.sin⟩ : Libm ℝ) 32 ⟨0, FFT_FORWARD, [], []⟩ 8
        FFT_FORWARD = some (0, cfg) ∧
      fft_c2c cfg InBuf.aliased (impulse 0) = some r ∧
      fft_c2c cfg (InBuf.disjoint (impulse 0)) ⟨fun _ => 0⟩ = some r' ∧
      r.get 0 = 4 ∧ r'.get 0 = 1 ∧ r.get 0 ≠ r'.get 0 := by
  have hcfg : fft_init_cfg (⟨Real.pi, Real.cos, Real.sin⟩ : Libm ℝ) 32 ⟨0, FFT_FORWARD, [], []⟩ 8
      FFT_FORWARD = some (0, ⟨8, FFT_FORWARD, [⟨4, 2⟩, ⟨2, 1⟩],
        phaseTable ⟨Real.pi, Real.cos, Real.sin⟩ 8 FFT_FORWARD⟩) := by
    unfold fft_init_cfg
    rw [fft_init_factors_eq]
    simp only [sqrt_8, factorLoop_8, Option.map_some']
  have h0 : tw (phaseTable (⟨Real.pi, Real.cos, Real.sin⟩ : Libm ℝ) 8 FFT_FORWARD) 0 = 1 :=
    tw_phaseTable_zero _ _ _ (by norm_num) Real.cos_zero Real.sin_zero
  obtain ⟨r, hr, hr0⟩ := inplace_eight_get_zero
    (⟨8, FFT_FORWARD, [⟨4, 2⟩, ⟨2, 1⟩], phaseTable ⟨Real.pi, Real.cos, Real.sin⟩ 8 FFT_FORWARD⟩ :
      t_fft_cfg ℝ) rfl h0 (impulse 0)
  obtain ⟨r', hr', hr0'⟩ := disjoint_eight_get_zero
    (⟨8, FFT_FORWARD, [⟨4, 2⟩, ⟨2, 1⟩], phaseTable ⟨Real.pi, Real.cos, Real.sin⟩ 8 FFT_FORWARD⟩ :
      t_fft_cfg ℝ) rfl h0 (impulse 0) ⟨fun _ => 0⟩
  have e4 : r.get 0 = 4 := by
    rw [hr0]; simp [impulse_get]
  have e1 : r'.get 0 = 1 := by
    rw [hr0']; simp [impulse_get]
  refine ⟨_, r, r', hcfg, hr, hr', e4, e1, ?_⟩
  rw [e4, e1]
  intro h
  have := congrArg Cx.re h
  rw [Cx.ofNat_re, Cx.one_re] at this
  norm_num at this

/-! ### Single-stage configurations run in place -/

theorem butterfly_single_local {K : Type} [Field K] (cfg : t_fft_cfg K) (p : Nat) (g b : Buf K)
    (hgb : ∀ k, k < p → g.get k = b.get k) :
    ∀ k, k < p → (butterfly cfg g 0 1 1 p).get k = (butterfly cfg b 0 1 1 p).get k := by
  intro k hk
  by_cases h5 : 5 < p
  · rw [butterfly_generic _ _ _ _ _ _ h5, butterfly_generic _ _ _ _ _ _ h5]
    have hg := (butterflyN_lane g 0 1 cfg.phase 1 p cfg.n).2 0 k Nat.one_pos hk
    have hb := (butterflyN_lane b 0 1 cfg.phase 1 p cfg.n).2 0 k Nat.one_pos hk
    simp only [Nat.zero_add, Nat.mul_one] at hg hb
    rw [hg, hb]
    unfold genericSum
    simp only [Nat.zero_add, Nat.mul_zero, Nat.one_mul]
    rw [hgb 0 (by omega)]
    congr 1
    apply Finset.sum_congr rfl
    intro j hj
    have := Finset.mem_range.1 hj
    rw [hgb (1 + j) (by omega)]
  · have hp : p = 0 ∨ p = 1 ∨ p = 2 ∨ p = 3 ∨ p = 4 ∨ p = 5 := by omega
    rcases hp with rfl | rfl | rfl | rfl | rfl | rfl
    · omega
    · have hk0 : k = 0 := by omega
      subst hk0
      have h0 := hgb 0 (by norm_num)
      simp [butterfly, butterflyN, forLoop, forFrom, h0]
    · have h0 := hgb 0 (by norm_num)
      have h1 := hgb 1 (by norm_num)
      interval_cases k <;> simp [butterfly, butterfly2, forLoop, h0, h1]
    · have h0 := hgb 0 (by norm_num)
      have h1 := hgb 1 (by norm_num)
      have h2 := hgb 2 (by norm_num)
      interval_cases k <;> simp [butterfly, butterfly3, forLoop, h0, h1, h2]
    · have h0 := hgb 0 (by norm_num)
      have h1 := hgb 1 (by norm_num)
      have h2 := hgb 2 (by norm_num)
      have h3 := hgb 3 (by norm_num)
      interval_cases k <;> simp [butterfly, butterfly4, forLoop, h0, h1, h2, h3]
    · have h0 := hgb 0 (by norm_num)
      have h1 := hgb 1 (by norm_num)
      have h2 := hgb 2 (by norm_num)
      have h3 := hgb 3 (by norm_num)
      have h4 := hgb 4 (by norm_num)
      interval_cases k <;> simp [butterfly, butterfly5, forLoop, h0, h1, h2, h3, h4]

/-- A single stage `(p, 1)` whose radix is above `INT_MAX`: the gather loop of
`transform` does not run, so the kernel works on the old contents of `out`
and a disjoint input is never read. -/
theorem fft_c2c_single_stage_no_gather {K : Type} [Field K] (cfg : t_fft_cfg K) (p : Nat)
    (hf : cfg.factors = [⟨p, 1⟩]) (hp : INT_MAX < p) (h32 : p < 2 ^ 32) (inp : InBuf K)
    (out : Buf K) :
    fft_c2c cfg inp out = some (butterfly cfg out 0 1 1 p) := by
  rw [fft_c2c, hf, transform_single, toInt_toNat_of_gt hp h32, forLoop_zero]

/-- Claim C5 as amended: for a configuration whose factor sequence is the single stage
`(p, 1)` with `p` at most `INT_MAX` (what `fft_init_factors` records for
`n = 4` and for prime `n` below `2^31`), the in-place call leaves in cells
`0 .. p-1` the values the call with a disjoint output buffer produces from the
original contents. -/
theorem fft_c2c_inplace_single_stage {K : Type} [Field K] (cfg : t_fft_cfg K) (p : Nat)
    (hf : cfg.factors = [⟨p, 1⟩]) (hp : p ≤ INT_MAX) (b out : Buf K) :
    ∃ r r', fft_c2c cfg InBuf.aliased b = some r ∧
      fft_c2c cfg (InBuf.disjoint b) out = some r' ∧
      ∀ k, k < p → r.get k = r'.get k := by
  refine ⟨_, _, by rw [fft_c2c, hf, transform_single, toInt_toNat_of_le hp],
    by rw [fft_c2c, hf, transform_single, toInt_toNat_of_le hp], ?_⟩
  intro k hk
  rw [gather_aliased_top]
  apply butterfly_single_local
  · intro j hj
    have := (gather_disjoint b out p 0 1 0 1).1 j hj
    simp only [Nat.zero_add, Nat.mul_one] at this ⊢
    rw [this]
  · exact hk

theorem tw_packTable {K : Type} [Field K] (L : Libm K) (n : Nat) (direction : fft_direction)
    (i : Nat) (hi : i < n / 2) :
    tw (packTable L n direction) i =
      Cx.ofReal (L.cos ((if direction = FFT_BACKWARD then L.M_PI else -L.M_PI) *
        (((i + 1 : Nat) : K) / (n : K) + 1 / 2))) +
      Cx.I * Cx.ofReal (L.sin ((if direction = FFT_BACKWARD then L.M_PI else -L.M_PI) *
        (((i + 1 : Nat) : K) / (n : K) + 1 / 2))) := by
  unfold tw packTable
  simp only
  have hlen : ∀ f : Nat → Cx K, i < ((List.range (n / 2)).map f).length := by
    intro f; rw [List.length_map, List.length_range]; exact hi
  rw [List.getD_eq_getElem _ _ (hlen _), List.getElem_map, List.getElem_range]

/-- Bin 1 of the forward real transform, from the half-length complex result. -/
theorem fftr_r2c_get_one {K : Type} [Field K] (rcfg : t_fftr_cfg K) (scratch : Buf K)
    (x : Nat → K) (out buffer : Buf K) (hdir : rcfg.cfg.direction = FFT_FORWARD)
    (hn : 3 ≤ rcfg.cfg.n)
    (hc : fft_c2c rcfg.cfg (InBuf.disjoint (castComplex x)) scratch = some buffer) :
    ∃ out', fftr_r2c rcfg scratch x out = some out' ∧
      out'.get 1 = Cx.ofReal (1 / 2) *
        ((buffer.get 1 + Cx.conjf (buffer.get (rcfg.cfg.n - 1))) +
         (buffer.get 1 - Cx.conjf (buffer.get (rcfg.cfg.n - 1))) * tw rcfg.phase 0) := by
  unfold fftr_r2c
  rw [if_neg (by simp [hdir]), hc]
  refine ⟨_, rfl, ?_⟩
  simp only
  unfold forFrom
  rw [forLoop_get_stable 1 (rcfg.cfg.n / 2) _ _ 1 (by omega)]
  · rw [forLoop_one]
    simp only [Buf.get_set, Nat.add_zero, Nat.sub_self]
    rw [if_neg (by omega), if_pos trivial]
  · intro i h1 h2 t
    simp only [Buf.get_set]
    rw [if_neg (by omega), if_neg (by omega)]

theorem Cx.eq_zero_of_mul_eq_zero (u v : Cx ℝ) (h : u * v = 0) : u = 0 ∨ v = 0 := by
  have h1 := congrArg Cx.re h
  have h2 := congrArg Cx.im h
  simp only [Cx.mul_re, Cx.mul_im, Cx.zero_re, Cx.zero_im] at h1 h2
  have h3 : (u.re ^ 2 + u.im ^ 2) * (v.re ^ 2 + v.im ^ 2) = 0 := by
    have : (u.re ^ 2 + u.im ^ 2) * (v.re ^ 2 + v.im ^ 2) =
        (u.re * v.re - u.im * v.im) ^ 2 + (u.re * v.im + u.im * v.re) ^ 2 := by ring
    rw [this, h1, h2]; ring
  rcases mul_eq_zero.1 h3 with h4 | h4
  · left
    have a1 : u.re = 0 := by nlinarith [sq_nonneg u.re, sq_nonneg u.im]
    have a2 : u.im = 0 := by nlinarith [sq_nonneg u.re, sq_nonneg u.im]
    ext <;> simp [a1, a2]
  · right
    have a1 : v.re = 0 := by nlinarith [sq_nonneg v.re, sq_nonneg v.im]
    have a2 : v.im = 0 := by nlinarith [sq_nonneg v.re, sq_nonneg v.im]
    ext <;> simp [a1, a2]

theorem castComplex_realImpulse_even {K : Type} [Field K] (a j : Nat) :
    (castComplex (realImpulse (2 * a) : Nat → K)).get j = if j = a then 1 else 0 := by
  unfold castComplex realImpulse
  by_cases h : j = a
  · subst h; ext <;> simp
  · have h1 : ¬ 2 * j = 2 * a := by omega
    have h2 : ¬ 2 * j + 1 = 2 * a := by omega
    ext <;> simp [h, h1, h2]

theorem rdft_realImpulse {K : Type} [Field K] (w : Cx K) (N a k : Nat) (ha : a < N) :
    rdft w N (realImpulse a) k = w ^ (a * k) := by
  unfold rdft
  rw [Finset.sum_eq_single a]
  · have : Cx.ofReal ((realImpulse a : Nat → K) a) = 1 := by
      ext <;> simp [realImpulse]
    rw [this, one_mul]
  · intro j _ hj
    have : Cx.ofReal ((realImpulse a : Nat → K) j) = 0 := by
      ext <;> simp [realImpulse, hj]
    rw [this, zero_mul]
  · intro h
    exact absurd (Finset.mem_range.2 ha) h

theorem Cx.cis_eq (c s : ℝ) : Cx.ofReal c + Cx.I * Cx.ofReal s = (⟨c, s⟩ : Cx ℝ) := by
  ext <;> simp

theorem Cx.conjf_one : Cx.conjf (1 : Cx ℝ) = 1 := by
  ext <;> simp

theorem Cx.half_mul_two : Cx.ofReal (1 / 2 : ℝ) * 2 = 1 := by
  ext
  · rw [Cx.mul_re, Cx.ofNat_re, Cx.ofNat_im]; simp
  · rw [Cx.mul_im, Cx.ofNat_re, Cx.ofNat_im]; simp

theorem Cx.half_sum_eq (z a : Cx ℝ)
    (h : Cx.ofReal (1 / 2) * ((z + 1) + (z - 1) * a) = z) : (z - 1) * (a - 1) = 0 := by
  have h2 := Cx.half_mul_two
  linear_combination 2 * h - ((z + 1) + (z - 1) * a) * h2

theorem sin_alpha_pos : 0 < Real.sin (((65536 : Nat) : ℝ) * (-(2 * Real.pi) / ((65537 : Nat) : ℝ))) := by
  have h : ((65536 : Nat) : ℝ) * (-(2 * Real.pi) / ((65537 : Nat) : ℝ)) + 2 * Real.pi
      = 2 * Real.pi / 65537 := by
    push_cast; ring
  rw [← Real.sin_add_two_pi, h]
  apply Real.sin_pos_of_pos_of_lt_pi
  · positivity
  · have := Real.pi_pos
    rw [div_lt_iff₀ (by norm_num)]
    nlinarith

theorem sin_phi_neg :
    Real.sin (-Real.pi * ((((0 + 1 : Nat) : ℝ)) / ((65537 : Nat) : ℝ) + 1 / 2)) < 0 := by
  have hpi := Real.pi_pos
  apply Real.sin_neg_of_neg_of_neg_pi_lt
  · have : (0 : ℝ) < (((0 + 1 : Nat) : ℝ)) / ((65537 : Nat) : ℝ) + 1 / 2 := by positivity
    nlinarith
  · have : (((0 + 1 : Nat) : ℝ)) / ((65537 : Nat) : ℝ) + 1 / 2 < 1 := by
      push_cast; norm_num
    nlinarith

/-- Claim C4 fails at `N = 131074` (inner complex length 65537): for the forward real
transform on the real impulse at index 131072, bin 1 of the output is not the transform
value `sum over j of x[j] * w^j`, because the inner complex transform stores
`1` in cell 65536 (the twiddle index `65536 * 65536` wraps to `0`). -/
theorem fftr_r2c_wraps_131074 (MAX_FACTORS : Nat) (hcap : 0 < MAX_FACTORS)
    (rcfg0 : t_fftr_cfg ℝ) (scratch out : Buf ℝ) :
    ∃ rcfg out', fftr_init_cfg ⟨Real.pi, Real.cos, Real.sin⟩ MAX_FACTORS rcfg0 131074
        FFT_FORWARD = some (0, rcfg) ∧
      fftr_r2c rcfg scratch (realImpulse (2 * 65536)) out = some out' ∧
      out'.get 1 ≠ rdft (twiddle ⟨Real.pi, Real.cos, Real.sin⟩ 131074 FFT_FORWARD) 131074
        (realImpulse (2 * 65536)) 1 := by
  obtain ⟨cfg, buffer, h1, hn, hdir, hph, h2, h3⟩ := fft_c2c_prime ⟨Real.pi, Real.cos, Real.sin⟩
    MAX_FACTORS rcfg0.cfg 65537 FFT_FORWARD hcap prime_65537 (by norm_num) (by decide)
    (castComplex (realImpulse (2 * 65536))) scratch
  have h3n : (3 : Nat) ≤ cfg.n := by rw [hn]; norm_num
  obtain ⟨out', ho, hval⟩ := fftr_r2c_get_one
    (⟨cfg, packTable ⟨Real.pi, Real.cos, Real.sin⟩ 65537 FFT_FORWARD⟩ : t_fftr_cfg ℝ)
    scratch (realImpulse (2 * 65536)) out buffer hdir h3n h2
  refine ⟨_, out', ?_, ho, ?_⟩
  · unfold fftr_init_cfg
    rw [if_neg (by decide)]
    have hd : 131074 / 2 = 65537 := by norm_num
    simp only [hd, h1]
  · -- the two cells of the inner transform that bin 1 reads
    have hb1 : buffer.get 1 =
        (⟨Real.cos (((65536 : Nat) : ℝ) * (-(2 * Real.pi) / ((65537 : Nat) : ℝ))),
          Real.sin (((65536 : Nat) : ℝ) * (-(2 * Real.pi) / ((65537 : Nat) : ℝ)))⟩ : Cx ℝ) := by
      rw [h3 1 (by norm_num), Finset.sum_eq_single 65535]
      · have hidx : u32 ((1 + 65535) * u32 1) % 65537 = 65536 := by norm_num [u32]
        rw [hidx, tw_phaseTable _ _ _ _ (by norm_num), castComplex_realImpulse_even,
          castComplex_realImpulse_even]
        simp only [if_neg (by decide : ¬ FFT_FORWARD = FFT_BACKWARD)]
        rw [if_neg (by norm_num), if_pos (by norm_num), Cx.cis_eq]
        simp
      · intro k hk hne
        have hk' := Finset.mem_range.1 hk
        rw [castComplex_realImpulse_even, if_neg (by omega), zero_mul]
      · intro h
        exact absurd (Finset.mem_range.2 (by norm_num)) h
    have hbn : buffer.get 65536 = 1 := by
      rw [h3 65536 (by norm_num), Finset.sum_eq_single 65535]
      · have hidx : u32 ((1 + 65535) * u32 65536) % 65537 = 0 := by norm_num [u32]
        rw [hidx, tw_phaseTable_zero _ _ _ (by norm_num) Real.cos_zero Real.sin_zero,
          castComplex_realImpulse_even, castComplex_realImpulse_even]
        rw [if_neg (by norm_num), if_pos (by norm_num)]
        simp
      · intro k hk hne
        have hk' := Finset.mem_range.1 hk
        rw [castComplex_realImpulse_even, if_neg (by omega), zero_mul]
      · intro h
        exact absurd (Finset.mem_range.2 (by norm_num)) h
    have hpk : tw (packTable (⟨Real.pi, Real.cos, Real.sin⟩ : Libm ℝ) 65537 FFT_FORWARD) 0 =
        (⟨Real.cos (-Real.pi * ((((0 + 1 : Nat) : ℝ)) / ((65537 : Nat) : ℝ) + 1 / 2)),
          Real.sin (-Real.pi * ((((0 + 1 : Nat) : ℝ)) / ((65537 : Nat) : ℝ) + 1 / 2))⟩ : Cx ℝ) := by
      rw [tw_packTable _ _ _ _ (by norm_num)]
      simp only [if_neg (by decide : ¬ FFT_FORWARD = FFT_BACKWARD)]
      rw [Cx.cis_eq]
    have hexp : rdft (twiddle ⟨Real.pi, Real.cos, Real.sin⟩ 131074 FFT_FORWARD) 131074
        (realImpulse (2 * 65536)) 1 = buffer.get 1 := by
      rw [rdft_realImpulse _ _ _ _ (by norm_num), hb1]
      unfold twiddle angle
      simp only [if_neg (by decide : ¬ FFT_FORWARD = FFT_BACKWARD)]
      rw [cis_pow]
      have harg : (((2 * 65536 * 1 : Nat) : ℝ)) * (-(2 * Real.pi) / ((131074 : Nat) : ℝ)) =
          ((65536 : Nat) : ℝ) * (-(2 * Real.pi) / ((65537 : Nat) : ℝ)) := by
        push_cast; ring
      rw [harg]
    rw [hexp, hval]
    simp only [hn]
    have h65536 : 65537 - 1 = 65536 := by norm_num
    rw [h65536, hbn, Cx.conjf_one, hpk]
    intro heq
    have hprod := Cx.half_sum_eq _ _ heq
    rcases Cx.eq_zero_of_mul_eq_zero _ _ hprod with hz | ha
    · have := congrArg Cx.im hz
      rw [hb1] at this
      simp only [Cx.sub_im, Cx.one_im, Cx.zero_im, sub_zero] at this
      have hpos := sin_alpha_pos
      linarith
    · have := congrArg Cx.im ha
      simp only [Cx.sub_im, Cx.one_im, Cx.zero_im, sub_zero] at this
      have hneg := sin_phi_neg
      linarith

/-! ## The transform computes the discrete Fourier transform -/

theorem laneKernel_lane {K : Type} (f : (Nat → Cx K) → Nat → Nat → Cx K) (b : Buf K)
    (o m p : Nat)
    (hf : ∀ (t t' : Nat → Cx K) i q, (∀ r, r < p → t r = t' r) → f t i q = f t' i q) :
    (∀ c, (∀ i q, i < m → q < p → c ≠ o + (i + q * m)) →
      (laneKernel f b o m p).get c = b.get c) ∧
    (∀ i q, i < m → q < p →
      (laneKernel f b o m p).get (o + (i + q * m)) =
        f (fun r => b.get (o + (i + m * r))) i q) := by
  have key := forLoop_lanes (fun i c => ∃ q, q < p ∧ c = o + (i + q * m))
    (fun i out =>
      let t : Nat → Cx K := fun r => out.get (o + (i + m * r))
      forLoop p (fun q out => out.set (o + (i + q * m)) (f t i q)) out) m ?_ ?_ ?_ b
  · obtain ⟨k1, k2⟩ := key
    refine ⟨?_, ?_⟩
    · intro c hc
      apply k1
      rintro i hi ⟨q, hq, rfl⟩
      exact hc i q hi hq rfl
    · intro i q hi hq
      have := k2 i hi (o + (i + q * m)) ⟨q, hq, rfl⟩
      unfold laneKernel
      rw [this]
      simp only
      rw [forLoop_set_get p (fun q => o + (i + q * m)) _ b _ q hq]
      intro j1 j2 _ _ h
      exact lane_inj (by omega) (Nat.add_left_cancel h)
  · intro i hi b c hc
    simp only
    apply forLoop_set_frame p (fun q => o + (i + q * m)) (fun q _ => _) b c
    intro q hq hcq
    exact hc ⟨q, hq, hcq⟩
  · intro i hi b b' hbb c hc
    obtain ⟨q, hq, rfl⟩ := hc
    simp only
    have hinj : ∀ j1 j2, j1 < p → j2 < p → o + (i + j1 * m) = o + (i + j2 * m) → j1 = j2 :=
      fun j1 j2 _ _ h => lane_inj (by omega) (Nat.add_left_cancel h)
    rw [forLoop_set_get p (fun q => o + (i + q * m)) _ b hinj q hq,
      forLoop_set_get p (fun q => o + (i + q * m)) _ b' hinj q hq]
    apply hf
    intro r hr
    exact hbb _ ⟨r, hr, by rw [Nat.mul_comm]⟩
  · rintro i i' c hi hi' ⟨q, hq, rfl⟩ ⟨q', hq', h⟩
    exact lane_disj hi hi' (Nat.add_left_cancel h)

theorem butterfly2_eq {K : Type} [Field K] (out : Buf K) (o stride : Nat) (phase : List (Cx K))
    (m : Nat) : butterfly2 out o stride phase m = laneKernel (out2 stride phase) out o m 2 := by
  unfold butterfly2 laneKernel
  congr 1
  funext i out
  simp only [forLoop, out2, Nat.mul_zero, Nat.mul_one, Nat.zero_mul, Nat.one_mul, Nat.add_zero]

theorem butterfly3_eq {K : Type} [Field K] (out : Buf K) (o stride : Nat) (phase : List (Cx K))
    (m : Nat) : butterfly3 out o stride phase m = laneKernel (out3 stride m phase) out o m 3 := by
  unfold butterfly3 laneKernel
  refine congrArg (fun body => forLoop m body out) ?_
  funext i out
  simp only [forLoop, out3, Nat.mul_zero, Nat.mul_one, Nat.zero_mul, Nat.one_mul, Nat.add_zero,
    Nat.mul_comm m 2]

theorem butterfly4_eq {K : Type} [Field K] (out : Buf K) (o stride : Nat) (phase : List (Cx K))
    (m : Nat) (direction : fft_direction) :
    butterfly4 out o stride phase m direction =
      laneKernel (out4 stride phase direction) out o m 4 := by
  unfold butterfly4 laneKernel
  refine congrArg (fun body => forLoop m body out) ?_
  funext i out
  simp only [forLoop, out4, Nat.mul_zero, Nat.mul_one, Nat.zero_mul, Nat.one_mul, Nat.add_zero,
    Nat.mul_comm m 2, Nat.mul_comm m 3]

theorem butterfly5_eq {K : Type} [Field K] (out : Buf K) (o stride : Nat) (phase : List (Cx K))
    (m : Nat) : butterfly5 out o stride phase m = laneKernel (out5 stride m phase) out o m 5 := by
  unfold butterfly5 laneKernel
  refine congrArg (fun body => forLoop m body out) ?_
  funext i out
  simp only [forLoop, out5, Nat.mul_zero, Nat.mul_one, Nat.zero_mul, Nat.one_mul, Nat.add_zero,
    Nat.mul_comm m 2, Nat.mul_comm m 3, Nat.mul_comm m 4, Nat.add_comm m i,
    Nat.add_comm (2 * m) i, Nat.add_comm (3 * m) i, Nat.add_comm (4 * m) i]

theorem butterflyN_eq {K : Type} [Field K] (out : Buf K) (o stride : Nat) (phase : List (Cx K))
    (m p n : Nat) :
    butterflyN out o stride phase m p n = laneKernel (outN stride m p n phase) out o m p := rfl

theorem Cx.re_add_im {K : Type} [CommRing K] (z : Cx K) :
    z = Cx.ofReal z.re + Cx.I * Cx.ofReal z.im := by
  ext <;> simp

theorem Cx.conjf_eq {K : Type} [CommRing K] (z : Cx K) :
    Cx.conjf z = Cx.ofReal z.re - Cx.I * Cx.ofReal z.im := by
  ext <;> simp

theorem Cx.I_mul_I {K : Type} [CommRing K] : (Cx.I : Cx K) * Cx.I = -1 := by
  ext <;> simp

theorem Cx.ofReal_neg {K : Type} [CommRing K] (r : K) : Cx.ofReal (-r) = -Cx.ofReal r := by
  ext <;> simp

theorem Cx.ofReal_half_add {K : Type} [Field K] [CharZero K] :
    (Cx.ofReal (1 / 2) : Cx K) + Cx.ofReal (1 / 2) = 1 := by
  ext
  · simp only [Cx.add_re, Cx.ofReal_re, Cx.one_re]; norm_num
  · simp

theorem out2_dft {K : Type} [Field K] (cfg : t_fft_cfg K) (w : Cx K) (E : ExactTwiddles cfg w) (s m : Nat)
    (hn : s * (2 * m) = cfg.n) (hs : 0 < s) (t : Nat → Cx K) (i q : Nat) (hi : i < m) (hq : q < 2) :
    out2 s cfg.phase t i q = ∑ r in Finset.range 2, t r * w ^ (r * ((i + q * m) * s)) := by
  have hlt : i * s < cfg.n := by
    rw [← hn]
    calc i * s < m * s := Nat.mul_lt_mul_of_pos_right hi hs
      _ = s * m := Nat.mul_comm _ _
      _ ≤ s * (2 * m) := Nat.mul_le_mul_left _ (by omega)
  have hω : w ^ (m * s) = -1 := E.half (m * s) (by rw [← hn]; ring)
  simp only [Finset.sum_range_succ, Finset.sum_range_zero, zero_add, Nat.zero_mul, pow_zero,
    mul_one, Nat.one_mul]
  interval_cases q
  · simp only [out2, E.table _ hlt, Nat.zero_mul, Nat.add_zero]
  · simp only [out2, E.table _ hlt, Nat.one_mul]
    rw [Nat.add_mul, pow_add, hω]
    ring

theorem term_split {K : Type} [Field K] (w : Cx K) (r i q m s : Nat) :
    w ^ (r * ((i + q * m) * s)) = w ^ (r * i * s) * (w ^ (m * s)) ^ (r * q) := by
  rw [← pow_mul, ← pow_add]
  congr 1
  ring

theorem tap_lt {s p m n i r : Nat} (hn : s * (p * m) = n) (hs : 0 < s) (hi : i < m)
    (hr : r < p) : r * i * s < n := by
  rw [← hn]
  have h1 : r * i ≤ (p - 1) * i := Nat.mul_le_mul_right _ (by omega)
  have h2 : (p - 1) * i < p * m := by
    calc (p - 1) * i ≤ (p - 1) * m := Nat.mul_le_mul_left _ (by omega)
      _ < p * m := Nat.mul_lt_mul_of_pos_right (by omega) (by omega)
  calc r * i * s < p * m * s := Nat.mul_lt_mul_of_pos_right (by omega) hs
    _ = s * (p * m) := Nat.mul_comm _ _

theorem out4_dft {K : Type} [Field K] (cfg : t_fft_cfg K) (w : Cx K) (E : ExactTwiddles cfg w) (s m : Nat)
    (hn : s * (4 * m) = cfg.n) (hs : 0 < s) (t : Nat → Cx K) (i q : Nat) (hi : i < m) (hq : q < 4) :
    out4 s cfg.phase cfg.direction t i q =
      ∑ r in Finset.range 4, t r * w ^ (r * ((i + q * m) * s)) := by
  have h1 := E.table _ (tap_lt hn hs hi (by norm_num : 1 < 4))
  have h2 := E.table _ (tap_lt hn hs hi (by norm_num : 2 < 4))
  have h3 := E.table _ (tap_lt hn hs hi (by norm_num : 3 < 4))
  rw [Nat.one_mul] at h1
  have hω : w ^ (m * s) = if cfg.direction = FFT_BACKWARD then Cx.I else -Cx.I :=
    E.quarter (m * s) (by rw [← hn]; ring)
  have hω2 : (w ^ (m * s)) ^ 2 = -1 := by
    rw [← pow_mul]; exact E.half _ (by rw [← hn]; ring)
  have e3 : (w ^ (m * s)) ^ 3 = -(w ^ (m * s)) := by
    rw [pow_succ, hω2]; ring
  have e4 : (w ^ (m * s)) ^ 4 = 1 := by
    rw [show 4 = 2 * 2 from rfl, pow_mul, hω2]; ring
  have e6 : (w ^ (m * s)) ^ 6 = -1 := by
    rw [show 6 = 2 * 3 from rfl, pow_mul, hω2]; ring
  have e9 : (w ^ (m * s)) ^ 9 = w ^ (m * s) := by
    rw [show 9 = 2 * 4 + 1 from rfl, pow_add, pow_mul, hω2, pow_one]; ring
  simp only [Finset.sum_range_succ, Finset.sum_range_zero, zero_add, term_split]
  interval_cases q <;>
    simp only [out4, h1, h2, h3, Nat.zero_mul, Nat.mul_zero, Nat.mul_one, Nat.one_mul, pow_zero,
      pow_one, hω2, e3, e4, e6, e9, Nat.reduceMul] <;>
    (try rw [hω]) <;> ring

theorem out3_dft {K : Type} [Field K] (cfg : t_fft_cfg K) (w : Cx K) (E : ExactTwiddles cfg w) (s m : Nat)
    (hn : s * (3 * m) = cfg.n) (hs : 0 < s) (t : Nat → Cx K) (i q : Nat) (hi : i < m) (hq : q < 3) :
    out3 s m cfg.phase t i q = ∑ r in Finset.range 3, t r * w ^ (r * ((i + q * m) * s)) := by
  have h1 := E.table _ (tap_lt hn hs hi (by norm_num : 1 < 3))
  have h2 := E.table _ (tap_lt hn hs hi (by norm_num : 2 < 3))
  rw [Nat.one_mul] at h1
  have hm : 0 < m := by omega
  have hsm : s * m < cfg.n := by
    rw [← hn]; exact Nat.mul_lt_mul_of_pos_left (by omega) hs
  have hph : tw cfg.phase (s * m) = w ^ (m * s) := by
    rw [E.table _ hsm, Nat.mul_comm]
  have hre : (w ^ (m * s)).re = -(1 / 2) := E.third (m * s) (by rw [← hn]; ring)
  have hω : w ^ (m * s) = -Cx.ofReal (1 / 2) + Cx.I * Cx.ofReal ((w ^ (m * s)).im) := by
    conv_lhs => rw [Cx.re_add_im (w ^ (m * s)), hre, Cx.ofReal_neg]
  have hω2 : (w ^ (m * s)) ^ 2 = -Cx.ofReal (1 / 2) - Cx.I * Cx.ofReal ((w ^ (m * s)).im) := by
    have hc := E.conj_pow (m * s) (by rw [Nat.mul_comm]; exact Nat.le_of_lt hsm)
    have hsub : cfg.n - m * s = m * s * 2 := by rw [← hn]; zify [show m * s ≤ s * (3 * m) by nlinarith]; ring
    rw [hsub, pow_mul w (m * s) 2, Cx.conjf_eq, hre, Cx.ofReal_neg] at hc
    exact hc.symm
  have hω3 : (w ^ (m * s)) ^ 3 = 1 := by
    rw [← pow_mul, show m * s * 3 = cfg.n by rw [← hn]; ring, E.pow_n]
  have e4 : (w ^ (m * s)) ^ 4 = w ^ (m * s) := by
    rw [pow_succ, hω3, one_mul]
  simp only [Finset.sum_range_succ, Finset.sum_range_zero, zero_add, term_split]
  generalize hJ : (w ^ (m * s)).im = J at hω hω2
  interval_cases q <;>
    simp only [out3, h1, h2, hph, Cx.cimag_eq, hJ, Nat.zero_mul, Nat.mul_zero, Nat.mul_one,
      Nat.one_mul, pow_zero, pow_one, hω2, e4, Nat.reduceMul] <;>
    (try rw [hω]) <;> ring

theorem out5_dft {K : Type} [Field K] (cfg : t_fft_cfg K) (w : Cx K) (E : ExactTwiddles cfg w) (s m : Nat)
    (hn : s * (5 * m) = cfg.n) (hs : 0 < s) (t : Nat → Cx K) (i q : Nat) (hi : i < m) (hq : q < 5) :
    out5 s m cfg.phase t i q = ∑ r in Finset.range 5, t r * w ^ (r * ((i + q * m) * s)) := by
  have h1 := E.table _ (tap_lt hn hs hi (by norm_num : 1 < 5))
  have h2 := E.table _ (tap_lt hn hs hi (by norm_num : 2 < 5))
  have h3 := E.table _ (tap_lt hn hs hi (by norm_num : 3 < 5))
  have h4 := E.table _ (tap_lt hn hs hi (by norm_num : 4 < 5))
  rw [Nat.one_mul] at h1
  have hm : 0 < m := by omega
  have hsm : s * m < cfg.n := by
    rw [← hn]; exact Nat.mul_lt_mul_of_pos_left (by omega) hs
  have hsm2 : 2 * s * m < cfg.n := by
    rw [← hn, Nat.mul_assoc, Nat.mul_left_comm]; exact Nat.mul_lt_mul_of_pos_left (by omega) hs
  have hph : tw cfg.phase (s * m) = w ^ (m * s) := by
    rw [E.table _ hsm, Nat.mul_comm]
  have hph2 : tw cfg.phase (2 * s * m) = w ^ (2 * s * m) := E.table _ hsm2
  have hle : m * s ≤ s * (5 * m) := by nlinarith
  have hle2 : 2 * s * m ≤ s * (5 * m) := by nlinarith
  have hω : w ^ (m * s) =
      Cx.ofReal ((w ^ (m * s)).re) + Cx.I * Cx.ofReal ((w ^ (m * s)).im) :=
    Cx.re_add_im _
  have e2 : (w ^ (m * s)) ^ 2 =
      Cx.ofReal ((w ^ (2 * s * m)).re) + Cx.I * Cx.ofReal ((w ^ (2 * s * m)).im) := by
    rw [← pow_mul, show m * s * 2 = 2 * s * m by ring]
    exact Cx.re_add_im _
  have e3 : (w ^ (m * s)) ^ 3 =
      Cx.ofReal ((w ^ (2 * s * m)).re) - Cx.I * Cx.ofReal ((w ^ (2 * s * m)).im) := by
    have hc := E.conj_pow (2 * s * m) (Nat.le_of_lt hsm2)
    have hsub : cfg.n - 2 * s * m = m * s * 3 := by
      rw [← hn]; zify [hle2]; ring
    rw [hsub, pow_mul w (m * s) 3, Cx.conjf_eq] at hc
    exact hc.symm
  have e4 : (w ^ (m * s)) ^ 4 =
      Cx.ofReal ((w ^ (m * s)).re) - Cx.I * Cx.ofReal ((w ^ (m * s)).im) := by
    have hc := E.conj_pow (m * s) (by rw [Nat.mul_comm]; exact Nat.le_of_lt hsm)
    have hsub : cfg.n - m * s = m * s * 4 := by
      rw [← hn]; zify [hle]; ring
    rw [hsub, pow_mul w (m * s) 4, Cx.conjf_eq] at hc
    exact hc.symm
  have e5 : (w ^ (m * s)) ^ 5 = 1 := by
    rw [← pow_mul, show m * s * 5 = cfg.n by rw [← hn]; ring, E.pow_n]
  have e6 : (w ^ (m * s)) ^ 6 = w ^ (m * s) := by
    rw [show 6 = 5 + 1 from rfl, pow_add, e5, pow_one, one_mul]
  have e8 : (w ^ (m * s)) ^ 8 = (w ^ (m * s)) ^ 3 := by
    rw [show 8 = 5 + 3 from rfl, pow_add, e5, one_mul]
  have e9 : (w ^ (m * s)) ^ 9 = (w ^ (m * s)) ^ 4 := by
    rw [show 9 = 5 + 4 from rfl, pow_add, e5, one_mul]
  have e12 : (w ^ (m * s)) ^ 12 = (w ^ (m * s)) ^ 2 := by
    rw [show 12 = 5 * 2 + 2 from rfl, pow_add, pow_mul, e5, one_pow, one_mul]
  have e16 : (w ^ (m * s)) ^ 16 = w ^ (m * s) := by
    rw [show 16 = 5 * 3 + 1 from rfl, pow_add, pow_mul, e5, one_pow, one_mul, pow_one]
  rw [e3] at e8
  rw [e4] at e9
  rw [e2] at e12
  generalize hA : (w ^ (m * s)).re = A at hω e4 e9
  generalize hB : (w ^ (m * s)).im = B at hω e4 e9
  generalize hC : (w ^ (2 * s * m)).re = C at e2 e3 e8 e12
  generalize hD : (w ^ (2 * s * m)).im = D at e2 e3 e8 e12
  simp only [Finset.sum_range_succ, Finset.sum_range_zero, zero_add, term_split]
  interval_cases q <;>
    simp only [out5, h1, h2, h3, h4, hph, hph2, Cx.cimag_eq, Cx.creal_eq, hA, hB, hC, hD,
      Nat.zero_mul, Nat.mul_zero, Nat.mul_one, Nat.one_mul, pow_zero, pow_one, e2, e3, e4, e6,
      e8, e9, e12, e16, Nat.reduceMul] <;>
    (try rw [hω]) <;> ring

theorem outN_dft {K : Type} [Field K] (cfg : t_fft_cfg K) (w : Cx K) (E : ExactTwiddles cfg w) (s m p : Nat)
    (hn : s * (p * m) = cfg.n) (hs : 0 < s) (hp : 2 ≤ p) (hwrap : (p - 1) * cfg.n ≤ 2 ^ 32)
    (t : Nat → Cx K) (i q : Nat) (hi : i < m) (hq : q < p) :
    outN s m p cfg.n cfg.phase t i q = ∑ r in Finset.range p, t r * w ^ (r * ((i + q * m) * s)) := by
  have hX : (i + q * m) * s < cfg.n := by
    rw [← hn]
    have h1 : i + q * m < p * m := by
      calc i + q * m < m + q * m := by omega
        _ = (q + 1) * m := by ring
        _ ≤ p * m := Nat.mul_le_mul_right _ hq
    calc (i + q * m) * s < p * m * s := Nat.mul_lt_mul_of_pos_right h1 hs
      _ = s * (p * m) := Nat.mul_comm _ _
  have hnpos : 0 < cfg.n := by omega
  have hk : ∀ k, k < p → k * ((i + q * m) * s) < 2 ^ 32 := by
    intro k hk
    rcases Nat.eq_zero_or_pos k with h0 | h0
    · subst h0; simp
    · calc k * ((i + q * m) * s) < k * cfg.n := Nat.mul_lt_mul_of_pos_left hX h0
        _ ≤ (p - 1) * cfg.n := Nat.mul_le_mul_right _ (by omega)
        _ ≤ 2 ^ 32 := hwrap
  have hX32 : u32 ((i + q * m) * s) = (i + q * m) * s := by
    have := hk 1 (by omega)
    rw [Nat.one_mul] at this
    exact Nat.mod_eq_of_lt this
  unfold outN forFrom
  rw [forLoop_sum, hX32]
  obtain ⟨p', rfl⟩ : ∃ p', p = p' + 1 := ⟨p - 1, by omega⟩
  rw [Finset.sum_range_succ', Nat.add_sub_cancel, Nat.zero_mul, pow_zero, mul_one, add_comm]
  congr 1
  apply Finset.sum_congr rfl
  intro k hk'
  have hk'' := Finset.mem_range.1 hk'
  have hu : u32 ((1 + k) * ((i + q * m) * s)) = (1 + k) * ((i + q * m) * s) :=
    Nat.mod_eq_of_lt (hk (1 + k) (by omega))
  rw [hu, E.table _ (Nat.mod_lt _ hnpos), ← pow_eq_pow_mod _ E.pow_n, Nat.add_comm 1 k]

theorem lane_cell_lt {m p i q : Nat} (hi : i < m) (hq : q < p) : i + q * m < p * m := by
  calc i + q * m < m + q * m := by omega
    _ = (q + 1) * m := by ring
    _ ≤ p * m := Nat.mul_le_mul_right _ hq

/-- After the butterfly of radix `p` every lane holds the `p`-point transform of
its taps, rotated by the lane twiddles; cells outside the block are untouched.
The generic kernel needs its 32-bit index products not to wrap. -/
theorem butterfly_dft {K : Type} [Field K] (cfg : t_fft_cfg K) (w : Cx K)
    (E : ExactTwiddles cfg w) (b : Buf K) (o s m p : Nat) (hn : s * (p * m) = cfg.n)
    (hs : 0 < s) (hp : 2 ≤ p) (hwrap : 5 < p → (p - 1) * cfg.n ≤ 2 ^ 32) :
    (∀ c, (c < o ∨ o + p * m ≤ c) → (butterfly cfg b o s m p).get c = b.get c) ∧
    (∀ i q, i < m → q < p →
      (butterfly cfg b o s m p).get (o + (i + q * m)) =
        ∑ r in Finset.range p, b.get (o + (i + m * r)) * w ^ (r * ((i + q * m) * s))) := by
  have hframe : ∀ c, (c < o ∨ o + p * m ≤ c) → ∀ i q, i < m → q < p → c ≠ o + (i + q * m) := by
    intro c hc i q hi hq
    have := lane_cell_lt hi hq
    omega
  by_cases h5 : 5 < p
  · rw [butterfly_generic _ _ _ _ _ _ h5, butterflyN_eq]
    obtain ⟨k1, k2⟩ := laneKernel_lane (outN s m p cfg.n cfg.phase) b o m p (by
      intro t t' i q h
      unfold outN forFrom
      rw [forLoop_sum, forLoop_sum, h 0 (by omega)]
      congr 1
      apply Finset.sum_congr rfl
      intro k hk
      have := Finset.mem_range.1 hk
      rw [h (1 + k) (by omega)])
    refine ⟨fun c hc => k1 c (hframe c hc), fun i q hi hq => ?_⟩
    rw [k2 i q hi hq, outN_dft cfg w E s m p hn hs hp (hwrap h5) _ i q hi hq]
  · have hp' : p = 2 ∨ p = 3 ∨ p = 4 ∨ p = 5 := by omega
    rcases hp' with rfl | rfl | rfl | rfl
    · have hb : butterfly cfg b o s m 2 = butterfly2 b o s cfg.phase m := rfl
      rw [hb, butterfly2_eq]
      obtain ⟨k1, k2⟩ := laneKernel_lane (out2 s cfg.phase) b o m 2 (by
        intro t t' i q h
        simp only [out2, h 0 (by norm_num), h 1 (by norm_num)])
      refine ⟨fun c hc => k1 c (hframe c hc), fun i q hi hq => ?_⟩
      rw [k2 i q hi hq, out2_dft cfg w E s m hn hs _ i q hi hq]
    · have hb : butterfly cfg b o s m 3 = butterfly3 b o s cfg.phase m := rfl
      rw [hb, butterfly3_eq]
      obtain ⟨k1, k2⟩ := laneKernel_lane (out3 s m cfg.phase) b o m 3 (by
        intro t t' i q h
        simp only [out3, h 0 (by norm_num), h 1 (by norm_num), h 2 (by norm_num)])
      refine ⟨fun c hc => k1 c (hframe c hc), fun i q hi hq => ?_⟩
      rw [k2 i q hi hq, out3_dft cfg w E s m hn hs _ i q hi hq]
    · have hb : butterfly cfg b o s m 4 = butterfly4 b o s cfg.phase m cfg.direction := rfl
      rw [hb, butterfly4_eq]
      obtain ⟨k1, k2⟩ := laneKernel_lane (out4 s cfg.phase cfg.direction) b o m 4 (by
        intro t t' i q h
        simp only [out4, h 0 (by norm_num), h 1 (by norm_num), h 2 (by norm_num),
          h 3 (by norm_num)])
      refine ⟨fun c hc => k1 c (hframe c hc), fun i q hi hq => ?_⟩
      rw [k2 i q hi hq, out4_dft cfg w E s m hn hs _ i q hi hq]
    · have hb : butterfly cfg b o s m 5 = butterfly5 b o s cfg.phase m := rfl
      rw [hb, butterfly5_eq]
      obtain ⟨k1, k2⟩ := laneKernel_lane (out5 s m cfg.phase) b o m 5 (by
        intro t t' i q h
        simp only [out5, h 0 (by norm_num), h 1 (by norm_num), h 2 (by norm_num),
          h 3 (by norm_num), h 4 (by norm_num)])
      refine ⟨fun c hc => k1 c (hframe c hc), fun i q hi hq => ?_⟩
      rw [k2 i q hi hq, out5_dft cfg w E s m hn hs _ i q hi hq]

/-- A sum over `p * m` indices, split by residue modulo `p`. -/
theorem sum_range_mul_split {M : Type} [AddCommMonoid M] (p m : Nat) (F : Nat → M) :
    ∑ j in Finset.range (p * m), F j =
      ∑ r in Finset.range p, ∑ j' in Finset.range m, F (r + j' * p) := by
  rw [Finset.sum_comm]
  induction m with
  | zero => simp
  | succ m ih =>
    rw [Nat.mul_succ, Finset.sum_range_add, ih, Finset.sum_range_succ]
    congr 1
    apply Finset.sum_congr rfl
    intro r _
    rw [Nat.add_comm, Nat.mul_comm]

/-- The loop of sub-transforms: after `c` of them the first `c` blocks of
`out` hold what the sub-transforms produce, the rest is untouched. -/
theorem subtransform_loop {K : Type} (sub : Nat → Buf K → Option (Buf K)) (V : Nat → Nat → Cx K)
    (o m : Nat) (out : Buf K) (p : Nat)
    (hsub : ∀ i, i < p → ∀ b : Buf K, ∃ b', sub i b = some b' ∧
      (∀ c, (c < o + i * m ∨ o + i * m + m ≤ c) → b'.get c = b.get c) ∧
      (∀ k, k < m → b'.get (o + i * m + k) = V i k)) :
    ∃ g, forLoop p (fun i r => r.bind (sub i)) (some out) = some g ∧
      (∀ c, (c < o ∨ o + p * m ≤ c) → g.get c = out.get c) ∧
      (∀ i k, i < p → k < m → g.get (o + i * m + k) = V i k) := by
  induction p with
  | zero =>
    exact ⟨out, rfl, fun _ _ => rfl, fun i k hi => absurd hi (Nat.not_lt_zero i)⟩
  | succ p ih =>
    obtain ⟨g, hg, hframe, hval⟩ := ih (fun i hi => hsub i (Nat.lt_succ_of_lt hi))
    obtain ⟨b', hb', hbframe, hbval⟩ := hsub p (Nat.lt_succ_self p) g
    refine ⟨b', ?_, ?_, ?_⟩
    · rw [forLoop_succ, hg]
      exact hb'
    · intro c hc
      have h1 : (p + 1) * m = p * m + m := by ring
      rw [hbframe c (by omega), hframe c (by omega)]
    · intro i k hi hk
      by_cases hip : i = p
      · subst hip
        exact hbval k hk
      · have hlt : i < p := by omega
        have h1 : i * m + m ≤ p * m := by
          calc i * m + m = (i + 1) * m := by ring
            _ ≤ p * m := Nat.mul_le_mul_right _ hlt
        rw [hbframe _ (by omega)]
        exact hval i k hlt hk

/-- Cooley–Tukey: on a well-formed stage sequence for sub-length `N` with
twiddle stride `s` (`s * N = n`), `transform` with a disjoint input writes the
`N`-point transform of the strided input into `out[o .. o+N)` and nothing
else, provided the length fits an `int` and no generic stage wraps its 32-bit
index products. -/
theorem transform_dft {K : Type} [Field K] (cfg : t_fft_cfg K) (w : Cx K)
    (E : ExactTwiddles cfg w) (hmax : cfg.n ≤ INT_MAX) (data : Buf K) :
    ∀ (fs : List t_fft_factors) (N s i_off o : Nat) (out : Buf K),
      StageChain N fs → 2 ≤ N → s * N = cfg.n → 0 < s →
      (∀ f, f ∈ fs → 5 < f.p → (f.p - 1) * cfg.n ≤ 2 ^ 32) →
      ∃ out', transform cfg fs (InBuf.disjoint data) i_off 1 out o s = some out' ∧
        (∀ c, (c < o ∨ o + N ≤ c) → out'.get c = out.get c) ∧
        (∀ k, k < N → out'.get (o + k) =
          ∑ j in Finset.range N, data.get (i_off + j * s) * w ^ (j * (k * s))) := by
  intro fs
  induction fs with
  | nil =>
    intro N s i_off o out hch hN
    simp only [StageChain] at hch
    omega
  | cons f rest ih =>
    intro N s i_off o out hch hN hsN hs hwrap
    obtain ⟨hp2, hmul, hch'⟩ := hch
    have hn : s * (f.p * f.n) = cfg.n := by rw [hmul]; exact hsN
    have hwf : 5 < f.p → (f.p - 1) * cfg.n ≤ 2 ^ 32 := hwrap f (List.mem_cons_self _ _)
    have hNn : N ≤ cfg.n := by rw [← hsN]; exact Nat.le_mul_of_pos_left _ hs
    obtain ⟨hip, him, hipm⟩ := stage_le_int_max hp2 hmul hN (le_trans hNn hmax)
    rw [transform_cons _ _ _ _ _ _ _ _ _ hip him hipm]
    by_cases h1 : f.n = 1
    · rw [if_pos h1, Option.map_some']
      refine ⟨_, rfl, ?_, ?_⟩
      · intro c hc
        obtain ⟨-, hg2⟩ := gather_disjoint data out f.p i_off 1 o s
        obtain ⟨kb1, -⟩ := butterfly_dft cfg w E
          (forLoop f.p (fun i out => out.set (o + i)
            ((InBuf.disjoint data).read out (i_off + i * 1 * s))) out) o s f.n f.p hn hs hp2 hwf
        rw [kb1 c (by rw [hmul]; exact hc), hg2 c (by rw [← hmul, h1, Nat.mul_one] at hc; exact hc)]
      · intro k hk
        obtain ⟨hg1, -⟩ := gather_disjoint data out f.p i_off 1 o s
        obtain ⟨-, kb2⟩ := butterfly_dft cfg w E
          (forLoop f.p (fun i out => out.set (o + i)
            ((InBuf.disjoint data).read out (i_off + i * 1 * s))) out) o s f.n f.p hn hs hp2 hwf
        have hNp : N = f.p := by rw [← hmul, h1, Nat.mul_one]
        have := kb2 0 k (by omega) (by omega)
        rw [h1] at this
        simp only [Nat.zero_add, Nat.mul_one, Nat.one_mul] at this ⊢
        rw [h1, this, hNp]
        apply Finset.sum_congr rfl
        intro r hr
        have hr' := Finset.mem_range.1 hr
        have := hg1 r hr'
        simp only [Nat.mul_one] at this
        rw [this]
    · rw [if_neg h1]
      have hm2 : 2 ≤ f.n := by
        rcases Nat.lt_or_ge f.n 2 with h | h
        · interval_cases hfn : f.n
          · rw [Nat.mul_zero] at hmul; omega
          · exact absurd rfl h1
        · exact h
      have hsp : s * f.p * f.n = cfg.n := by rw [← hn]; ring
      obtain ⟨g, hg, hgframe, hgval⟩ := subtransform_loop
        (fun i out => transform cfg rest (InBuf.disjoint data) (i_off + i * s * 1) 1 out
          (o + i * f.n) (s * f.p))
        (fun i k => ∑ j in Finset.range f.n,
          data.get ((i_off + i * s * 1) + j * (s * f.p)) * w ^ (j * (k * (s * f.p))))
        o f.n out f.p (by
          intro i _ b
          exact ih f.n (s * f.p) (i_off + i * s * 1) (o + i * f.n) b hch' hm2 hsp
            (Nat.mul_pos hs (by omega))
            (fun f' hf' => hwrap f' (List.mem_cons_of_mem _ hf')))
      rw [hg, Option.map_some']
      obtain ⟨kb1, kb2⟩ := butterfly_dft cfg w E g o s f.n f.p hn hs hp2 hwf
      refine ⟨_, rfl, ?_, ?_⟩
      · intro c hc
        rw [kb1 c (by rw [hmul]; exact hc), hgframe c (by rw [hmul]; exact hc)]
      · intro k hk
        have hmpos : 0 < f.n := by omega
        have hi0 : k % f.n < f.n := Nat.mod_lt _ hmpos
        have hq0 : k / f.n < f.p := by
          rw [Nat.div_lt_iff_lt_mul hmpos, hmul]; exact hk
        have hk' : k = k % f.n + k / f.n * f.n := by
          rw [Nat.add_comm]; exact (Nat.div_add_mod' k f.n).symm
        obtain ⟨i, q, hi, hq, rfl⟩ : ∃ i q, i < f.n ∧ q < f.p ∧ k = i + q * f.n :=
          ⟨k % f.n, k / f.n, hi0, hq0, hk'⟩
        rw [kb2 i q hi hq, ← hmul, sum_range_mul_split]
        apply Finset.sum_congr rfl
        intro r hr
        have hr' := Finset.mem_range.1 hr
        have hcell : o + (i + f.n * r) = o + r * f.n + i := by ring
        rw [hcell, hgval r i hr' hi, Finset.sum_mul]
        apply Finset.sum_congr rfl
        intro j' _
        have hidx : i_off + r * s * 1 + j' * (s * f.p) = i_off + (r + j' * f.p) * s := by ring
        have hexp : (r + j' * f.p) * ((i + q * f.n) * s) =
            j' * (i * (s * f.p)) + r * ((i + q * f.n) * s) + cfg.n * (j' * q) := by
          rw [← hn]
          ring
        rw [hidx, hexp, pow_add, pow_add, pow_mul w cfg.n, E.pow_n, one_pow, mul_one]
        ring

/-- The angle `θ` of the exact table over the reals. -/
theorem angle_real (n : Nat) (direction : fft_direction) :
    angle (⟨Real.pi, Real.cos, Real.sin⟩ : Libm ℝ) n direction =
      if direction = FFT_BACKWARD then (2 * Real.pi) / (n : ℝ) else -(2 * Real.pi) / (n : ℝ) :=
  rfl

theorem twiddle_real (n : Nat) (direction : fft_direction) :
    twiddle (⟨Real.pi, Real.cos, Real.sin⟩ : Libm ℝ) n direction =
      (⟨Real.cos (angle ⟨Real.pi, Real.cos, Real.sin⟩ n direction), Real.sin (angle ⟨Real.pi, Real.cos, Real.sin⟩ n direction)⟩ : Cx ℝ) := by
  unfold twiddle
  rw [Cx.cis_eq]

theorem twiddle_pow (n : Nat) (direction : fft_direction) (a : Nat) :
    twiddle (⟨Real.pi, Real.cos, Real.sin⟩ : Libm ℝ) n direction ^ a =
      (⟨Real.cos (a * angle ⟨Real.pi, Real.cos, Real.sin⟩ n direction), Real.sin (a * angle ⟨Real.pi, Real.cos, Real.sin⟩ n direction)⟩ : Cx ℝ) := by
  unfold twiddle
  rw [cis_pow]

theorem angle_mul (n : Nat) (hn : 0 < n) (direction : fft_direction) (a : ℝ) :
    a * angle ⟨Real.pi, Real.cos, Real.sin⟩ n direction =
      (if direction = FFT_BACKWARD then (1 : ℝ) else -1) * (a / n) * (2 * Real.pi) := by
  have hn' : (n : ℝ) ≠ 0 := by exact_mod_cast hn.ne'
  rw [angle_real]
  split_ifs <;> field_simp

theorem exactTwiddles_real (cfg : t_fft_cfg ℝ) (n : Nat) (direction : fft_direction)
    (hn : 0 < n) (hcn : cfg.n = n) (hdir : cfg.direction = direction)
    (hph : cfg.phase = phaseTable ⟨Real.pi, Real.cos, Real.sin⟩ n direction) :
    ExactTwiddles cfg (twiddle ⟨Real.pi, Real.cos, Real.sin⟩ n direction) := by
  have hn' : (n : ℝ) ≠ 0 := by exact_mod_cast hn.ne'
  refine ⟨?_, ?_, ?_, ?_, ?_, ?_⟩
  · intro a ha
    rw [hcn] at ha
    rw [hph, tw_phaseTable _ _ _ _ ha, twiddle_pow, Cx.cis_eq, angle_real]
  · rw [hcn, twiddle_pow, angle_mul n hn, div_self hn']
    split_ifs <;> ext <;> simp
  · intro h hh
    rw [hcn] at hh
    have hh' : (h : ℝ) / n = 1 / 2 := by
      have h0 : (h : ℝ) ≠ 0 := by
        have : 0 < h := by omega
        exact_mod_cast this.ne'
      rw [← hh]; push_cast; field_simp; ring
    rw [twiddle_pow, angle_mul n hn, hh']
    split_ifs
    · ext
      · simp
      · simp
    · ext
      · simp
      · simp
  · intro h hh
    rw [hcn] at hh
    have hh' : (h : ℝ) / n = 1 / 4 := by
      have h0 : (h : ℝ) ≠ 0 := by
        have : 0 < h := by omega
        exact_mod_cast this.ne'
      rw [← hh]; push_cast; field_simp; ring
    rw [twiddle_pow, angle_mul n hn, hh', hdir]
    have e1 : (1 : ℝ) * (1 / 4) * (2 * Real.pi) = Real.pi / 2 := by ring
    have e2 : (-1 : ℝ) * (1 / 4) * (2 * Real.pi) = -(Real.pi / 2) := by ring
    split_ifs
    · rw [e1]; ext <;> simp
    · rw [e2]; ext <;> simp
  · intro h hh
    rw [hcn] at hh
    have hh' : (h : ℝ) / n = 1 / 3 := by
      have h0 : (h : ℝ) ≠ 0 := by
        have : 0 < h := by omega
        exact_mod_cast this.ne'
      rw [← hh]; push_cast; field_simp; ring
    rw [twiddle_pow, angle_mul n hn, hh']
    have e1 : (1 : ℝ) * (1 / 3) * (2 * Real.pi) = Real.pi - Real.pi / 3 := by ring
    have e2 : (-1 : ℝ) * (1 / 3) * (2 * Real.pi) = -(Real.pi - Real.pi / 3) := by ring
    split_ifs
    · simp only [e1, Real.cos_pi_sub, Real.cos_pi_div_three]
    · simp only [e2, Real.cos_neg, Real.cos_pi_sub, Real.cos_pi_div_three]
  · intro a ha
    rw [hcn] at ha ⊢
    rw [twiddle_pow, twiddle_pow]
    have hsub : ((n - a : Nat) : ℝ) * angle ⟨Real.pi, Real.cos, Real.sin⟩ n direction =
        -(a * angle ⟨Real.pi, Real.cos, Real.sin⟩ n direction) + (if direction = FFT_BACKWARD then (1 : ℝ) else -1) *
          (2 * Real.pi) := by
      rw [Nat.cast_sub ha, angle_real]
      split_ifs <;> field_simp <;> ring
    rw [hsub]
    split_ifs
    · ext
      · simp [Real.cos_add_two_pi]
      · simp [Real.sin_add_two_pi]
    · ext
      · simp only [Cx.conjf_re, neg_mul, one_mul]
        rw [← sub_eq_add_neg, Real.cos_sub_two_pi, Real.cos_neg]
      · simp only [Cx.conjf_im, neg_mul, one_mul]
        rw [← sub_eq_add_neg, Real.sin_sub_two_pi, Real.sin_neg]

/-- What a successful `fft_init_cfg` leaves in the configuration record. -/
theorem fft_init_cfg_fields {K : Type} [Field K] {L : Libm K} {MAX_FACTORS : Nat}
    {cfg0 cfg : t_fft_cfg K} {n : Nat} {direction : fft_direction}
    (h : fft_init_cfg L MAX_FACTORS cfg0 n direction = some (0, cfg)) :
    cfg.n = n ∧ cfg.direction = direction ∧ cfg.phase = phaseTable L n direction ∧
      StageChain n cfg.factors := by
  unfold fft_init_cfg at h
  obtain ⟨hch, hcfg⟩ := fft_init_factors_chain h
  rw [hcfg]
  exact ⟨rfl, rfl, rfl, hch⟩

theorem StageChain.radix_le {N : Nat} {fs : List t_fft_factors} (h : StageChain N fs)
    (hN : 1 ≤ N) : ∀ f, f ∈ fs → f.p ≤ N := by
  induction fs generalizing N with
  | nil => intro f hf; simp at hf
  | cons g fs ih =>
    obtain ⟨h2, hmul, hch⟩ := h
    have hgn : 1 ≤ g.n := by
      rcases Nat.eq_zero_or_pos g.n with h0 | h0
      · rw [h0] at hmul; omega
      · exact h0
    intro f hf
    rcases List.mem_cons.1 hf with rfl | hf
    · rw [← hmul]; exact Nat.le_mul_of_pos_right _ hgn
    · have := ih hch hgn f hf
      have : g.n ≤ N := by rw [← hmul]; exact Nat.le_mul_of_pos_left _ (by omega)
      omega

/-- The transform computed by `fft_c2c` on a configuration with an exact table:
the discrete Fourier transform, whenever no generic stage of radix `p > 5`
wraps its index products (`(p - 1) * n ≤ 2^32`) and the length fits an `int`. -/
theorem fft_c2c_exact {K : Type} [Field K] (cfg : t_fft_cfg K) (w : Cx K)
    (E : ExactTwiddles cfg w) (hn : 2 ≤ cfg.n) (hmax : cfg.n ≤ INT_MAX)
    (hch : StageChain cfg.n cfg.factors)
    (hwrap : ∀ f, f ∈ cfg.factors → 5 < f.p → (f.p - 1) * cfg.n ≤ 2 ^ 32) (x out : Buf K) :
    ∃ out', fft_c2c cfg (InBuf.disjoint x) out = some out' ∧
      (∀ k, k < cfg.n → out'.get k = dft w cfg.n x k) ∧
      (∀ c, cfg.n ≤ c → out'.get c = out.get c) := by
  obtain ⟨out', h1, h2, h3⟩ := transform_dft cfg w E hmax x cfg.factors cfg.n 1 0 0 out hch hn
    (Nat.one_mul _) Nat.one_pos hwrap
  refine ⟨out', h1, ?_, ?_⟩
  · intro k hk
    have := h3 k hk
    simp only [Nat.zero_add, Nat.mul_one] at this
    rw [this]
    rfl
  · intro c hc
    exact h2 c (Or.inr (by omega))

/-- For every length `2 ≤ n ≤ 65536` whose factorization succeeds, every
direction and every input in a buffer disjoint from the output, `fft_c2c` over
exact reals writes `out[k] = sum over j < n of x[j] * w^(j*k)` for `k < n`, with
`w = cos θ + i sin θ`, `θ = -2π/n` forward and `+2π/n` backward, and leaves the
rest of `out` alone. -/
theorem fft_c2c_dft (MAX_FACTORS : Nat) (cfg0 cfg : t_fft_cfg ℝ) (n : Nat)
    (direction : fft_direction) (hn : 2 ≤ n) (hn16 : n ≤ 65536)
    (hinit : fft_init_cfg ⟨Real.pi, Real.cos, Real.sin⟩ MAX_FACTORS cfg0 n direction =
      some (0, cfg)) (x out : Buf ℝ) :
    ∃ out', fft_c2c cfg (InBuf.disjoint x) out = some out' ∧
      (∀ k, k < n → out'.get k =
        dft (twiddle ⟨Real.pi, Real.cos, Real.sin⟩ n direction) n x k) ∧
      (∀ c, n ≤ c → out'.get c = out.get c) := by
  obtain ⟨hcn, hdir, hph, hch⟩ := fft_init_cfg_fields hinit
  have E := exactTwiddles_real cfg n direction (by omega) hcn hdir hph
  have hwrap : ∀ f, f ∈ cfg.factors → 5 < f.p → (f.p - 1) * cfg.n ≤ 2 ^ 32 := by
    intro f hf _
    have hle := hch.radix_le (by omega) f hf
    rw [hcn]
    calc (f.p - 1) * n ≤ 65535 * 65536 := Nat.mul_le_mul (by omega) hn16
      _ ≤ 2 ^ 32 := by norm_num
  have hmax : cfg.n ≤ INT_MAX := by
    rw [hcn]; exact le_trans hn16 (by decide)
  have := fft_c2c_exact cfg _ E (by omega) hmax (by rw [hcn]; exact hch) hwrap x out
  rw [hcn] at this
  exact this

theorem angle_backward (n : Nat) :
    angle (⟨Real.pi, Real.cos, Real.sin⟩ : Libm ℝ) n FFT_BACKWARD =
      -angle (⟨Real.pi, Real.cos, Real.sin⟩ : Libm ℝ) n FFT_FORWARD := by
  rw [angle_real, angle_real]
  simp only [if_neg (by decide : ¬ FFT_FORWARD = FFT_BACKWARD), if_true]
  ring

/-- Orthogonality of the forward and backward twiddles. -/
theorem twiddle_orthogonal (n : Nat) (hn : 0 < n) (j l : Nat) (hj : j < n) (hl : l < n) :
    ∑ k in Finset.range n,
      twiddle (⟨Real.pi, Real.cos, Real.sin⟩ : Libm ℝ) n FFT_FORWARD ^ (j * k) *
        twiddle (⟨Real.pi, Real.cos, Real.sin⟩ : Libm ℝ) n FFT_BACKWARD ^ (k * l) =
      if j = l then (n : Cx ℝ) else 0 := by
  have hn' : (n : ℝ) ≠ 0 := by exact_mod_cast hn.ne'
  have hterm : ∀ k, twiddle (⟨Real.pi, Real.cos, Real.sin⟩ : Libm ℝ) n FFT_FORWARD ^ (j * k) *
        twiddle (⟨Real.pi, Real.cos, Real.sin⟩ : Libm ℝ) n FFT_BACKWARD ^ (k * l) =
      (twiddle (⟨Real.pi, Real.cos, Real.sin⟩ : Libm ℝ) n FFT_FORWARD ^ j *
        twiddle (⟨Real.pi, Real.cos, Real.sin⟩ : Libm ℝ) n FFT_BACKWARD ^ l) ^ k := by
    intro k
    rw [mul_pow, ← pow_mul, ← pow_mul, Nat.mul_comm l k]
  simp only [hterm]
  have hu : twiddle (⟨Real.pi, Real.cos, Real.sin⟩ : Libm ℝ) n FFT_FORWARD ^ j *
        twiddle (⟨Real.pi, Real.cos, Real.sin⟩ : Libm ℝ) n FFT_BACKWARD ^ l =
      (⟨Real.cos (((l : ℝ) - j) * (2 * Real.pi / n)),
        Real.sin (((l : ℝ) - j) * (2 * Real.pi / n))⟩ : Cx ℝ) := by
    rw [twiddle_pow, twiddle_pow, angle_backward, angle_real]
    simp only [if_neg (by decide : ¬ FFT_FORWARD = FFT_BACKWARD)]
    have harg : ((l : ℝ) - j) * (2 * Real.pi / n) =
        (j : ℝ) * (-(2 * Real.pi) / n) + (l : ℝ) * -(-(2 * Real.pi) / n) := by ring
    rw [harg, Real.cos_add, Real.sin_add]
    ext
    · simp
    · simp; ring
  by_cases hjl : j = l
  · subst hjl
    rw [if_pos rfl, hu]
    have : (⟨Real.cos (((j : ℝ) - j) * (2 * Real.pi / n)),
        Real.sin (((j : ℝ) - j) * (2 * Real.pi / n))⟩ : Cx ℝ) = 1 := by
      ext <;> simp
    rw [this]
    simp
  · rw [if_neg hjl]
    have hun : (twiddle (⟨Real.pi, Real.cos, Real.sin⟩ : Libm ℝ) n FFT_FORWARD ^ j *
        twiddle (⟨Real.pi, Real.cos, Real.sin⟩ : Libm ℝ) n FFT_BACKWARD ^ l) ^ n = 1 := by
      rw [hu, ← Cx.cis_eq, cis_pow]
      have harg : (n : ℝ) * (((l : ℝ) - j) * (2 * Real.pi / n)) =
          (((l : ℤ) - (j : ℤ) : ℤ) : ℝ) * (2 * Real.pi) := by
        push_cast; field_simp
      rw [harg]
      ext
      · simp only [Cx.one_re]
        rw [Real.cos_eq_one_iff]
        exact ⟨(l : ℤ) - j, rfl⟩
      · simp only [Cx.one_im]
        rw [Real.sin_eq_zero_iff]
        exact ⟨2 * ((l : ℤ) - j), by push_cast; ring⟩
    have hgeom := geom_sum_mul
      (twiddle (⟨Real.pi, Real.cos, Real.sin⟩ : Libm ℝ) n FFT_FORWARD ^ j *
        twiddle (⟨Real.pi, Real.cos, Real.sin⟩ : Libm ℝ) n FFT_BACKWARD ^ l) n
    rw [hun, sub_self] at hgeom
    rcases Cx.eq_zero_of_mul_eq_zero _ _ hgeom with h0 | h0
    · exact h0
    · exfalso
      rw [hu] at h0
      have hre := congrArg Cx.re h0
      simp only [Cx.sub_re, Cx.one_re, Cx.zero_re] at hre
      have hcos : Real.cos (((l : ℝ) - j) * (2 * Real.pi / n)) = 1 := by linarith
      rw [Real.cos_eq_one_iff] at hcos
      obtain ⟨m, hm⟩ := hcos
      have hpi : Real.pi ≠ 0 := Real.pi_ne_zero
      have h2 : (m : ℝ) * n = (l : ℝ) - j := by
        field_simp at hm
        nlinarith [hm, Real.pi_pos]
      have h3 : m * (n : ℤ) = (l : ℤ) - j := by exact_mod_cast h2
      have hlt : |(l : ℤ) - j| < n := by
        rw [abs_lt]; constructor <;> omega
      have hne : (l : ℤ) - j ≠ 0 := by omega
      rcases Int.lt_trichotomy m 0 with hm0 | hm0 | hm0
      · have : m * (n : ℤ) ≤ -(n : ℤ) := by nlinarith
        rw [abs_lt] at hlt
        omega
      · rw [hm0] at h3; omega
      · have : (n : ℤ) ≤ m * n := by nlinarith
        rw [abs_lt] at hlt
        omega

theorem dft_congr {K : Type} [Field K] (w : Cx K) (n : Nat) (a b : Buf K)
    (h : ∀ k, k < n → a.get k = b.get k) (l : Nat) : dft w n a l = dft w n b l := by
  unfold dft
  apply Finset.sum_congr rfl
  intro k hk
  rw [h k (Finset.mem_range.1 hk)]

/-- The backward sum of the forward transform returns `n` times the sequence. -/
theorem dft_inverse (n : Nat) (hn : 0 < n) (x : Buf ℝ) (l : Nat) (hl : l < n) :
    ∑ k in Finset.range n,
      dft (twiddle (⟨Real.pi, Real.cos, Real.sin⟩ : Libm ℝ) n FFT_FORWARD) n x k *
        twiddle (⟨Real.pi, Real.cos, Real.sin⟩ : Libm ℝ) n FFT_BACKWARD ^ (k * l) =
      (n : Cx ℝ) * x.get l := by
  have h1 : ∀ k, k ∈ Finset.range n →
      dft (twiddle (⟨Real.pi, Real.cos, Real.sin⟩ : Libm ℝ) n FFT_FORWARD) n x k *
        twiddle (⟨Real.pi, Real.cos, Real.sin⟩ : Libm ℝ) n FFT_BACKWARD ^ (k * l) =
      ∑ j in Finset.range n, x.get j *
        (twiddle (⟨Real.pi, Real.cos, Real.sin⟩ : Libm ℝ) n FFT_FORWARD ^ (j * k) *
          twiddle (⟨Real.pi, Real.cos, Real.sin⟩ : Libm ℝ) n FFT_BACKWARD ^ (k * l)) := by
    intro k _
    unfold dft
    rw [Finset.sum_mul]
    apply Finset.sum_congr rfl
    intro j _
    ring
  rw [Finset.sum_congr rfl h1, Finset.sum_comm]
  simp only [← Finset.mul_sum]
  have h2 : ∀ j, j ∈ Finset.range n →
      x.get j * ∑ k in Finset.range n,
        twiddle (⟨Real.pi, Real.cos, Real.sin⟩ : Libm ℝ) n FFT_FORWARD ^ (j * k) *
          twiddle (⟨Real.pi, Real.cos, Real.sin⟩ : Libm ℝ) n FFT_BACKWARD ^ (k * l) =
      if j = l then (n : Cx ℝ) * x.get l else 0 := by
    intro j hj
    rw [twiddle_orthogonal n hn j l (Finset.mem_range.1 hj) hl]
    split_ifs with h
    · subst h; ring
    · ring
  rw [Finset.sum_congr rfl h2, Finset.sum_ite_eq' (Finset.range n) l]
  rw [if_pos (Finset.mem_range.2 hl)]

/-- For every length `2 ≤ n ≤ 65536` whose factorization succeeds, the forward
transform followed by the backward transform (disjoint buffers, exact reals)
yields `n * x` elementwise. -/
theorem fft_c2c_round_trip (MAX_FACTORS : Nat) (cfg0 cfg1 cfgf cfgb : t_fft_cfg ℝ) (n : Nat)
    (hn : 2 ≤ n) (hn16 : n ≤ 65536)
    (hf : fft_init_cfg ⟨Real.pi, Real.cos, Real.sin⟩ MAX_FACTORS cfg0 n FFT_FORWARD =
      some (0, cfgf))
    (hb : fft_init_cfg ⟨Real.pi, Real.cos, Real.sin⟩ MAX_FACTORS cfg1 n FFT_BACKWARD =
      some (0, cfgb)) (x out1 out2 : Buf ℝ) :
    ∃ y z, fft_c2c cfgf (InBuf.disjoint x) out1 = some y ∧
      fft_c2c cfgb (InBuf.disjoint y) out2 = some z ∧
      ∀ l, l < n → z.get l = (n : Cx ℝ) * x.get l := by
  obtain ⟨y, hy, hyv, -⟩ := fft_c2c_dft MAX_FACTORS cfg0 cfgf n FFT_FORWARD hn hn16 hf x out1
  obtain ⟨z, hz, hzv, -⟩ := fft_c2c_dft MAX_FACTORS cfg1 cfgb n FFT_BACKWARD hn hn16 hb y out2
  refine ⟨y, z, hy, hz, ?_⟩
  intro l hl
  rw [hzv l hl]
  unfold dft
  have h1 : ∀ k, k ∈ Finset.range n →
      y.get k * twiddle (⟨Real.pi, Real.cos, Real.sin⟩ : Libm ℝ) n FFT_BACKWARD ^ (k * l) =
      dft (twiddle (⟨Real.pi, Real.cos, Real.sin⟩ : Libm ℝ) n FFT_FORWARD) n x k *
        twiddle (⟨Real.pi, Real.cos, Real.sin⟩ : Libm ℝ) n FFT_BACKWARD ^ (k * l) := by
    intro k hk
    rw [hyv k (Finset.mem_range.1 hk)]
  rw [Finset.sum_congr rfl h1]
  exact dft_inverse n (by omega) x l hl

/-! ## The real-input adapter -/

/-- The pairing loop of the real adapter: cell `c` with `0 < c < n` ends up
holding the value written last, by iteration `c` or by iteration `n - c`. -/
theorem pairLoop_get {K : Type} (n : Nat) (A B : Nat → Cx K) (out : Buf K) (c : Nat)
    (hc1 : 1 ≤ c) (hc2 : c < n) :
    (forFrom 1 (n / 2) (fun i out => (out.set i (A i)).set (n - i) (B i)) out).get c =
      if 2 * c < n then A c else B (n - c) := by
  unfold forFrom
  split_ifs with h
  · rw [forLoop_get_stable c (n / 2) _ out c (by omega)]
    · obtain ⟨c', rfl⟩ : ∃ c', c = c' + 1 := ⟨c - 1, by omega⟩
      rw [forLoop_succ, Buf.get_set, if_neg (by omega), Buf.get_set,
        if_pos (by omega), Nat.add_comm 1 c']
    · intro i h1 h2 t
      rw [Buf.get_set, if_neg (by omega), Buf.get_set, if_neg (by omega)]
  · rw [forLoop_get_stable (n - c) (n / 2) _ out c (by omega)]
    · obtain ⟨d, hd⟩ : ∃ d, n - c = d + 1 := ⟨n - c - 1, by omega⟩
      rw [hd, forLoop_succ, Buf.get_set, if_pos (by omega)]
      have : 1 + d = d + 1 := Nat.add_comm 1 d
      rw [this]
    · intro i h1 h2 t
      rw [Buf.get_set, if_neg (by omega), Buf.get_set, if_neg (by omega)]

theorem pairLoop_frame {K : Type} (n : Nat) (A B : Nat → Cx K) (out : Buf K) (c : Nat)
    (hc : c = 0 ∨ n ≤ c) :
    (forFrom 1 (n / 2) (fun i out => (out.set i (A i)).set (n - i) (B i)) out).get c =
      out.get c := by
  unfold forFrom
  rw [forLoop_get_stable 0 (n / 2) _ out c (Nat.zero_le _)]
  · rfl
  · intro i _ h2 t
    rw [Buf.get_set, if_neg (by omega), Buf.get_set, if_neg (by omega)]

/-- The normalisation loop of `fftr_c2r` scales each of the first `n` cells once. -/
theorem scaleLoop_get {K : Type} [Field K] (n : Nat) (c : Cx K) (b : Buf K) (k : Nat) :
    (forLoop n (fun i b => b.set i (b.get i * c)) b).get k =
      if k < n then b.get k * c else b.get k := by
  induction n with
  | zero => simp
  | succ n ih =>
    rw [forLoop_succ, Buf.get_set]
    by_cases h : k = n
    · subst h
      rw [if_pos rfl, if_pos (Nat.lt_succ_self _)]
      have := ih
      rw [if_neg (Nat.lt_irrefl _)] at this
      rw [this]
    · rw [if_neg h, ih]
      by_cases h2 : k < n
      · rw [if_pos h2, if_pos (by omega)]
      · rw [if_neg h2, if_neg (by omega)]

theorem Cx.conjf_add {K : Type} [CommRing K] (a b : Cx K) :
    Cx.conjf (a + b) = Cx.conjf a + Cx.conjf b := by
  ext <;> simp
  ring

theorem Cx.conjf_sub {K : Type} [CommRing K] (a b : Cx K) :
    Cx.conjf (a - b) = Cx.conjf a - Cx.conjf b := by
  ext <;> simp
  ring

theorem Cx.conjf_mul {K : Type} [CommRing K] (a b : Cx K) :
    Cx.conjf (a * b) = Cx.conjf a * Cx.conjf b := by
  ext <;> simp
  ring

theorem Cx.conjf_pow {K : Type} [CommRing K] (a : Cx K) (k : Nat) :
    Cx.conjf (a ^ k) = Cx.conjf a ^ k := by
  induction k with
  | zero =>
    rw [pow_zero, pow_zero]
    ext <;> simp
  | succ k ih => rw [pow_succ, pow_succ, Cx.conjf_mul, ih]

theorem Cx.conjf_ofReal {K : Type} [CommRing K] (r : K) :
    Cx.conjf (Cx.ofReal r) = Cx.ofReal r := by
  ext <;> simp

theorem Cx.conjf_I {K : Type} [CommRing K] : Cx.conjf (Cx.I : Cx K) = -Cx.I := by
  ext <;> simp

theorem Cx.conjf_conjf {K : Type} [CommRing K] (a : Cx K) : Cx.conjf (Cx.conjf a) = a := by
  ext <;> simp

theorem Cx.conjf_sum {K : Type} [CommRing K] (n : Nat) (f : Nat → Cx K) :
    Cx.conjf (∑ j in Finset.range n, f j) = ∑ j in Finset.range n, Cx.conjf (f j) := by
  induction n with
  | zero =>
    rw [Finset.sum_range_zero, Finset.sum_range_zero]
    ext <;> simp
  | succ n ih => rw [Finset.sum_range_succ, Finset.sum_range_succ, Cx.conjf_add, ih]

/-- Hermitian symmetry of the transform of a real sequence. -/
theorem rdft_conj {K : Type} [Field K] (w w' : Cx K) (n : Nat) (hc : Cx.conjf w = w')
    (hinv : w * w' = 1) (hwn : w ^ n = 1) (a : Nat → K) (k : Nat) (hk : k ≤ n) :
    Cx.conjf (rdft w n a k) = rdft w n a (n - k) := by
  unfold rdft
  rw [Cx.conjf_sum]
  apply Finset.sum_congr rfl
  intro j _
  rw [Cx.conjf_mul, Cx.conjf_ofReal, Cx.conjf_pow, hc]
  congr 1
  have h1 : w ^ (j * (n - k)) * w ^ (j * k) = 1 := by
    rw [← pow_add, ← Nat.mul_add, Nat.sub_add_cancel hk, Nat.mul_comm, pow_mul, hwn, one_pow]
  have h2 : w' ^ (j * k) * w ^ (j * k) = 1 := by
    rw [← mul_pow, mul_comm, hinv, one_pow]
  linear_combination (-(w' ^ (j * k))) * h1 + w ^ (j * (n - k)) * h2

theorem rdft_period {K : Type} [Field K] (w : Cx K) (n : Nat) (hwn : w ^ n = 1) (a : Nat → K) :
    rdft w n a n = rdft w n a 0 := by
  unfold rdft
  apply Finset.sum_congr rfl
  intro j _
  rw [Nat.mul_comm, pow_mul, hwn, one_pow, Nat.mul_zero, pow_zero]

/-- The complex transform of the packed sequence splits into the transforms of
the even and the odd samples. -/
theorem dft_castComplex {K : Type} [Field K] (w : Cx K) (n : Nat) (x : Nat → K) (k : Nat) :
    dft w n (castComplex x) k =
      rdft w n (fun j => x (2 * j)) k + Cx.I * rdft w n (fun j => x (2 * j + 1)) k := by
  unfold dft rdft
  rw [Finset.mul_sum, ← Finset.sum_add_distrib]
  apply Finset.sum_congr rfl
  intro j _
  have : (castComplex x).get j = Cx.ofReal (x (2 * j)) + Cx.I * Cx.ofReal (x (2 * j + 1)) := by
    unfold castComplex
    ext <;> simp
  rw [this]
  ring

/-- The real transform of length `2 n` splits into the transforms of the even
and the odd samples. -/
theorem rdft_split {K : Type} [Field K] (W w : Cx K) (hW : W ^ 2 = w) (n : Nat) (x : Nat → K)
    (k : Nat) :
    rdft W (2 * n) x k =
      rdft w n (fun j => x (2 * j)) k + W ^ k * rdft w n (fun j => x (2 * j + 1)) k := by
  unfold rdft
  rw [sum_range_mul_split 2 n, Finset.sum_range_succ, Finset.sum_range_one, Finset.mul_sum]
  congr 1
  · apply Finset.sum_congr rfl
    intro j _
    rw [Nat.zero_add, Nat.mul_comm j 2, Nat.mul_assoc, pow_mul, hW]
  · apply Finset.sum_congr rfl
    intro j _
    rw [Nat.add_comm 1 (j * 2), Nat.mul_comm j 2, Nat.add_mul, Nat.one_mul, pow_add,
      Nat.mul_assoc, pow_mul, hW]
    ring

theorem twiddle_sq (n : Nat) (hn : 0 < n) (direction : fft_direction) :
    twiddle (⟨Real.pi, Real.cos, Real.sin⟩ : Libm ℝ) (2 * n) direction ^ 2 =
      twiddle (⟨Real.pi, Real.cos, Real.sin⟩ : Libm ℝ) n direction := by
  have hn' : (n : ℝ) ≠ 0 := by exact_mod_cast hn.ne'
  rw [twiddle_pow, twiddle_real]
  have : ((2 : Nat) : ℝ) * angle (⟨Real.pi, Real.cos, Real.sin⟩ : Libm ℝ) (2 * n) direction =
      angle (⟨Real.pi, Real.cos, Real.sin⟩ : Libm ℝ) n direction := by
    rw [angle_real, angle_real]
    push_cast
    split_ifs <;> field_simp <;> ring
  rw [this]

theorem twiddle_conj (n : Nat) :
    Cx.conjf (twiddle (⟨Real.pi, Real.cos, Real.sin⟩ : Libm ℝ) n FFT_FORWARD) =
      twiddle (⟨Real.pi, Real.cos, Real.sin⟩ : Libm ℝ) n FFT_BACKWARD := by
  rw [twiddle_real, twiddle_real, angle_backward, Real.cos_neg, Real.sin_neg]
  rfl

theorem twiddle_mul_inv (n : Nat) :
    twiddle (⟨Real.pi, Real.cos, Real.sin⟩ : Libm ℝ) n FFT_FORWARD *
      twiddle (⟨Real.pi, Real.cos, Real.sin⟩ : Libm ℝ) n FFT_BACKWARD = 1 := by
  rw [twiddle_real, twiddle_real, angle_backward, Real.cos_neg, Real.sin_neg]
  have h := Real.cos_sq_add_sin_sq (angle (⟨Real.pi, Real.cos, Real.sin⟩ : Libm ℝ) n FFT_FORWARD)
  ext
  · simp only [Cx.mul_re, Cx.one_re]
    linear_combination h
  · simp only [Cx.mul_im, Cx.one_im]
    ring

theorem twiddle_pow_self (n : Nat) (hn : 0 < n) (direction : fft_direction) :
    twiddle (⟨Real.pi, Real.cos, Real.sin⟩ : Libm ℝ) n direction ^ n = 1 :=
  (exactTwiddles_real ⟨n, direction, [], phaseTable ⟨Real.pi, Real.cos, Real.sin⟩ n direction⟩
    n direction hn rfl rfl rfl).pow_n

theorem twiddle_pow_half (n : Nat) (hn : 0 < n) (direction : fft_direction) :
    twiddle (⟨Real.pi, Real.cos, Real.sin⟩ : Libm ℝ) (2 * n) direction ^ n = -1 :=
  (exactTwiddles_real
    ⟨2 * n, direction, [], phaseTable ⟨Real.pi, Real.cos, Real.sin⟩ (2 * n) direction⟩
    (2 * n) direction (by omega) rfl rfl rfl).half n rfl

/-- The packing table holds `∓i W^i` with `W` the twiddle of the real length. -/
theorem tw_packTable_real (n : Nat) (direction : fft_direction) (i : Nat) (hi1 : 1 ≤ i)
    (hi2 : i ≤ n / 2) :
    tw (packTable (⟨Real.pi, Real.cos, Real.sin⟩ : Libm ℝ) n direction) (i - 1) =
      (if direction = FFT_BACKWARD then Cx.I else -Cx.I) *
        twiddle (⟨Real.pi, Real.cos, Real.sin⟩ : Libm ℝ) (2 * n) direction ^ i := by
  have hn : 0 < n := by omega
  have hn' : (n : ℝ) ≠ 0 := by exact_mod_cast hn.ne'
  rw [tw_packTable _ _ _ _ (by omega), twiddle_pow, angle_real, Nat.sub_add_cancel hi1, Cx.cis_eq]
  by_cases hd : direction = FFT_BACKWARD
  · simp only [if_pos hd]
    have : Real.pi * ((i : ℝ) / n + 1 / 2) =
        (i : ℝ) * (2 * Real.pi / ((2 * n : Nat) : ℝ)) + Real.pi / 2 := by
      push_cast
      field_simp
      ring
    rw [this, Real.cos_add_pi_div_two, Real.sin_add_pi_div_two]
    ext <;> simp
  · simp only [if_neg hd]
    have : -Real.pi * ((i : ℝ) / n + 1 / 2) =
        (i : ℝ) * (-(2 * Real.pi) / ((2 * n : Nat) : ℝ)) - Real.pi / 2 := by
      push_cast
      field_simp
      ring
    rw [this, Real.cos_sub_pi_div_two, Real.sin_sub_pi_div_two]
    ext <;> simp

theorem Cx.ofReal_add {K : Type} [CommRing K] (a b : K) :
    Cx.ofReal (a + b) = Cx.ofReal a + Cx.ofReal b := by
  ext <;> simp

theorem Cx.ofReal_sub {K : Type} [CommRing K] (a b : K) :
    Cx.ofReal (a - b) = Cx.ofReal a - Cx.ofReal b := by
  ext <;> simp

theorem Cx.ofReal_sum {K : Type} [CommRing K] (n : Nat) (f : Nat → K) :
    Cx.ofReal (∑ j in Finset.range n, f j) = ∑ j in Finset.range n, Cx.ofReal (f j) := by
  induction n with
  | zero =>
    rw [Finset.sum_range_zero, Finset.sum_range_zero]
    ext <;> simp
  | succ n ih => rw [Finset.sum_range_succ, Finset.sum_range_succ, Cx.ofReal_add, ih]

theorem rdft_zero {K : Type} [Field K] (w : Cx K) (n : Nat) (a : Nat → K) :
    rdft w n a 0 = Cx.ofReal (∑ j in Finset.range n, a j) := by
  unfold rdft
  rw [Cx.ofReal_sum]
  apply Finset.sum_congr rfl
  intro j _
  rw [Nat.mul_zero, pow_zero, mul_one]

theorem r2c_low {K : Type} [Field K] [CharZero K] (E O Wi : Cx K) :
    Cx.ofReal (1 / 2) * (((E + Cx.I * O) + (E - Cx.I * O)) +
      ((E + Cx.I * O) - (E - Cx.I * O)) * (-Cx.I * Wi)) = E + Wi * O := by
  have h1 := Cx.ofReal_half_add (K := K)
  have h2 := Cx.I_mul_I (K := K)
  linear_combination (E + Wi * O) * h1 - (2 * Cx.ofReal (1 / 2) * O * Wi) * h2

theorem r2c_high {K : Type} [Field K] [CharZero K] (E O Wi E' O' Wi' : Cx K)
    (hE : Cx.conjf E = E') (hO : Cx.conjf O = O') (hW : Cx.conjf Wi = Wi') :
    Cx.ofReal (1 / 2) * Cx.conjf (((E + Cx.I * O) + (E - Cx.I * O)) -
      ((E + Cx.I * O) - (E - Cx.I * O)) * (-Cx.I * Wi)) = E' - Wi' * O' := by
  have h1 := Cx.ofReal_half_add (K := K)
  have h2 := Cx.I_mul_I (K := K)
  have h3 : ((E + Cx.I * O) + (E - Cx.I * O)) -
      ((E + Cx.I * O) - (E - Cx.I * O)) * (-Cx.I * Wi) = (E - Wi * O) + (E - Wi * O) := by
    linear_combination (2 * O * Wi) * h2
  rw [h3, Cx.conjf_add, Cx.conjf_sub, Cx.conjf_mul, hE, hO, hW]
  linear_combination (E' - Wi' * O') * h1

theorem fftr_init_cfg_fields {K : Type} [Field K] {L : Libm K} {MAX_FACTORS : Nat}
    {rcfg0 rcfg : t_fftr_cfg K} {N : Nat} {direction : fft_direction}
    (h : fftr_init_cfg L MAX_FACTORS rcfg0 N direction = some (0, rcfg)) :
    N % 2 = 0 ∧ rcfg.phase = packTable L (N / 2) direction ∧
      ∃ st, fft_init_cfg L MAX_FACTORS rcfg0.cfg (N / 2) direction = some (st, rcfg.cfg) := by
  unfold fftr_init_cfg at h
  by_cases hp : N % 2 ≠ 0
  · rw [if_pos hp] at h
    simp at h
  · rw [if_neg hp] at h
    simp only at h
    cases hq : fft_init_cfg L MAX_FACTORS rcfg0.cfg (N / 2) direction with
    | none => rw [hq] at h; simp at h
    | some r =>
      obtain ⟨st, cfg⟩ := r
      rw [hq] at h
      have h2 := (Prod.mk.inj (Option.some.inj h)).2
      rw [← h2]
      exact ⟨by omega, rfl, st, rfl⟩

theorem pow_reflect {K : Type} [Field K] (W W' : Cx K) (hc : Cx.conjf W = W')
    (hinv : W * W' = 1) (n : Nat) (hh : W ^ n = -1) (i k : Nat) (hik : i + k = n) :
    Cx.conjf (W ^ i) = -(W ^ k) := by
  rw [Cx.conjf_pow, hc]
  have h1 : W' ^ i * W ^ i = 1 := by rw [← mul_pow, mul_comm, hinv, one_pow]
  have h2 : W ^ k * W ^ i = -1 := by rw [← pow_add, Nat.add_comm, hik, hh]
  linear_combination (-(W ^ k)) * h1 + (W' ^ i) * h2

/-- For every even real length `4 ≤ N ≤ 131072` whose half length factorizes,
`fftr_r2c` writes the `N/2 + 1` values `out[k] = sum over j < N of
x[j] * exp(-2 pi i j k / N)` and nothing else. -/
theorem fftr_r2c_dft (MAX_FACTORS : Nat) (rcfg0 rcfg : t_fftr_cfg ℝ) (N : Nat)
    (hN4 : 4 ≤ N) (hN17 : N ≤ 131072)
    (hinit : fftr_init_cfg ⟨Real.pi, Real.cos, Real.sin⟩ MAX_FACTORS rcfg0 N FFT_FORWARD =
      some (0, rcfg))
    (hfac : fft_init_cfg ⟨Real.pi, Real.cos, Real.sin⟩ MAX_FACTORS rcfg0.cfg (N / 2)
      FFT_FORWARD = some (0, rcfg.cfg))
    (x : Nat → ℝ) (scratch out : Buf ℝ) :
    ∃ out', fftr_r2c rcfg scratch x out = some out' ∧
      (∀ k, k ≤ N / 2 → out'.get k =
        rdft (twiddle ⟨Real.pi, Real.cos, Real.sin⟩ N FFT_FORWARD) N x k) ∧
      (∀ c, N / 2 < c → out'.get c = out.get c) := by
  obtain ⟨hev, hph, -⟩ := fftr_init_cfg_fields hinit
  obtain ⟨n, rfl⟩ : ∃ n, N = 2 * n := ⟨N / 2, by omega⟩
  have hhalf : 2 * n / 2 = n := Nat.mul_div_cancel_left n (by norm_num)
  rw [hhalf] at hfac hph ⊢
  have hn2 : 2 ≤ n := by omega
  obtain ⟨hcn, hdir, -, -⟩ := fft_init_cfg_fields hfac
  obtain ⟨buffer, hb, hbv, -⟩ := fft_c2c_dft MAX_FACTORS rcfg0.cfg rcfg.cfg n FFT_FORWARD hn2
    (by omega) hfac (castComplex x) scratch
  generalize hW : twiddle (⟨Real.pi, Real.cos, Real.sin⟩ : Libm ℝ) (2 * n) FFT_FORWARD = W
  generalize hw : twiddle (⟨Real.pi, Real.cos, Real.sin⟩ : Libm ℝ) n FFT_FORWARD = w at hbv
  have hsq : W ^ 2 = w := by rw [← hW, ← hw]; exact twiddle_sq n (by omega) _
  have hWn : W ^ n = -1 := by rw [← hW]; exact twiddle_pow_half n (by omega) _
  have hwn : w ^ n = 1 := by rw [← hw]; exact twiddle_pow_self n (by omega) _
  have hWc : Cx.conjf W * W = 1 := by
    rw [← hW, twiddle_conj, mul_comm]; exact twiddle_mul_inv _
  have hwc : w * Cx.conjf w = 1 := by
    rw [← hw, twiddle_conj]; exact twiddle_mul_inv _
  have hpk : ∀ i, 1 ≤ i → i ≤ n / 2 → tw rcfg.phase (i - 1) = -Cx.I * W ^ i := by
    intro i h1 h2
    rw [hph, tw_packTable_real n FFT_FORWARD i h1 h2, if_neg (by decide), hW]
  generalize hE : (fun k => rdft w n (fun j => x (2 * j)) k) = E
  generalize hO : (fun k => rdft w n (fun j => x (2 * j + 1)) k) = O
  have hZ : ∀ k, k < n → buffer.get k = E k + Cx.I * O k := by
    intro k hk
    rw [hbv k hk, dft_castComplex, ← hE, ← hO]
  have hEc : ∀ k, k ≤ n → Cx.conjf (E k) = E (n - k) := by
    intro k hk
    rw [← hE]
    exact rdft_conj w _ n rfl hwc hwn _ k hk
  have hOc : ∀ k, k ≤ n → Cx.conjf (O k) = O (n - k) := by
    intro k hk
    rw [← hO]
    exact rdft_conj w _ n rfl hwc hwn _ k hk
  have hcZ : ∀ i, 1 ≤ i → i < n → Cx.conjf (buffer.get (n - i)) = E i - Cx.I * O i := by
    intro i h1 h2
    rw [hZ (n - i) (by omega), Cx.conjf_add, Cx.conjf_mul, Cx.conjf_I, hEc _ (by omega),
      hOc _ (by omega), Nat.sub_sub_self (by omega)]
    ring
  have hX : ∀ k, rdft W (2 * n) x k = E k + W ^ k * O k := by
    intro k
    rw [rdft_split W w hsq, ← hE, ← hO]
  have hE0 : E 0 = Cx.ofReal (∑ j in Finset.range n, x (2 * j)) := by
    rw [← hE]; exact rdft_zero _ _ _
  have hO0 : O 0 = Cx.ofReal (∑ j in Finset.range n, x (2 * j + 1)) := by
    rw [← hO]; exact rdft_zero _ _ _
  have hEn : E n = E 0 := by rw [← hE]; exact rdft_period w n hwn _
  have hOn : O n = O 0 := by rw [← hO]; exact rdft_period w n hwn _
  have key : fftr_r2c rcfg scratch x out = some
      (forFrom 1 (n / 2) (fun i o =>
        (o.set i (Cx.ofReal (1 / 2) * ((buffer.get i + Cx.conjf (buffer.get (n - i))) +
          (buffer.get i - Cx.conjf (buffer.get (n - i))) * tw rcfg.phase (i - 1)))).set (n - i)
          (Cx.ofReal (1 / 2) * Cx.conjf ((buffer.get i + Cx.conjf (buffer.get (n - i))) -
            (buffer.get i - Cx.conjf (buffer.get (n - i))) * tw rcfg.phase (i - 1))))
        ((out.set 0 (Cx.ofReal (Cx.creal (buffer.get 0) + Cx.cimag (buffer.get 0)))).set n
          (Cx.ofReal (Cx.creal (buffer.get 0) - Cx.cimag (buffer.get 0))))) := by
    unfold fftr_r2c
    rw [if_neg (not_not.2 hdir), hb, hcn]
    rfl
  refine ⟨_, key, ?_, ?_⟩
  · intro k hk
    rw [hX]
    rcases Nat.eq_zero_or_pos k with h0 | h0
    · subst h0
      rw [pairLoop_frame _ _ _ _ _ (Or.inl rfl), Buf.get_set, if_neg (by omega), Buf.get_set,
        if_pos rfl, hZ 0 (by omega), hE0, hO0, pow_zero, one_mul, ← Cx.ofReal_add]
      simp
    · rcases Nat.lt_or_ge k n with h1 | h1
      · rw [pairLoop_get _ _ _ _ _ h0 h1]
        split_ifs with h2
        · rw [hZ k h1, hcZ k h0 h1, hpk k h0 (by omega), r2c_low]
        · have hi1 : 1 ≤ n - k := by omega
          have hi2 : n - k < n := by omega
          rw [hZ (n - k) hi2, hcZ (n - k) hi1 hi2, hpk (n - k) hi1 (by omega),
            r2c_high _ _ _ _ _ _ (hEc _ (by omega)) (hOc _ (by omega))
              (pow_reflect W (Cx.conjf W) rfl (by rw [mul_comm]; exact hWc) n hWn (n - k) k
                (by omega)),
            Nat.sub_sub_self (by omega)]
          ring
      · have hkn : k = n := by omega
        subst hkn
        rw [pairLoop_frame _ _ _ _ _ (Or.inr (le_refl _)), Buf.get_set, if_pos rfl,
          hZ 0 (by omega), hE0, hO0, hWn, hEn, hOn, hE0, hO0]
        ext <;> simp
        ring
  · intro c hc
    rw [pairLoop_frame _ _ _ _ _ (Or.inr (by omega)), Buf.get_set, if_neg (by omega),
      Buf.get_set, if_neg (by omega)]

theorem c2r_low {K : Type} [Field K] (E O Wi Wi' : Cx K) (hinv : Wi * Wi' = 1) :
    ((E + Wi * O) + (E - Wi * O)) + ((E + Wi * O) - (E - Wi * O)) * (Cx.I * Wi') =
      (E + Cx.I * O) + (E + Cx.I * O) := by
  linear_combination (2 * O * Cx.I) * hinv

theorem c2r_high {K : Type} [Field K] (E O Wi Wi' E' O' : Cx K) (hinv : Wi * Wi' = 1)
    (hE : Cx.conjf E = E') (hO : Cx.conjf O = O') :
    Cx.conjf (((E + Wi * O) + (E - Wi * O)) - ((E + Wi * O) - (E - Wi * O)) * (Cx.I * Wi')) =
      (E' + Cx.I * O') + (E' + Cx.I * O') := by
  have h3 : ((E + Wi * O) + (E - Wi * O)) - ((E + Wi * O) - (E - Wi * O)) * (Cx.I * Wi') =
      (E - Cx.I * O) + (E - Cx.I * O) := by
    linear_combination (-(2 * O * Cx.I)) * hinv
  rw [h3, Cx.conjf_add, Cx.conjf_sub, Cx.conjf_mul, Cx.conjf_I, hE, hO]
  ring

theorem castReal_castComplex {K : Type} [Field K] (z : Buf K) (x : Nat → K) (N : Nat)
    (h : ∀ l, l < N / 2 → z.get l = (castComplex x).get l) (hN : N % 2 = 0) (k : Nat)
    (hk : k < N) : castReal z k = x k := by
  unfold castReal
  rw [h (k / 2) (by omega)]
  unfold castComplex
  split_ifs with hp
  · show x (2 * (k / 2)) = x k
    congr 1
    omega
  · show x (2 * (k / 2) + 1) = x k
    congr 1
    omega

theorem castReal_castComplex_self {K : Type} [Field K] (x : Nat → K) :
    castReal (castComplex x) = x := by
  funext k
  unfold castReal castComplex
  split_ifs with hp
  · show x (2 * (k / 2)) = x k
    congr 1
    omega
  · show x (2 * (k / 2) + 1) = x k
    congr 1
    omega

/-- For every even real length `4 ≤ N ≤ 131072` whose half length factorizes,
`fftr_c2r` applied to the `N/2 + 1` values of the forward real transform of `x`
returns `x` in the first `N` cells of its output and writes no other cell. -/
theorem fftr_c2r_rdft (MAX_FACTORS : Nat) (rb0 rb : t_fftr_cfg ℝ) (N : Nat)
    (hN4 : 4 ≤ N) (hN17 : N ≤ 131072)
    (hb : fftr_init_cfg ⟨Real.pi, Real.cos, Real.sin⟩ MAX_FACTORS rb0 N FFT_BACKWARD =
      some (0, rb))
    (hbf : fft_init_cfg ⟨Real.pi, Real.cos, Real.sin⟩ MAX_FACTORS rb0.cfg (N / 2)
      FFT_BACKWARD = some (0, rb.cfg))
    (x : Nat → ℝ) (X : Buf ℝ)
    (hXv : ∀ k, k ≤ N / 2 → X.get k =
      rdft (twiddle ⟨Real.pi, Real.cos, Real.sin⟩ N FFT_FORWARD) N x k)
    (s2 : Buf ℝ) (out2 : Nat → ℝ) :
    ∃ y, fftr_c2r rb s2 X out2 = some y ∧ (∀ k, k < N → y k = x k) ∧
      (∀ k, N ≤ k → y k = out2 k) := by
  obtain ⟨hev, hph, -⟩ := fftr_init_cfg_fields hb
  obtain ⟨n, rfl⟩ : ∃ n, N = 2 * n := ⟨N / 2, by omega⟩
  have hhalf : 2 * n / 2 = n := Nat.mul_div_cancel_left n (by norm_num)
  rw [hhalf] at hbf hph hXv
  have hn2 : 2 ≤ n := by omega
  have hn' : (n : ℝ) ≠ 0 := by
    have : 0 < n := by omega
    exact_mod_cast this.ne'
  obtain ⟨hcn, hdir, -, -⟩ := fft_init_cfg_fields hbf
  generalize hW : twiddle (⟨Real.pi, Real.cos, Real.sin⟩ : Libm ℝ) (2 * n) FFT_FORWARD = W
    at hXv
  have hsq : W ^ 2 = twiddle (⟨Real.pi, Real.cos, Real.sin⟩ : Libm ℝ) n FFT_FORWARD := by
    rw [← hW]; exact twiddle_sq n (by omega) _
  have hWn : W ^ n = -1 := by rw [← hW]; exact twiddle_pow_half n (by omega) _
  have hwn : twiddle (⟨Real.pi, Real.cos, Real.sin⟩ : Libm ℝ) n FFT_FORWARD ^ n = 1 :=
    twiddle_pow_self n (by omega) _
  have hWc : W * Cx.conjf W = 1 := by
    rw [← hW, twiddle_conj]; exact twiddle_mul_inv _
  have hwc : twiddle (⟨Real.pi, Real.cos, Real.sin⟩ : Libm ℝ) n FFT_FORWARD *
      Cx.conjf (twiddle (⟨Real.pi, Real.cos, Real.sin⟩ : Libm ℝ) n FFT_FORWARD) = 1 := by
    rw [twiddle_conj]; exact twiddle_mul_inv _
  have hpk : ∀ i, 1 ≤ i → i ≤ n / 2 → tw rb.phase (i - 1) = Cx.I * Cx.conjf W ^ i := by
    intro i h1 h2
    rw [hph, tw_packTable_real n FFT_BACKWARD i h1 h2, if_pos rfl, ← hW, twiddle_conj]
  generalize hE : (fun k => rdft (twiddle (⟨Real.pi, Real.cos, Real.sin⟩ : Libm ℝ) n
    FFT_FORWARD) n (fun j => x (2 * j)) k) = E
  generalize hO : (fun k => rdft (twiddle (⟨Real.pi, Real.cos, Real.sin⟩ : Libm ℝ) n
    FFT_FORWARD) n (fun j => x (2 * j + 1)) k) = O
  have hZ : ∀ k, dft (twiddle (⟨Real.pi, Real.cos, Real.sin⟩ : Libm ℝ) n FFT_FORWARD) n
      (castComplex x) k = E k + Cx.I * O k := by
    intro k
    rw [dft_castComplex, ← hE, ← hO]
  have hEc : ∀ k, k ≤ n → Cx.conjf (E k) = E (n - k) := by
    intro k hk
    rw [← hE]
    exact rdft_conj _ _ n rfl hwc hwn _ k hk
  have hOc : ∀ k, k ≤ n → Cx.conjf (O k) = O (n - k) := by
    intro k hk
    rw [← hO]
    exact rdft_conj _ _ n rfl hwc hwn _ k hk
  have hXk : ∀ k, k ≤ n → X.get k = E k + W ^ k * O k := by
    intro k hk
    rw [hXv k hk, rdft_split W _ hsq, ← hE, ← hO]
  have hcX : ∀ i, 1 ≤ i → i < n → Cx.conjf (X.get (n - i)) = E i - W ^ i * O i := by
    intro i h1 h2
    rw [hXk (n - i) (by omega), Cx.conjf_add, Cx.conjf_mul, hEc _ (by omega),
      hOc _ (by omega), Nat.sub_sub_self (by omega),
      pow_reflect W (Cx.conjf W) rfl hWc n hWn (n - i) i (by omega)]
    ring
  have hE0 : E 0 = Cx.ofReal (∑ j in Finset.range n, x (2 * j)) := by
    rw [← hE]; exact rdft_zero _ _ _
  have hO0 : O 0 = Cx.ofReal (∑ j in Finset.range n, x (2 * j + 1)) := by
    rw [← hO]; exact rdft_zero _ _ _
  have hEn : E n = E 0 := by rw [← hE]; exact rdft_period _ n hwn _
  have hOn : O n = O 0 := by rw [← hO]; exact rdft_period _ n hwn _
  -- the buffer handed to the backward complex transform
  generalize hbuf1 : forFrom 1 (n / 2) (fun i b =>
      (b.set i ((X.get i + Cx.conjf (X.get (n - i))) +
        (X.get i - Cx.conjf (X.get (n - i))) * tw rb.phase (i - 1))).set (n - i)
        (Cx.conjf ((X.get i + Cx.conjf (X.get (n - i))) -
          (X.get i - Cx.conjf (X.get (n - i))) * tw rb.phase (i - 1))))
      (s2.set 0 (Cx.ofReal (Cx.creal (X.get 0) + Cx.creal (X.get n)) +
        Cx.I * Cx.ofReal (Cx.creal (X.get 0) - Cx.creal (X.get n)))) = buffer1
  generalize hbuf2 : forLoop n (fun i b =>
      b.set i (b.get i * Cx.ofReal (1 / ((2 * n : Nat) : ℝ)))) buffer1 = buffer2
  have hb1 : ∀ k, k < n → buffer1.get k = (E k + Cx.I * O k) + (E k + Cx.I * O k) := by
    intro k hk
    rw [← hbuf1]
    rcases Nat.eq_zero_or_pos k with h0 | h0
    · subst h0
      rw [pairLoop_frame _ _ _ _ _ (Or.inl rfl), Buf.get_set, if_pos rfl, hXk 0 (by omega),
        hXk n (le_refl _), hWn, hEn, hOn, hE0, hO0, pow_zero]
      ext <;> simp
      ring
    · rw [pairLoop_get _ _ _ _ _ h0 hk]
      split_ifs with h2
      · rw [hXk k (by omega), hcX k h0 hk, hpk k h0 (by omega)]
        exact c2r_low _ _ _ _ (by rw [← mul_pow, hWc, one_pow])
      · have hi1 : 1 ≤ n - k := by omega
        have hi2 : n - k < n := by omega
        rw [hXk (n - k) (by omega), hcX (n - k) hi1 hi2, hpk (n - k) hi1 (by omega),
          c2r_high _ _ _ _ _ _ (by rw [← mul_pow, hWc, one_pow]) (hEc _ (by omega))
            (hOc _ (by omega)), Nat.sub_sub_self (by omega)]
  have hb2 : ∀ k, k < n → buffer2.get k =
      dft (twiddle (⟨Real.pi, Real.cos, Real.sin⟩ : Libm ℝ) n FFT_FORWARD) n
        (castComplex x) k * (Cx.ofReal (1 / ((2 * n : Nat) : ℝ)) +
          Cx.ofReal (1 / ((2 * n : Nat) : ℝ))) := by
    intro k hk
    rw [← hbuf2, scaleLoop_get, if_pos hk, hb1 k hk, hZ]
    ring
  obtain ⟨z, hz, hzv, hzf⟩ := fft_c2c_dft MAX_FACTORS rb0.cfg rb.cfg n FFT_BACKWARD hn2
    (by omega) hbf buffer2 (castComplex out2)
  have key : fftr_c2r rb s2 X out2 = some (castReal z) := by
    unfold fftr_c2r
    rw [if_neg (not_not.2 hdir), hcn]
    simp only []
    rw [hbuf1, hbuf2, hz]
    rfl
  refine ⟨castReal z, key, ?_, ?_⟩
  · intro k hk
    refine castReal_castComplex z x (2 * n) ?_ hev k hk
    intro l hl
    rw [hhalf] at hl
    rw [hzv l hl]
    unfold dft
    have h1 : ∀ k, k ∈ Finset.range n →
        buffer2.get k * twiddle (⟨Real.pi, Real.cos, Real.sin⟩ : Libm ℝ) n FFT_BACKWARD ^ (k * l) =
        (Cx.ofReal (1 / ((2 * n : Nat) : ℝ)) + Cx.ofReal (1 / ((2 * n : Nat) : ℝ))) *
          (dft (twiddle (⟨Real.pi, Real.cos, Real.sin⟩ : Libm ℝ) n FFT_FORWARD) n
            (castComplex x) k *
            twiddle (⟨Real.pi, Real.cos, Real.sin⟩ : Libm ℝ) n FFT_BACKWARD ^ (k * l)) := by
      intro k hk
      rw [hb2 k (Finset.mem_range.1 hk)]
      ring
    rw [Finset.sum_congr rfl h1, ← Finset.mul_sum, dft_inverse n (by omega) _ l hl, ← mul_assoc]
    have h2 : (Cx.ofReal (1 / ((2 * n : Nat) : ℝ)) + Cx.ofReal (1 / ((2 * n : Nat) : ℝ))) *
        (n : Cx ℝ) = 1 := by
      ext
      · simp only [Cx.mul_re, Cx.add_re, Cx.add_im, Cx.ofReal_re, Cx.ofReal_im, Cx.natCast_re,
          Cx.natCast_im, Cx.one_re]
        push_cast
        field_simp
        norm_num
      · simp only [Cx.mul_im, Cx.add_re, Cx.add_im, Cx.ofReal_re, Cx.ofReal_im, Cx.natCast_re,
          Cx.natCast_im, Cx.one_im]
        ring
    rw [h2, one_mul]
  · intro k hk
    have h1 : castReal z k = castReal (castComplex out2) k := by
      unfold castReal
      rw [hzf (k / 2) (by omega)]
    rw [h1, castReal_castComplex_self]

/-- For every even real length `4 ≤ N ≤ 131072` whose half length factorizes,
`fftr_c2r` applied to the output of `fftr_r2c` returns the input sequence. -/
theorem fftr_round_trip (MAX_FACTORS : Nat) (rf0 rf rb0 rb : t_fftr_cfg ℝ) (N : Nat)
    (hN4 : 4 ≤ N) (hN17 : N ≤ 131072)
    (hf : fftr_init_cfg ⟨Real.pi, Real.cos, Real.sin⟩ MAX_FACTORS rf0 N FFT_FORWARD =
      some (0, rf))
    (hff : fft_init_cfg ⟨Real.pi, Real.cos, Real.sin⟩ MAX_FACTORS rf0.cfg (N / 2)
      FFT_FORWARD = some (0, rf.cfg))
    (hb : fftr_init_cfg ⟨Real.pi, Real.cos, Real.sin⟩ MAX_FACTORS rb0 N FFT_BACKWARD =
      some (0, rb))
    (hbf : fft_init_cfg ⟨Real.pi, Real.cos, Real.sin⟩ MAX_FACTORS rb0.cfg (N / 2)
      FFT_BACKWARD = some (0, rb.cfg))
    (x : Nat → ℝ) (s1 s2 out1 : Buf ℝ) (out2 : Nat → ℝ) :
    ∃ X y, fftr_r2c rf s1 x out1 = some X ∧ fftr_c2r rb s2 X out2 = some y ∧
      ∀ k, k < N → y k = x k := by
  obtain ⟨X, hX1, hXv, -⟩ := fftr_r2c_dft MAX_FACTORS rf0 rf N hN4 hN17 hf hff x s1 out1
  obtain ⟨y, hy, hyv, -⟩ := fftr_c2r_rdft MAX_FACTORS rb0 rb N hN4 hN17 hb hbf x X hXv s2 out2
  exact ⟨X, y, hX1, hy, hyv⟩

/-- The transform of a constant real sequence is concentrated in bin zero. -/
theorem rdft_const (N : Nat) (hN : 0 < N) (c : ℝ) (k : Nat) (hk : k < N) :
    rdft (twiddle (⟨Real.pi, Real.cos, Real.sin⟩ : Libm ℝ) N FFT_FORWARD) N (fun _ => c) k =
      if k = 0 then (N : Cx ℝ) * Cx.ofReal c else 0 := by
  unfold rdft
  have h1 : ∀ j, j ∈ Finset.range N →
      Cx.ofReal c * twiddle (⟨Real.pi, Real.cos, Real.sin⟩ : Libm ℝ) N FFT_FORWARD ^ (j * k) =
      Cx.ofReal c * (twiddle (⟨Real.pi, Real.cos, Real.sin⟩ : Libm ℝ) N FFT_FORWARD ^ (k * j) *
        twiddle (⟨Real.pi, Real.cos, Real.sin⟩ : Libm ℝ) N FFT_BACKWARD ^ (j * 0)) := by
    intro j _
    rw [Nat.mul_zero, pow_zero, mul_one, Nat.mul_comm]
  rw [Finset.sum_congr rfl h1, ← Finset.mul_sum, twiddle_orthogonal N hN k 0 hk hN]
  split_ifs <;> ring

/-- For every even real length `4 ≤ N ≤ 131072` whose half length factorizes, a
constant sequence with value `c` is transformed to `out[0] = N * c` and
`out[k] = 0` for `1 ≤ k ≤ N/2`. -/
theorem fftr_r2c_const (MAX_FACTORS : Nat) (rcfg0 rcfg : t_fftr_cfg ℝ) (N : Nat)
    (hN4 : 4 ≤ N) (hN17 : N ≤ 131072)
    (hinit : fftr_init_cfg ⟨Real.pi, Real.cos, Real.sin⟩ MAX_FACTORS rcfg0 N FFT_FORWARD =
      some (0, rcfg))
    (hfac : fft_init_cfg ⟨Real.pi, Real.cos, Real.sin⟩ MAX_FACTORS rcfg0.cfg (N / 2)
      FFT_FORWARD = some (0, rcfg.cfg))
    (c : ℝ) (scratch out : Buf ℝ) :
    ∃ out', fftr_r2c rcfg scratch (fun _ => c) out = some out' ∧
      out'.get 0 = (N : Cx ℝ) * Cx.ofReal c ∧ ∀ k, 1 ≤ k → k ≤ N / 2 → out'.get k = 0 := by
  obtain ⟨out', h1, h2, -⟩ := fftr_r2c_dft MAX_FACTORS rcfg0 rcfg N hN4 hN17 hinit hfac
    (fun _ => c) scratch out
  refine ⟨out', h1, ?_, ?_⟩
  · rw [h2 0 (Nat.zero_le _), rdft_const N (by omega) c 0 (by omega), if_pos rfl]
  · intro k hk1 hk2
    rw [h2 k hk2, rdft_const N (by omega) c k (by omega), if_neg (by omega)]

/-! ## Concrete instances -/

theorem sqrt_4 : Nat.sqrt 4 = 2 := by
  symm; rw [Nat.eq_sqrt]; norm_num

theorem factorLoop_4 : factorLoop 32 2 (4 + 1) 0 4 4 [] = some (0, [⟨4, 1⟩]) := by
  decide

/-- On a single radix-4 stage the impulse `[1,0,0,0]` is transformed to `[1,1,1,1]`. -/
theorem radix4_impulse {K : Type} [Field K] (cfg : t_fft_cfg K) (hf : cfg.factors = [⟨4, 1⟩])
    (out : Buf K) :
    ∃ r, fft_c2c cfg (InBuf.disjoint (impulse 0)) out = some r ∧ ∀ k, k < 4 → r.get k = 1 := by
  refine ⟨_, by rw [fft_c2c, hf, transform_single], ?_⟩
  intro k hk
  interval_cases k <;>
    simp [butterfly, butterfly4, forLoop, InBuf.read, impulse_get]

/-- The forward transform of `[1,0,0,0]` with the exact length-4 configuration is
`[1,1,1,1]`. -/
theorem fft_c2c_impulse_four :
    ∃ cfg r,
      fft_init_cfg (⟨Real.pi, Real.cos, Real.sin⟩ : Libm ℝ) 32 ⟨0, FFT_FORWARD, [], []⟩ 4
        FFT_FORWARD = some (0, cfg) ∧
      fft_c2c cfg (InBuf.disjoint (impulse 0)) ⟨fun _ => 0⟩ = some r ∧
      ∀ k, k < 4 → r.get k = 1 := by
  have hcfg : fft_init_cfg (⟨Real.pi, Real.cos, Real.sin⟩ : Libm ℝ) 32 ⟨0, FFT_FORWARD, [], []⟩ 4
      FFT_FORWARD = some (0, ⟨4, FFT_FORWARD, [⟨4, 1⟩],
        phaseTable ⟨Real.pi, Real.cos, Real.sin⟩ 4 FFT_FORWARD⟩) := by
    unfold fft_init_cfg
    rw [fft_init_factors_eq]
    simp only [sqrt_4, factorLoop_4, Option.map_some']
  obtain ⟨r, hr, hall⟩ := radix4_impulse
    (⟨4, FFT_FORWARD, [⟨4, 1⟩], phaseTable ⟨Real.pi, Real.cos, Real.sin⟩ 4 FFT_FORWARD⟩ :
      t_fft_cfg ℝ) rfl ⟨fun _ => 0⟩
  exact ⟨_, r, hcfg, hr, hall⟩

theorem fft_init_cfg_four (direction : fft_direction) :
    fft_init_cfg (⟨Real.pi, Real.cos, Real.sin⟩ : Libm ℝ) 32 ⟨0, FFT_FORWARD, [], []⟩ 4
      direction = some (0, ⟨4, direction, [⟨4, 1⟩],
        phaseTable ⟨Real.pi, Real.cos, Real.sin⟩ 4 direction⟩) := by
  unfold fft_init_cfg
  rw [fft_init_factors_eq]
  simp only [sqrt_4, factorLoop_4, Option.map_some']

theorem fft_init_cfg_eight (direction : fft_direction) :
    fft_init_cfg (⟨Real.pi, Real.cos, Real.sin⟩ : Libm ℝ) 32 ⟨0, FFT_FORWARD, [], []⟩ 8
      direction = some (0, ⟨8, direction, [⟨4, 2⟩, ⟨2, 1⟩],
        phaseTable ⟨Real.pi, Real.cos, Real.sin⟩ 8 direction⟩) := by
  unfold fft_init_cfg
  rw [fft_init_factors_eq]
  simp only [sqrt_8, factorLoop_8, Option.map_some']

theorem fftr_init_cfg_eight (direction : fft_direction) :
    fftr_init_cfg (⟨Real.pi, Real.cos, Real.sin⟩ : Libm ℝ) 32
      ⟨⟨0, FFT_FORWARD, [], []⟩, []⟩ 8 direction =
      some (0, ⟨⟨4, direction, [⟨4, 1⟩], phaseTable ⟨Real.pi, Real.cos, Real.sin⟩ 4 direction⟩,
        packTable ⟨Real.pi, Real.cos, Real.sin⟩ 4 direction⟩) := by
  unfold fftr_init_cfg
  rw [if_neg (by decide)]
  simp only [show 8 / 2 = 4 from rfl, fft_init_cfg_four]

/-- The two-stage length 8 (radix 4, then radix 2) with capacity 32: the
transform of every input is its discrete Fourier transform, in both directions. -/
theorem fft_c2c_dft_eight (direction : fft_direction) (x out : Buf ℝ) :
    ∃ cfg out',
      fft_init_cfg (⟨Real.pi, Real.cos, Real.sin⟩ : Libm ℝ) 32 ⟨0, FFT_FORWARD, [], []⟩ 8
        direction = some (0, cfg) ∧
      fft_c2c cfg (InBuf.disjoint x) out = some out' ∧
      ∀ k, k < 8 → out'.get k = dft (twiddle ⟨Real.pi, Real.cos, Real.sin⟩ 8 direction) 8 x k := by
  obtain ⟨out', h1, h2, -⟩ := fft_c2c_dft 32 _ _ 8 direction (by decide) (by decide)
    (fft_init_cfg_eight direction) x out
  exact ⟨_, out', fft_init_cfg_eight direction, h1, h2⟩

/-- Length 8 with capacity 32: forward then backward gives `8 * x`. -/
theorem fft_c2c_round_trip_eight (x out1 out2 : Buf ℝ) :
    ∃ cfgf cfgb y z,
      fft_init_cfg (⟨Real.pi, Real.cos, Real.sin⟩ : Libm ℝ) 32 ⟨0, FFT_FORWARD, [], []⟩ 8
        FFT_FORWARD = some (0, cfgf) ∧
      fft_init_cfg (⟨Real.pi, Real.cos, Real.sin⟩ : Libm ℝ) 32 ⟨0, FFT_FORWARD, [], []⟩ 8
        FFT_BACKWARD = some (0, cfgb) ∧
      fft_c2c cfgf (InBuf.disjoint x) out1 = some y ∧
      fft_c2c cfgb (InBuf.disjoint y) out2 = some z ∧
      ∀ l, l < 8 → z.get l = 8 * x.get l := by
  obtain ⟨y, z, h1, h2, h3⟩ := fft_c2c_round_trip 32 _ _ _ _ 8 (by decide) (by decide)
    (fft_init_cfg_eight FFT_FORWARD) (fft_init_cfg_eight FFT_BACKWARD) x out1 out2
  refine ⟨_, _, y, z, fft_init_cfg_eight FFT_FORWARD, fft_init_cfg_eight FFT_BACKWARD, h1, h2, ?_⟩
  intro l hl
  rw [h3 l hl]
  norm_num

/-- Real length 8 with capacity 32: `fftr_r2c` writes the five values of the
real transform. -/
theorem fftr_r2c_dft_eight (x : Nat → ℝ) (scratch out : Buf ℝ) :
    ∃ rcfg out',
      fftr_init_cfg (⟨Real.pi, Real.cos, Real.sin⟩ : Libm ℝ) 32
        ⟨⟨0, FFT_FORWARD, [], []⟩, []⟩ 8 FFT_FORWARD = some (0, rcfg) ∧
      fftr_r2c rcfg scratch x out = some out' ∧
      (∀ k, k ≤ 4 → out'.get k =
        rdft (twiddle ⟨Real.pi, Real.cos, Real.sin⟩ 8 FFT_FORWARD) 8 x k) ∧
      ∀ c, 4 < c → out'.get c = out.get c := by
  obtain ⟨out', h1, h2, h3⟩ := fftr_r2c_dft 32 _ _ 8 (by decide) (by decide)
    (fftr_init_cfg_eight FFT_FORWARD) (fft_init_cfg_four FFT_FORWARD) x scratch out
  exact ⟨_, out', fftr_init_cfg_eight FFT_FORWARD, h1, h2, h3⟩

/-- Real length 8 with capacity 32: `fftr_c2r` after `fftr_r2c` returns the input. -/
theorem fftr_round_trip_eight (x : Nat → ℝ) (s1 s2 out1 : Buf ℝ) (out2 : Nat → ℝ) :
    ∃ rf rb X y,
      fftr_init_cfg (⟨Real.pi, Real.cos, Real.sin⟩ : Libm ℝ) 32
        ⟨⟨0, FFT_FORWARD, [], []⟩, []⟩ 8 FFT_FORWARD = some (0, rf) ∧
      fftr_init_cfg (⟨Real.pi, Real.cos, Real.sin⟩ : Libm ℝ) 32
        ⟨⟨0, FFT_FORWARD, [], []⟩, []⟩ 8 FFT_BACKWARD = some (0, rb) ∧
      fftr_r2c rf s1 x out1 = some X ∧ fftr_c2r rb s2 X out2 = some y ∧
      ∀ k, k < 8 → y k = x k := by
  obtain ⟨X, y, h1, h2, h3⟩ := fftr_round_trip 32 _ _ _ _ 8 (by decide) (by decide)
    (fftr_init_cfg_eight FFT_FORWARD) (fft_init_cfg_four FFT_FORWARD)
    (fftr_init_cfg_eight FFT_BACKWARD) (fft_init_cfg_four FFT_BACKWARD) x s1 s2 out1 out2
  exact ⟨_, _, X, y, fftr_init_cfg_eight FFT_FORWARD, fftr_init_cfg_eight FFT_BACKWARD, h1, h2, h3⟩

/-- Witness for claim C1's failing input with capacity 32. -/
theorem fft_c2c_wraps_65537_witness :
    0 < 32 ∧
    ∃ cfg out', fft_init_cfg ⟨Real.pi, Real.cos, Real.sin⟩ 32 ⟨0, FFT_FORWARD, [], []⟩ 65537
        FFT_FORWARD = some (0, cfg) ∧
      fft_c2c cfg (InBuf.disjoint (impulse 65536)) ⟨fun _ => 0⟩ = some out' ∧
      out'.get 65536 = 1 ∧
      dft (twiddle ⟨Real.pi, Real.cos, Real.sin⟩ 65537 FFT_FORWARD) 65537 (impulse 65536) 65536
        ≠ 1 :=
  ⟨by decide, fft_c2c_wraps_65537 32 (by decide) ⟨0, FFT_FORWARD, [], []⟩ ⟨fun _ => 0⟩⟩

/-- Witness for claim C4's failing input with capacity 32. -/
theorem fftr_r2c_wraps_131074_witness :
    0 < 32 ∧
    ∃ rcfg out', fftr_init_cfg ⟨Real.pi, Real.cos, Real.sin⟩ 32
        ⟨⟨0, FFT_FORWARD, [], []⟩, []⟩ 131074 FFT_FORWARD = some (0, rcfg) ∧
      fftr_r2c rcfg ⟨fun _ => 0⟩ (realImpulse (2 * 65536)) ⟨fun _ => 0⟩ = some out' ∧
      out'.get 1 ≠ rdft (twiddle ⟨Real.pi, Real.cos, Real.sin⟩ 131074 FFT_FORWARD) 131074
        (realImpulse (2 * 65536)) 1 :=
  ⟨by decide, fftr_r2c_wraps_131074 32 (by decide) ⟨⟨0, FFT_FORWARD, [], []⟩, []⟩
    ⟨fun _ => 0⟩ ⟨fun _ => 0⟩⟩

/-- Witness for claim C5 as amended, on the exact forward configuration of length 4. -/
theorem fft_c2c_inplace_single_stage_witness :
    cfg4.factors = [⟨4, 1⟩] ∧ 4 ≤ INT_MAX ∧
    ∃ r r', fft_c2c cfg4 InBuf.aliased (impulse 0) = some r ∧
      fft_c2c cfg4 (InBuf.disjoint (impulse 0)) ⟨fun _ => 0⟩ = some r' ∧
      ∀ k, k < 4 → r.get k = r'.get k :=
  ⟨rfl, by decide,
    fft_c2c_inplace_single_stage cfg4 4 rfl (by decide) (impulse 0) ⟨fun _ => 0⟩⟩

/-! ## Status of `fftr_init_cfg` -/

/-- Claim C11 fails: whenever the length is even, `fftr_init_cfg` returns status `0`
whatever status `st` the inner `fft_init_cfg` call returned, a failure status
`st ≠ 0` included; the inner status is dropped. -/
theorem fftr_init_cfg_drops_status {K : Type} [Field K] (L : Libm K) (MAX_FACTORS : Nat)
    (rcfg : t_fftr_cfg K) (nr : Nat) (direction : fft_direction) (st : Int) (cfg : t_fft_cfg K)
    (heven : nr % 2 = 0)
    (hinner : fft_init_cfg L MAX_FACTORS rcfg.cfg (nr / 2) direction = some (st, cfg)) :
    fftr_init_cfg L MAX_FACTORS rcfg nr direction =
      some (0, ⟨cfg, packTable L (nr / 2) direction⟩) := by
  unfold fftr_init_cfg
  rw [if_neg (not_not.2 heven)]
  simp only [hinner]

theorem sqrt_30 : Nat.sqrt 30 = 5 := by
  symm; rw [Nat.eq_sqrt]; norm_num

theorem factorLoop_30 :
    factorLoop 2 5 (30 + 1) 0 4 30 [] = some (-1, [⟨2, 15⟩, ⟨3, 5⟩]) := by
  decide

theorem fft_init_cfg_30 :
    fft_init_cfg libmQ 2 rcfg0.cfg (60 / 2) FFT_FORWARD =
      some (-1, ⟨30, FFT_FORWARD, [⟨2, 15⟩, ⟨3, 5⟩], phaseTable libmQ 30 FFT_FORWARD⟩) := by
  unfold fft_init_cfg
  rw [fft_init_factors_eq]
  simp only [Nat.reduceDiv, sqrt_30, factorLoop_30, Option.map_some']

/-- Witness for claim C11: capacity 2 and real length 60, whose half length 30 needs three
stages. -/
theorem fftr_init_cfg_drops_status_witness :
    60 % 2 = 0 ∧
    fft_init_cfg libmQ 2 rcfg0.cfg (60 / 2) FFT_FORWARD =
      some (-1, ⟨30, FFT_FORWARD, [⟨2, 15⟩, ⟨3, 5⟩], phaseTable libmQ 30 FFT_FORWARD⟩) ∧
    (-1 : Int) ≠ 0 ∧
    fftr_init_cfg libmQ 2 rcfg0 60 FFT_FORWARD =
      some (0, ⟨⟨30, FFT_FORWARD, [⟨2, 15⟩, ⟨3, 5⟩], phaseTable libmQ 30 FFT_FORWARD⟩,
        packTable libmQ (60 / 2) FFT_FORWARD⟩) :=
  ⟨by decide, fft_init_cfg_30, by decide,
    fftr_init_cfg_drops_status libmQ 2 rcfg0 60 FFT_FORWARD (-1) _ (by decide)
      fft_init_cfg_30⟩

/-! ## Direction mismatch on the real adapters -/

/-- Claim C12: with a configuration whose direction is not `FFT_FORWARD`, `fftr_r2c`
returns with every element of its output buffer unchanged, and with a
configuration whose direction is not `FFT_BACKWARD` so does `fftr_c2r`, for
every input. -/
theorem fftr_direction_mismatch {K : Type} [Field K] (rf rb : t_fftr_cfg K)
    (hf : rf.cfg.direction ≠ FFT_FORWARD) (hb : rb.cfg.direction ≠ FFT_BACKWARD)
    (scratch : Buf K) (x : Nat → K) (out : Buf K) (X : Buf K) (y : Nat → K) :
    fftr_r2c rf scratch x out = some out ∧ fftr_c2r rb scratch X y = some y := by
  unfold fftr_r2c fftr_c2r
  rw [if_pos hf, if_pos hb]
  exact ⟨rfl, rfl⟩

/-- Witness for claim C12 on records of half length 2. -/
theorem fftr_direction_mismatch_witness :
    (⟨⟨2, FFT_BACKWARD, [⟨2, 1⟩], []⟩, []⟩ : t_fftr_cfg ℚ).cfg.direction ≠ FFT_FORWARD ∧
    (⟨⟨2, FFT_FORWARD, [⟨2, 1⟩], []⟩, []⟩ : t_fftr_cfg ℚ).cfg.direction ≠ FFT_BACKWARD ∧
    fftr_r2c (⟨⟨2, FFT_BACKWARD, [⟨2, 1⟩], []⟩, []⟩ : t_fftr_cfg ℚ) ⟨fun _ => 0⟩
      (fun _ => 1) ⟨fun _ => 7⟩ = some ⟨fun _ => 7⟩ ∧
    fftr_c2r (⟨⟨2, FFT_FORWARD, [⟨2, 1⟩], []⟩, []⟩ : t_fftr_cfg ℚ) ⟨fun _ => 0⟩
      ⟨fun _ => 1⟩ (fun _ => 7) = some (fun _ => 7) :=
  ⟨by decide, by decide,
    fftr_direction_mismatch _ _ (by decide) (by decide) ⟨fun _ => 0⟩ (fun _ => 1)
      ⟨fun _ => 7⟩ ⟨fun _ => 1⟩ (fun _ => 7)⟩

/-! ## The twiddle index of `butterflyN` -/

theorem outN_twiddleIndex {K : Type} [Field K] (stride m p n : Nat) (phase : List (Cx K))
    (t : Nat → Cx K) (i q : Nat) :
    outN stride m p n phase t i q =
      forFrom 1 (p - 1) (fun k s => s + t k * tw phase (twiddleIndex stride m n i q k)) (t 0) :=
  rfl

theorem u32_of_lt {x : Nat} (h : x < 2 ^ 32) : u32 x = x := Nat.mod_eq_of_lt h

/-- Below the wrap bound `(p-1) * n ≤ 2^32` the 32-bit twiddle index is the exact
one. -/
theorem twiddleIndex_exact {s m p n i j k : Nat} (hn : s * (p * m) = n) (hs : 0 < s)
    (hwrap : (p - 1) * n ≤ 2 ^ 32) (hi : i < m) (hj : j < p) (hk : k < p) :
    twiddleIndex s m n i j k = (k * ((i + j * m) * s)) % n := by
  unfold twiddleIndex
  have hx : (i + j * m) * s < n := by
    have h1 : i + j * m < p * m := lane_cell_lt hi hj
    calc (i + j * m) * s < (p * m) * s := Nat.mul_lt_mul_of_pos_right h1 hs
      _ = n := by rw [Nat.mul_comm, hn]
  rcases Nat.eq_zero_or_pos k with h0 | h0
  · subst h0
    simp [u32]
  · have hp : 1 ≤ p - 1 := by omega
    have hn32 : n ≤ 2 ^ 32 := le_trans (Nat.le_mul_of_pos_left n hp) hwrap
    rw [u32_of_lt (lt_of_lt_of_le hx hn32)]
    have hkx : k * ((i + j * m) * s) < 2 ^ 32 := by
      calc k * ((i + j * m) * s) ≤ (p - 1) * ((i + j * m) * s) :=
            Nat.mul_le_mul_right _ (by omega)
        _ < (p - 1) * n := Nat.mul_lt_mul_of_pos_left hx hp
        _ ≤ 2 ^ 32 := hwrap
    rw [u32_of_lt hkx]

/-- For a prime length `n > 5`, `fft_c2c` on the initialised configuration is
one call of `butterflyN` with `stride = 1`, `m = 1`, `p = n`. -/
theorem fft_c2c_prime_call {K : Type} [Field K] (L : Libm K) (MAX_FACTORS : Nat)
    (cfg0 : t_fft_cfg K) (n : Nat) (direction : fft_direction) (hcap : 0 < MAX_FACTORS)
    (hn : n.Prime) (h5 : 5 < n) :
    ∃ cfg, fft_init_cfg L MAX_FACTORS cfg0 n direction = some (0, cfg) ∧
      ∀ (inp : InBuf K) (out : Buf K), ∃ gathered,
        fft_c2c cfg inp out = some (butterflyN gathered 0 1 cfg.phase 1 n n) := by
  have h := prime_single_stage MAX_FACTORS
    ({ cfg0 with n := n, direction := direction, phase := phaseTable L n direction } :
      t_fft_cfg K) hcap hn
  refine ⟨_, h.1, ?_⟩
  intro inp out
  exact ⟨_, h.2 h5 inp out⟩

/-- Claim C20 fails at `n = 65537`: `fft_c2c` on the configuration of that length calls
`butterflyN` with `stride = 1`, `m = 1`, `p = n = 65537`, and there, for
`i = 0`, `j = 65536`, `k = 65536`, the 32-bit twiddle index is `0` while the
exact value `(k * (i + j*m) * stride) mod n` is `1`. -/
theorem twiddleIndex_wraps_65537 {K : Type} [Field K] (L : Libm K) (MAX_FACTORS : Nat)
    (hcap : 0 < MAX_FACTORS) (cfg0 : t_fft_cfg K) (direction : fft_direction) :
    ∃ cfg, fft_init_cfg L MAX_FACTORS cfg0 65537 direction = some (0, cfg) ∧
      (∀ (inp : InBuf K) (out : Buf K), ∃ gathered,
        fft_c2c cfg inp out = some (butterflyN gathered 0 1 cfg.phase 1 65537 65537)) ∧
      twiddleIndex 1 1 65537 0 65536 65536 = 0 ∧
      (65536 * ((0 + 65536 * 1) * 1)) % 65537 = 1 := by
  obtain ⟨cfg, h1, h2⟩ := fft_c2c_prime_call L MAX_FACTORS cfg0 65537 direction hcap
    prime_65537 (by norm_num)
  exact ⟨cfg, h1, h2, by norm_num [twiddleIndex, u32], by norm_num⟩

/-- Witness for claim C20 with capacity 32. -/
theorem twiddleIndex_wraps_65537_witness :
    0 < 32 ∧
    ∃ cfg, fft_init_cfg libmQ 32 rcfg0.cfg 65537 FFT_FORWARD = some (0, cfg) ∧
      (∀ (inp : InBuf ℚ) (out : Buf ℚ), ∃ gathered,
        fft_c2c cfg inp out = some (butterflyN gathered 0 1 cfg.phase 1 65537 65537)) ∧
      twiddleIndex 1 1 65537 0 65536 65536 = 0 ∧
      (65536 * ((0 + 65536 * 1) * 1)) % 65537 = 1 :=
  ⟨by decide, twiddleIndex_wraps_65537 libmQ 32 (by decide) rcfg0.cfg FFT_FORWARD⟩

/-! ## Termination and depth -/

theorem StageChain.two_pow_le {n : Nat} {fs : List t_fft_factors} (h : StageChain n fs)
    (hn : 1 ≤ n) : 2 ^ fs.length ≤ n := by
  induction fs generalizing n with
  | nil => simpa using hn
  | cons f fs ih =>
    obtain ⟨h2, hmul, hrest⟩ := h
    have hfn : 1 ≤ f.n := by
      rcases Nat.eq_zero_or_pos f.n with h0 | h0
      · rw [h0, Nat.mul_zero] at hmul; omega
      · exact h0
    have := ih hrest hfn
    rw [List.length_cons, pow_succ, ← hmul, Nat.mul_comm]
    exact Nat.mul_le_mul h2 this

theorem StageChain.depth_eq {n : Nat} {fs : List t_fft_factors} (h : StageChain n fs)
    (hn : 2 ≤ n) : transformDepth fs = fs.length := by
  induction fs generalizing n with
  | nil =>
    have : n ≤ 1 := h
    omega
  | cons f fs ih =>
    obtain ⟨h2, hmul, hrest⟩ := h
    unfold transformDepth
    by_cases h1 : f.n = 1
    · rw [if_pos h1]
      cases fs with
      | nil => rfl
      | cons g gs =>
        obtain ⟨g2, gmul, -⟩ := hrest
        rw [h1] at gmul
        have := Nat.eq_one_of_mul_eq_one_right gmul
        omega
    · rw [if_neg h1]
      have hfn : 2 ≤ f.n := by
        rcases Nat.eq_zero_or_pos f.n with h0 | h0
        · rw [h0, Nat.mul_zero] at hmul; omega
        · omega
      rw [ih hrest hfn, List.length_cons, Nat.add_comm]

/-- Claim C18: for every `n ≥ 2` the factorizer returns for every capacity (both of its
loops end); the stage sequence `fs` it produces when the capacity does not cut
it short divides `n` stage by stage, has at most `floor(log2 n)` entries, and
its length is the nesting depth of `transform`. -/
theorem fft_init_factors_terminates {K : Type} (cfg : t_fft_cfg K) (hn : 2 ≤ cfg.n) :
    ∃ fs : List t_fft_factors, StageChain cfg.n fs ∧
      (∀ MAX_FACTORS, fft_init_factors MAX_FACTORS cfg =
        some (if fs.length ≤ MAX_FACTORS then 0 else -1,
              { cfg with factors := fs.take MAX_FACTORS })) ∧
      fs.length ≤ Nat.log 2 cfg.n ∧ transformDepth fs = fs.length := by
  obtain ⟨fs, hch, hall⟩ := fft_init_factors_stages cfg
  exact ⟨fs, hch, hall, Nat.le_log_of_pow_le (by norm_num) (hch.two_pow_le (by omega)),
    hch.depth_eq hn⟩

/-- Witness for claim C18 at `n = 360`. -/
theorem fft_init_factors_terminates_witness :
    2 ≤ cfg360.n ∧
    ∃ fs : List t_fft_factors, StageChain cfg360.n fs ∧
      (∀ MAX_FACTORS, fft_init_factors MAX_FACTORS cfg360 =
        some (if fs.length ≤ MAX_FACTORS then 0 else -1,
              { cfg360 with factors := fs.take MAX_FACTORS })) ∧
      fs.length ≤ Nat.log 2 cfg360.n ∧ transformDepth fs = fs.length :=
  ⟨by decide, fft_init_factors_terminates cfg360 (by decide)⟩

/-! ## Specialised kernels against the generic kernel -/

theorem outN_local {K : Type} [Field K] (s m p n : Nat) (phase : List (Cx K))
    (t t' : Nat → Cx K) (i q : Nat) (h : ∀ r, r < p → t r = t' r) (hp : 1 ≤ p) :
    outN s m p n phase t i q = outN s m p n phase t' i q := by
  unfold outN forFrom
  rw [forLoop_sum, forLoop_sum, h 0 (by omega)]
  congr 1
  apply Finset.sum_congr rfl
  intro k hk
  have := Finset.mem_range.1 hk
  rw [h (1 + k) (by omega)]

/-- Below the wrap bound `butterflyN` computes the radix-`p` transform of every
lane and leaves the other cells alone. -/
theorem butterflyN_dft {K : Type} [Field K] (cfg : t_fft_cfg K) (w : Cx K)
    (E : ExactTwiddles cfg w) (b : Buf K) (o s m p : Nat) (hn : s * (p * m) = cfg.n)
    (hs : 0 < s) (hp : 2 ≤ p) (hwrap : (p - 1) * cfg.n ≤ 2 ^ 32) :
    (∀ c, (c < o ∨ o + p * m ≤ c) → (butterflyN b o s cfg.phase m p cfg.n).get c = b.get c) ∧
    (∀ i q, i < m → q < p →
      (butterflyN b o s cfg.phase m p cfg.n).get (o + (i + q * m)) =
        ∑ r in Finset.range p, b.get (o + (i + m * r)) * w ^ (r * ((i + q * m) * s))) := by
  rw [butterflyN_eq]
  obtain ⟨k1, k2⟩ := laneKernel_lane (outN s m p cfg.n cfg.phase) b o m p
    (fun t t' i q h => outN_local s m p cfg.n cfg.phase t t' i q h (by omega))
  refine ⟨fun c hc => k1 c ?_, fun i q hi hq => ?_⟩
  · intro i q hi hq
    have := lane_cell_lt hi hq
    omega
  · rw [k2 i q hi hq, outN_dft cfg w E s m p hn hs hp hwrap _ i q hi hq]

/-- With an exact table and below the wrap bound `(p-1) * n ≤ 2^32`, the kernel
that `transform` selects for radix `p` leaves `out` in the same state as
`butterflyN` at that radix. -/
theorem butterfly_eq_butterflyN {K : Type} [Field K] (cfg : t_fft_cfg K) (w : Cx K)
    (E : ExactTwiddles cfg w) (b : Buf K) (o s m p : Nat) (hn : s * (p * m) = cfg.n)
    (hs : 0 < s) (hp : 2 ≤ p) (hwrap : (p - 1) * cfg.n ≤ 2 ^ 32) :
    butterfly cfg b o s m p = butterflyN b o s cfg.phase m p cfg.n := by
  obtain ⟨f1, v1⟩ := butterfly_dft cfg w E b o s m p hn hs hp (fun _ => hwrap)
  obtain ⟨f2, v2⟩ := butterflyN_dft cfg w E b o s m p hn hs hp hwrap
  refine Buf.ext (funext fun c => ?_)
  by_cases hc : c < o ∨ o + p * m ≤ c
  · rw [f1 c hc, f2 c hc]
  · have hlo : o ≤ c := by omega
    have hhi : c - o < p * m := by omega
    have hm : 0 < m := by
      rcases Nat.eq_zero_or_pos m with h0 | h0
      · rw [h0, Nat.mul_zero] at hhi; omega
      · exact h0
    have hi : (c - o) % m < m := Nat.mod_lt _ hm
    have hq : (c - o) / m < p := by
      rw [Nat.div_lt_iff_lt_mul hm]; exact hhi
    have hcell : c = o + ((c - o) % m + (c - o) / m * m) := by
      have := Nat.mod_add_div (c - o) m
      rw [Nat.mul_comm] at this
      omega
    rw [hcell, v1 _ _ hi hq, v2 _ _ hi hq]

/-- On the exact table of `fft_init_cfg` and within the wrap bound: for `p` in
`{2,3,4,5}` with `stride * p * m = n` and `(p-1) * n ≤ 2^32`, the specialised
kernel and `butterflyN` leave `out` in the same state. -/
theorem specialised_eq_generic (n : Nat) (direction : fft_direction) (b : Buf ℝ)
    (o s m : Nat) (hs : 0 < s) :
    (s * (2 * m) = n → n ≤ 2 ^ 32 → butterfly2 b o s (phaseTable ⟨Real.pi, Real.cos, Real.sin⟩ n direction) m =
      butterflyN b o s (phaseTable ⟨Real.pi, Real.cos, Real.sin⟩ n direction) m 2 n) ∧
    (s * (3 * m) = n → 2 * n ≤ 2 ^ 32 →
      butterfly3 b o s (phaseTable ⟨Real.pi, Real.cos, Real.sin⟩ n direction) m =
      butterflyN b o s (phaseTable ⟨Real.pi, Real.cos, Real.sin⟩ n direction) m 3 n) ∧
    (s * (4 * m) = n → 3 * n ≤ 2 ^ 32 →
      butterfly4 b o s (phaseTable ⟨Real.pi, Real.cos, Real.sin⟩ n direction) m direction =
      butterflyN b o s (phaseTable ⟨Real.pi, Real.cos, Real.sin⟩ n direction) m 4 n) ∧
    (s * (5 * m) = n → 4 * n ≤ 2 ^ 32 →
      butterfly5 b o s (phaseTable ⟨Real.pi, Real.cos, Real.sin⟩ n direction) m =
      butterflyN b o s (phaseTable ⟨Real.pi, Real.cos, Real.sin⟩ n direction) m 5 n) := by
  have key : ∀ p, 2 ≤ p → s * (p * m) = n → (p - 1) * n ≤ 2 ^ 32 →
      butterfly (⟨n, direction, [], phaseTable ⟨Real.pi, Real.cos, Real.sin⟩ n direction⟩ :
        t_fft_cfg ℝ) b o s m p =
      butterflyN b o s (phaseTable ⟨Real.pi, Real.cos, Real.sin⟩ n direction) m p n := by
    intro p hp hn hwrap
    rcases Nat.eq_zero_or_pos n with h0 | h0
    · -- an empty transform: `m = 0`, both loops run zero times
      have hm : m = 0 := by
        rw [h0] at hn
        rcases Nat.mul_eq_zero.1 hn with h | h
        · omega
        · rcases Nat.mul_eq_zero.1 h with h | h
          · omega
          · exact h
      subst hm
      have hp' : p = 2 ∨ p = 3 ∨ p = 4 ∨ p = 5 ∨ 5 < p := by omega
      rcases hp' with rfl | rfl | rfl | rfl | h5
      · rfl
      · rfl
      · rfl
      · rfl
      · rw [butterfly_generic _ _ _ _ _ _ h5]
    · exact butterfly_eq_butterflyN _ _
        (exactTwiddles_real _ n direction h0 rfl rfl rfl) b o s m p hn hs hp hwrap
  refine ⟨fun h hw => ?_, fun h hw => ?_, fun h hw => ?_, fun h hw => ?_⟩
  · exact key 2 (by norm_num) h (by omega)
  · exact key 3 (by norm_num) h hw
  · exact key 4 (by norm_num) h hw
  · exact key 5 (by norm_num) h hw

/-- The constant `±i` that `butterfly4` takes from the direction is the table
entry `phase[n/4]`. -/
theorem butterfly4_constant (n : Nat) (hn : 0 < n) (h4 : n % 4 = 0)
    (direction : fft_direction) :
    tw (phaseTable (⟨Real.pi, Real.cos, Real.sin⟩ : Libm ℝ) n direction) (n / 4) =
      if direction = FFT_BACKWARD then Cx.I else -Cx.I := by
  have E := exactTwiddles_real
    (⟨n, direction, [], phaseTable ⟨Real.pi, Real.cos, Real.sin⟩ n direction⟩ : t_fft_cfg ℝ)
    n direction hn rfl rfl rfl
  have h1 := E.table (n / 4) (show n / 4 < n by omega)
  have h2 := E.quarter (n / 4) (show 4 * (n / 4) = n by omega)
  exact h1.trans h2

/-- At `n = 5 m` with `16 m = 2^32`, on the impulse at cell `4 m`, `butterflyN`
reads the table at the wrapped index `0` and stores `1` in cell `4 m`, while
`butterfly5` stores `w^(16 m) = w^m`, a primitive fifth root of unity. -/
theorem butterfly5_generic_differ (m : Nat) (hm : 0 < m) (hwrap : 16 * m = 2 ^ 32) :
    (butterflyN (impulse (4 * m)) 0 1
      (phaseTable (⟨Real.pi, Real.cos, Real.sin⟩ : Libm ℝ) (5 * m) FFT_FORWARD) m 5
      (5 * m)).get (4 * m) = 1 ∧
    (butterfly5 (impulse (4 * m)) 0 1
      (phaseTable (⟨Real.pi, Real.cos, Real.sin⟩ : Libm ℝ) (5 * m) FFT_FORWARD) m).get (4 * m)
      ≠ 1 := by
  have hn : 0 < 5 * m := by omega
  have hm' : (m : ℝ) ≠ 0 := by exact_mod_cast hm.ne'
  constructor
  · obtain ⟨-, hv⟩ := butterflyN_lane (impulse (4 * m) : Buf ℝ) 0 1
      (phaseTable (⟨Real.pi, Real.cos, Real.sin⟩ : Libm ℝ) (5 * m) FFT_FORWARD) m 5 (5 * m)
    have h := hv 0 4 hm (by norm_num)
    simp only [Nat.zero_add] at h
    rw [h]
    unfold genericSum
    simp only [Nat.zero_add, Nat.mul_zero, Nat.mul_one, impulse_get]
    rw [if_neg (by omega), zero_add, Finset.sum_eq_single 3]
    · have hidx : u32 ((1 + 3) * u32 (4 * m)) % (5 * m) = 0 := by
        have h4m : 4 * m < 2 ^ 32 := by omega
        rw [u32_of_lt h4m]
        unfold u32
        have : (1 + 3) * (4 * m) = 2 ^ 32 := by omega
        rw [this, Nat.mod_self, Nat.zero_mod]
      rw [hidx, tw_phaseTable_zero _ _ _ hn Real.cos_zero Real.sin_zero,
        if_pos (by ring)]
      ring
    · intro k _ hk
      rw [if_neg, zero_mul]
      intro h
      have : 1 + k = 4 := Nat.eq_of_mul_eq_mul_left hm (h.trans (Nat.mul_comm 4 m))
      omega
    · intro h
      exact absurd (Finset.mem_range.2 (by norm_num)) h
  · rw [butterfly5_eq]
    obtain ⟨-, hv⟩ := laneKernel_lane
      (out5 1 m (phaseTable (⟨Real.pi, Real.cos, Real.sin⟩ : Libm ℝ) (5 * m) FFT_FORWARD))
      (impulse (4 * m) : Buf ℝ) 0 m 5 (by
        intro t t' i q h
        simp only [out5, h 0 (by norm_num), h 1 (by norm_num), h 2 (by norm_num),
          h 3 (by norm_num), h 4 (by norm_num)])
    have h := hv 0 4 hm (by norm_num)
    simp only [Nat.zero_add] at h
    rw [h]
    have E := exactTwiddles_real
      (⟨5 * m, FFT_FORWARD, [],
        phaseTable ⟨Real.pi, Real.cos, Real.sin⟩ (5 * m) FFT_FORWARD⟩ : t_fft_cfg ℝ)
      (5 * m) FFT_FORWARD hn rfl rfl rfl
    have hd := out5_dft _ _ E 1 m (by simp) Nat.one_pos
      (fun r => (impulse (4 * m) : Buf ℝ).get (m * r)) 0 4 hm (by norm_num)
    simp only [Nat.zero_add] at hd
    rw [hd, Finset.sum_eq_single 4]
    · simp only [impulse_get, Nat.mul_one]
      rw [if_pos (Nat.mul_comm m 4), one_mul]
      intro h1
      -- `w^(16 m) = 1` and `w^(5 m) = 1` give `w^m = 1`, but `Im w^m = -sin (2π/5) < 0`
      have hpn : twiddle (⟨Real.pi, Real.cos, Real.sin⟩ : Libm ℝ) (5 * m) FFT_FORWARD ^ (5 * m)
          = 1 := E.pow_n
      have hwm : twiddle (⟨Real.pi, Real.cos, Real.sin⟩ : Libm ℝ) (5 * m) FFT_FORWARD ^ m
          = 1 := by
        have e : 4 * (4 * m) = 3 * (5 * m) + m := by ring
        rw [e, pow_add, pow_mul', hpn, one_pow, one_mul] at h1
        exact h1
      rw [twiddle_pow] at hwm
      have him := congrArg Cx.im hwm
      simp only [Cx.one_im] at him
      have hang : (m : ℝ) * angle (⟨Real.pi, Real.cos, Real.sin⟩ : Libm ℝ) (5 * m) FFT_FORWARD
          = -(2 * Real.pi / 5) := by
        rw [angle_real, if_neg (by decide)]
        push_cast
        field_simp
        ring
      rw [hang, Real.sin_neg] at him
      have hpos : 0 < Real.sin (2 * Real.pi / 5) := by
        apply Real.sin_pos_of_pos_of_lt_pi
        · positivity
        · have := Real.pi_pos
          linarith
      linarith
    · intro r _ hr
      simp only [impulse_get]
      rw [if_neg, zero_mul]
      intro h
      have := Nat.eq_of_mul_eq_mul_left hm (h.trans (Nat.mul_comm 4 m))
      omega
    · intro h
      exact absurd (Finset.mem_range.2 (by norm_num)) h

/-- Claim C17 fails at `n = 5 * 2^28 = 1342177280` with `stride = 1`, `m = 2^28`, `p = 5`,
on the forward table and the buffer that is `1` in cell `4 m = 2^30`: in
`butterflyN` the product `4 * tstride = 4 * 2^30` wraps to `0`, so the two
kernels leave different values in cell `2^30`. -/
theorem butterfly5_ne_butterflyN :
    butterfly5 (impulse 1073741824) 0 1
      (phaseTable (⟨Real.pi, Real.cos, Real.sin⟩ : Libm ℝ) 1342177280 FFT_FORWARD) 268435456 ≠
    butterflyN (impulse 1073741824) 0 1
      (phaseTable (⟨Real.pi, Real.cos, Real.sin⟩ : Libm ℝ) 1342177280 FFT_FORWARD) 268435456 5
      1342177280 := by
  obtain ⟨h1, h2⟩ := butterfly5_generic_differ 268435456 (by norm_num) (by norm_num)
  have e1 : 4 * 268435456 = 1073741824 := by norm_num
  have e2 : 5 * 268435456 = 1342177280 := by norm_num
  rw [e1, e2] at h1 h2
  intro h
  rw [h] at h2
  exact h2 h1

theorem Accesses.within_empty (n lo hi : Nat) : Accesses.empty.Within n lo hi := by
  refine ⟨?_, ?_, ?_⟩ <;> intro i hi <;> simp [Accesses.empty] at hi

theorem Accesses.within_append {a b : Accesses} {n lo hi : Nat} (ha : a.Within n lo hi)
    (hb : b.Within n lo hi) : (a.append b).Within n lo hi := by
  obtain ⟨a1, a2, a3⟩ := ha
  obtain ⟨b1, b2, b3⟩ := hb
  refine ⟨?_, ?_, ?_⟩ <;> intro i hi <;> simp only [Accesses.append, List.mem_append] at hi
  · exact hi.elim (a1 i) (b1 i)
  · exact hi.elim (a2 i) (b2 i)
  · exact hi.elim (a3 i) (b3 i)

theorem Accesses.within_loop {c : Nat} {f : Nat → Accesses} {n lo hi : Nat}
    (h : ∀ i, i < c → (f i).Within n lo hi) : (Accesses.loop c f).Within n lo hi := by
  unfold Accesses.loop
  induction c with
  | zero => exact Accesses.within_empty n lo hi
  | succ c ih =>
    rw [forLoop_succ]
    exact Accesses.within_append (ih fun i hi => h i (by omega)) (h c (by omega))

theorem Accesses.within_mono {a : Accesses} {n lo hi lo' hi' : Nat} (h : a.Within n lo hi)
    (hlo : lo' ≤ lo) (hhi : hi ≤ hi') : a.Within n lo' hi' := by
  obtain ⟨h1, h2, h3⟩ := h
  refine ⟨h1, h2, fun i hi => ?_⟩
  have := h3 i hi
  omega

theorem stage_pos {s p m n : Nat} (hn : s * (p * m) = n) (hn0 : 0 < n) :
    0 < s ∧ 0 < p ∧ 0 < m := by
  have h := hn ▸ hn0
  have h1 := Nat.pos_of_mul_pos_right h
  have h2 := Nat.pos_of_mul_pos_left h
  exact ⟨h1, Nat.pos_of_mul_pos_right h2, Nat.pos_of_mul_pos_left h2⟩

theorem lane_idx_lt {s p m n i : Nat} (hn : s * (p * m) = n) (hs : 0 < s) (hi : i < m)
    (hp : 2 ≤ p) : i * s < n := by
  have := tap_lt (r := 1) hn hs hi (by omega)
  simpa using this

theorem base_idx_lt {s p m n r : Nat} (hn : s * (p * m) = n) (hn0 : 0 < n) (hr : r < p) :
    r * s * m < n := by
  obtain ⟨hs, -, hm⟩ := stage_pos hn hn0
  calc r * s * m = s * (r * m) := by ring
    _ < s * (p * m) := Nat.mul_lt_mul_of_pos_left (Nat.mul_lt_mul_of_pos_right hr hm) hs
    _ = n := hn

theorem butterfly2_acc_within {n o s m : Nat} (hn : s * (2 * m) = n) (hn0 : 0 < n) :
    (butterfly2_acc o s m).Within n o (o + 2 * m) := by
  obtain ⟨hs, -, -⟩ := stage_pos hn hn0
  unfold butterfly2_acc
  refine Accesses.within_loop fun i hi => ⟨?_, ?_, ?_⟩
  · intro x hx
    simp only [List.mem_singleton] at hx
    rw [hx]; exact lane_idx_lt hn hs hi (by norm_num)
  · intro x hx; simp at hx
  · intro x hx
    simp only [List.mem_cons, List.mem_singleton, List.not_mem_nil, or_false] at hx
    omega

theorem butterfly3_acc_within {n o s m : Nat} (hn : s * (3 * m) = n) (hn0 : 0 < n) :
    (butterfly3_acc o s m).Within n o (o + 3 * m) := by
  obtain ⟨hs, -, -⟩ := stage_pos hn hn0
  unfold butterfly3_acc
  refine Accesses.within_append ⟨?_, ?_, ?_⟩ (Accesses.within_loop fun i hi => ⟨?_, ?_, ?_⟩)
  · intro x hx
    simp only [List.mem_singleton] at hx
    have := base_idx_lt (r := 1) hn hn0 (by norm_num)
    rw [hx]; simpa using this
  · intro x hx; simp at hx
  · intro x hx; simp at hx
  · intro x hx
    simp only [List.mem_cons, List.mem_singleton, List.not_mem_nil, or_false] at hx
    rcases hx with rfl | rfl
    · exact lane_idx_lt hn hs hi (by norm_num)
    · exact tap_lt hn hs hi (by norm_num)
  · intro x hx; simp at hx
  · intro x hx
    simp only [List.mem_cons, List.mem_singleton, List.not_mem_nil, or_false] at hx
    omega

theorem butterfly4_acc_within {n o s m : Nat} (hn : s * (4 * m) = n) (hn0 : 0 < n) :
    (butterfly4_acc o s m).Within n o (o + 4 * m) := by
  obtain ⟨hs, -, -⟩ := stage_pos hn hn0
  unfold butterfly4_acc
  refine Accesses.within_loop fun i hi => ⟨?_, ?_, ?_⟩
  · intro x hx
    simp only [List.mem_cons, List.mem_singleton, List.not_mem_nil, or_false] at hx
    rcases hx with rfl | rfl | rfl
    · exact lane_idx_lt hn hs hi (by norm_num)
    · exact tap_lt hn hs hi (by norm_num)
    · exact tap_lt hn hs hi (by norm_num)
  · intro x hx; simp at hx
  · intro x hx
    simp only [List.mem_cons, List.mem_singleton, List.not_mem_nil, or_false] at hx
    omega

theorem butterfly5_acc_within {n o s m : Nat} (hn : s * (5 * m) = n) (hn0 : 0 < n) :
    (butterfly5_acc o s m).Within n o (o + 5 * m) := by
  obtain ⟨hs, -, -⟩ := stage_pos hn hn0
  unfold butterfly5_acc
  refine Accesses.within_append ⟨?_, ?_, ?_⟩ (Accesses.within_loop fun i hi => ⟨?_, ?_, ?_⟩)
  · intro x hx
    simp only [List.mem_cons, List.mem_singleton, List.not_mem_nil, or_false] at hx
    have h1 := base_idx_lt (r := 1) hn hn0 (by norm_num)
    have h2 := base_idx_lt (r := 2) hn hn0 (by norm_num)
    rw [Nat.one_mul] at h1
    rcases hx with rfl | rfl | rfl | rfl
    · exact h1
    · exact h1
    · exact h2
    · exact h2
  · intro x hx; simp at hx
  · intro x hx; simp at hx
  · intro x hx
    simp only [List.mem_cons, List.mem_singleton, List.not_mem_nil, or_false] at hx
    rcases hx with rfl | rfl | rfl | rfl
    · exact lane_idx_lt hn hs hi (by norm_num)
    · exact tap_lt hn hs hi (by norm_num)
    · exact tap_lt hn hs hi (by norm_num)
    · exact tap_lt hn hs hi (by norm_num)
  · intro x hx; simp at hx
  · intro x hx
    simp only [List.mem_cons, List.mem_singleton, List.not_mem_nil, or_false] at hx
    omega

theorem butterflyN_acc_within {n o s m p : Nat} (hn0 : 0 < n) :
    (butterflyN_acc o s m p n).Within n o (o + p * m) := by
  unfold butterflyN_acc
  refine Accesses.within_loop fun i hi => Accesses.within_append
    (Accesses.within_loop fun j hj => ⟨?_, ?_, ?_⟩)
    (Accesses.within_loop fun j hj => Accesses.within_append
      (Accesses.within_loop fun k _ => ⟨?_, ?_, ?_⟩) ⟨?_, ?_, ?_⟩)
  · intro x hx; simp at hx
  · intro x hx; simp at hx
  · intro x hx
    simp only [List.mem_singleton] at hx
    have := lane_cell_lt hi hj
    rw [hx, Nat.mul_comm m j]
    omega
  · intro x hx
    simp only [List.mem_singleton] at hx
    rw [hx]; exact Nat.mod_lt _ hn0
  · intro x hx; simp at hx
  · intro x hx; simp at hx
  · intro x hx; simp at hx
  · intro x hx; simp at hx
  · intro x hx
    simp only [List.mem_singleton] at hx
    have := lane_cell_lt hi hj
    omega

theorem butterfly_acc_within {n o s m p : Nat} (hn : s * (p * m) = n) (hn0 : 0 < n)
    (hp : 2 ≤ p) : (butterfly_acc n o s m p).Within n o (o + p * m) := by
  by_cases h5 : 5 < p
  · have : butterfly_acc n o s m p = butterflyN_acc o s m p n := by
      unfold butterfly_acc
      split <;> first | omega | rfl
    rw [this]
    exact butterflyN_acc_within hn0
  · have hp' : p = 2 ∨ p = 3 ∨ p = 4 ∨ p = 5 := by omega
    rcases hp' with rfl | rfl | rfl | rfl
    · exact butterfly2_acc_within hn hn0
    · exact butterfly3_acc_within hn hn0
    · exact butterfly4_acc_within hn hn0
    · exact butterfly5_acc_within hn hn0

/-- Every subscript used by `transform` at a level of sub-length `N` and
twiddle stride `s` with `s * N = n` is in bounds: twiddle and input subscripts
are below `n`, output subscripts lie in the block `[o, o + N)`. -/
theorem transform_acc_within (n : Nat) (hn0 : 0 < n) (hmax : n ≤ INT_MAX) :
    ∀ (fs : List t_fft_factors) (N s i_off o : Nat),
      StageChain N fs → 2 ≤ N → s * N = n → i_off < s →
      ∃ acc, transform_acc n fs i_off 1 o s = some acc ∧ acc.Within n o (o + N) := by
  intro fs
  induction fs with
  | nil =>
    intro N s i_off o h hN
    have : N ≤ 1 := h
    omega
  | cons f fs ih =>
    intro N s i_off o hch hN hsN hoff
    obtain ⟨hp2, hpm, hrest⟩ := hch
    have hs : 0 < s := by omega
    have hn : s * (f.p * f.n) = n := by rw [hpm]; exact hsN
    have hb := butterfly_acc_within (o := o) hn hn0 hp2
    rw [hpm] at hb
    have hNn : N ≤ n := by rw [← hsN]; exact Nat.le_mul_of_pos_left _ hs
    obtain ⟨hip, him, hipm⟩ := stage_le_int_max hp2 hpm hN (le_trans hNn hmax)
    rw [transform_acc_cons _ _ _ _ _ _ _ hip him hipm]
    by_cases hm1 : f.n = 1
    · simp only [hm1, if_true, Option.map_some']
      refine ⟨_, rfl, Accesses.within_append (Accesses.within_loop fun i hi => ⟨?_, ?_, ?_⟩) ?_⟩
      · intro x hx; simp at hx
      · intro x hx
        simp only [List.mem_singleton] at hx
        have hpN : f.p = N := by rw [← hpm, hm1, Nat.mul_one]
        have h1 : (i + 1) * s ≤ N * s := Nat.mul_le_mul_right s (by omega)
        have h2 : (i + 1) * s = i * s + s := by ring
        rw [hx, Nat.mul_one, ← hsN, Nat.mul_comm s N]
        omega
      · intro x hx
        simp only [List.mem_singleton] at hx
        have hpN : f.p = N := by rw [← hpm, hm1, Nat.mul_one]
        omega
      · rw [hm1] at hb; exact hb
    · simp only [if_neg hm1]
      have hm2 : 2 ≤ f.n := by
        rcases Nat.eq_zero_or_pos f.n with h0 | h0
        · rw [h0, Nat.mul_zero] at hpm; omega
        · omega
      have hloop : ∀ c, c ≤ f.p → ∃ acc,
          forLoop c (fun i r => r.bind (fun acc =>
            (transform_acc n fs (i_off + i * s * 1) 1 (o + i * f.n) (s * f.p)).map
              (fun a => acc.append a))) (some Accesses.empty) = some acc ∧
          acc.Within n o (o + N) := by
        intro c hc
        induction c with
        | zero => exact ⟨_, rfl, Accesses.within_empty _ _ _⟩
        | succ c ihc =>
          obtain ⟨acc, hacc, hw⟩ := ihc (by omega)
          have hoff' : i_off + c * s * 1 < s * f.p := by
            have h1 : (c + 1) * s ≤ f.p * s := Nat.mul_le_mul_right s (by omega)
            have h2 : (c + 1) * s = c * s + s := by ring
            rw [Nat.mul_one, Nat.mul_comm s f.p]
            omega
          obtain ⟨a, ha, haw⟩ := ih f.n (s * f.p) (i_off + c * s * 1) (o + c * f.n) hrest hm2
            (by rw [Nat.mul_assoc]; exact hn) hoff'
          refine ⟨acc.append a, ?_, Accesses.within_append hw (Accesses.within_mono haw
            (by omega) ?_)⟩
          · rw [forLoop_succ, hacc]
            simp only [ha, Option.map_some']
            rfl
          · have h1 : (c + 1) * f.n ≤ f.p * f.n := Nat.mul_le_mul_right _ (by omega)
            have h2 : (c + 1) * f.n = c * f.n + f.n := by ring
            rw [← hpm]
            omega
      obtain ⟨acc, hacc, hw⟩ := hloop f.p (le_refl _)
      rw [hacc]
      exact ⟨_, rfl, Accesses.within_append hw hb⟩

theorem phaseTable_length {K : Type} [Field K] (L : Libm K) (n : Nat)
    (direction : fft_direction) : (phaseTable L n direction).length = n := by
  unfold phaseTable
  simp only [List.length_map, List.length_range]

/-- For a configuration built by `fft_init_cfg` with `2 ≤ n ≤ INT_MAX` and
status `0`, the twiddle table has `n` entries and every subscript used during
`fft_c2c` is in bounds: every subscript of the twiddle table, of `in` and of
`out` is below `n`. -/
theorem fft_c2c_acc_within {K : Type} [Field K] (L : Libm K) (MAX_FACTORS : Nat)
    (cfg0 cfg : t_fft_cfg K) (n : Nat) (direction : fft_direction) (hn : 2 ≤ n)
    (hmax : n ≤ INT_MAX)
    (hinit : fft_init_cfg L MAX_FACTORS cfg0 n direction = some (0, cfg)) :
    cfg.phase.length = n ∧
    ∃ acc, fft_c2c_acc cfg = some acc ∧
      (∀ i ∈ acc.phase, i < n) ∧ (∀ i ∈ acc.inp, i < n) ∧ (∀ i ∈ acc.out, i < n) := by
  obtain ⟨hcn, -, hph, hch⟩ := fft_init_cfg_fields hinit
  refine ⟨by rw [hph, phaseTable_length], ?_⟩
  obtain ⟨acc, hacc, h1, h2, h3⟩ := transform_acc_within n (by omega) hmax cfg.factors n 1 0 0
    hch hn
    (Nat.one_mul n) Nat.one_pos
  refine ⟨acc, ?_, h1, h2, fun i hi => ?_⟩
  · unfold fft_c2c_acc
    rw [hcn]
    exact hacc
  · have := h3 i hi
    omega

/-- Length 8 with capacity 32: every subscript is below 8. -/
theorem fft_c2c_acc_within_eight :
    2 ≤ 8 ∧ 8 ≤ INT_MAX ∧
    fft_init_cfg (⟨Real.pi, Real.cos, Real.sin⟩ : Libm ℝ) 32 ⟨0, FFT_FORWARD, [], []⟩ 8
      FFT_FORWARD = some (0, ⟨8, FFT_FORWARD, [⟨4, 2⟩, ⟨2, 1⟩],
        phaseTable ⟨Real.pi, Real.cos, Real.sin⟩ 8 FFT_FORWARD⟩) ∧
    (phaseTable (⟨Real.pi, Real.cos, Real.sin⟩ : Libm ℝ) 8 FFT_FORWARD).length = 8 ∧
    ∃ acc, fft_c2c_acc (⟨8, FFT_FORWARD, [⟨4, 2⟩, ⟨2, 1⟩],
        phaseTable ⟨Real.pi, Real.cos, Real.sin⟩ 8 FFT_FORWARD⟩ : t_fft_cfg ℝ) = some acc ∧
      (∀ i ∈ acc.phase, i < 8) ∧ (∀ i ∈ acc.inp, i < 8) ∧ (∀ i ∈ acc.out, i < 8) :=
  ⟨by decide, by decide, fft_init_cfg_eight FFT_FORWARD,
    fft_c2c_acc_within _ 32 _ _ 8 FFT_FORWARD (by decide) (by decide)
      (fft_init_cfg_eight FFT_FORWARD)⟩

/-! ## Lengths above `INT_MAX`: the subscript `i*m` of `transform` overflows -/

theorem intMul_overflow {i m : Nat} (h : INT_MAX < i * m) :
    intMul (i : Int) (m : Int) = none := by
  unfold intMul
  have h1 : (2147483647 : Int) < ((i * m : Nat) : Int) := by exact_mod_cast h
  rw [Nat.cast_mul] at h1
  rw [if_neg (fun hc => absurd hc.2 (not_le.2 h1))]

/-- A loop of fallible steps has no result when its last step has none. -/
theorem forLoop_bind_last_none {σ : Type} (body : Nat → σ → Option σ) (n : Nat)
    (r : Option σ) (h : ∀ s, body n s = none) :
    forLoop (n + 1) (fun j r => r.bind (body j)) r = none := by
  rw [forLoop_succ]
  cases forLoop n (fun j r => r.bind (body j)) r with
  | none => rfl
  | some s => exact h s

/-- A stage `(p, m)`, `m ≠ 1`, whose entries fit an `int` but whose last
subscript `(p - 1) * m` does not: the `int` product of `&out[i*m]` overflows
at `i = p - 1`, and `transform` has no defined result. -/
theorem transform_overflow {K : Type} [Field K] (cfg : t_fft_cfg K) (f : t_fft_factors)
    (factors : List t_fft_factors) (inp : InBuf K) (i_off in_stride : Nat) (out : Buf K)
    (o out_stride : Nat) (hp0 : 1 ≤ f.p) (hp : f.p ≤ INT_MAX) (hm : f.n ≤ INT_MAX)
    (hm1 : f.n ≠ 1) (hov : INT_MAX < (f.p - 1) * f.n) :
    transform cfg (f :: factors) inp i_off in_stride out o out_stride = none := by
  rw [transform]
  simp only [toInt_toNat_of_le hp, toInt_eq_one hm, if_neg hm1]
  simp only [toInt_of_le hm]
  obtain ⟨q, hq⟩ : ∃ q, f.p = q + 1 := ⟨f.p - 1, by omega⟩
  rw [hq, Nat.add_sub_cancel] at hov
  rw [hq, forLoop_bind_last_none _ q _ (fun s => by rw [intMul_overflow hov]; rfl)]
  rfl

/-- The same for the subscripts: no defined sequence of accesses. -/
theorem transform_acc_overflow (n : Nat) (f : t_fft_factors) (factors : List t_fft_factors)
    (i_off in_stride o out_stride : Nat) (hp0 : 1 ≤ f.p) (hp : f.p ≤ INT_MAX)
    (hm : f.n ≤ INT_MAX) (hm1 : f.n ≠ 1) (hov : INT_MAX < (f.p - 1) * f.n) :
    transform_acc n (f :: factors) i_off in_stride o out_stride = none := by
  rw [transform_acc]
  simp only [toInt_toNat_of_le hp, toInt_eq_one hm, if_neg hm1]
  simp only [toInt_of_le hm]
  obtain ⟨q, hq⟩ : ∃ q, f.p = q + 1 := ⟨f.p - 1, by omega⟩
  rw [hq, Nat.add_sub_cancel] at hov
  rw [hq, forLoop_bind_last_none _ q _ (fun s => by rw [intMul_overflow hov]; rfl)]
  rfl

theorem sqrt_3221225472 : Nat.sqrt 3221225472 = 56755 := by
  symm; rw [Nat.eq_sqrt]; norm_num

theorem factorLoop_3221225472 :
    factorLoop 32 56755 (3221225472 + 1) 0 4 3221225472 [] =
      some (0, [⟨4, 805306368⟩, ⟨4, 201326592⟩, ⟨4, 50331648⟩, ⟨4, 12582912⟩, ⟨4, 3145728⟩,
        ⟨4, 786432⟩, ⟨4, 196608⟩, ⟨4, 49152⟩, ⟨4, 12288⟩, ⟨4, 3072⟩, ⟨4, 768⟩, ⟨4, 192⟩,
        ⟨4, 48⟩, ⟨4, 12⟩, ⟨4, 3⟩, ⟨3, 1⟩]) := by
  decide

theorem fft_init_cfg_3221225472 {K : Type} [Field K] (L : Libm K) (cfg0 : t_fft_cfg K)
    (direction : fft_direction) :
    fft_init_cfg L 32 cfg0 3221225472 direction =
      some (0, ⟨3221225472, direction,
        [⟨4, 805306368⟩, ⟨4, 201326592⟩, ⟨4, 50331648⟩, ⟨4, 12582912⟩, ⟨4, 3145728⟩,
          ⟨4, 786432⟩, ⟨4, 196608⟩, ⟨4, 49152⟩, ⟨4, 12288⟩, ⟨4, 3072⟩, ⟨4, 768⟩, ⟨4, 192⟩,
          ⟨4, 48⟩, ⟨4, 12⟩, ⟨4, 3⟩, ⟨3, 1⟩],
        phaseTable L 3221225472 direction⟩) := by
  unfold fft_init_cfg
  rw [fft_init_factors_eq]
  simp only [sqrt_3221225472, factorLoop_3221225472, Option.map_some']

/-- Claim C19 fails at `n = 3 * 2^30 = 3221225472`: `fft_init_cfg` returns `0` with
capacity 32 and the first stage `(4, 805306368)`; in the first call of
`transform` the `int` subscript `i*m` of `&out[i*m]` is, at `i = 3`,
`3 * 805306368 = 2415919104`, above `INT_MAX`.  The signed product overflows,
so `fft_c2c` has no defined sequence of accesses, hence none that stays in
bounds, and no defined result. -/
theorem fft_c2c_overflows_3221225472 {K : Type} [Field K] (L : Libm K) (cfg0 : t_fft_cfg K)
    (direction : fft_direction) :
    ∃ cfg rest, fft_init_cfg L 32 cfg0 3221225472 direction = some (0, cfg) ∧
      cfg.factors = ⟨4, 805306368⟩ :: rest ∧
      intMul 3 (toInt 805306368) = none ∧
      fft_c2c_acc cfg = none ∧
      ∀ (inp : InBuf K) (out : Buf K), fft_c2c cfg inp out = none := by
  refine ⟨_, _, fft_init_cfg_3221225472 L cfg0 direction, rfl, by decide, ?_, ?_⟩
  · exact transform_acc_overflow _ ⟨4, 805306368⟩ _ 0 1 0 1 (by decide) (by decide) (by decide)
      (by decide) (by decide)
  · intro inp out
    exact transform_overflow _ ⟨4, 805306368⟩ _ inp 0 1 out 0 1 (by decide) (by decide)
      (by decide) (by decide) (by decide)
/-! ## Two-dimensional transforms: where the claims fail -/

theorem sqrt_2 : Nat.sqrt 2 = 1 := by
  symm; rw [Nat.eq_sqrt]; norm_num

theorem factorLoop_2 : factorLoop 32 1 (2 + 1) 0 4 2 [] = some (0, [⟨2, 1⟩]) := by
  decide

theorem fft_init_cfg_two {K : Type} [Field K] (L : Libm K) (cfg0 : t_fft_cfg K)
    (direction : fft_direction) :
    fft_init_cfg L 32 cfg0 2 direction =
      some (0, ⟨2, direction, [⟨2, 1⟩], phaseTable L 2 direction⟩) := by
  unfold fft_init_cfg
  rw [fft_init_factors_eq]
  simp only [sqrt_2, factorLoop_2, Option.map_some']

theorem fftr2d_init_cfg_4_2 {K : Type} [Field K] (L : Libm K) (direction : fft_direction) :
    fftr2d_init_cfg L 32 (cfg2d0 K) 4 2 4 direction =
      some (0, ⟨4, 2, 4,
        ⟨⟨2, direction, [⟨2, 1⟩], phaseTable L 2 direction⟩, packTable L 2 direction⟩,
        ⟨2, direction, [⟨2, 1⟩], phaseTable L 2 direction⟩⟩) := by
  unfold fftr2d_init_cfg fftr_init_cfg
  simp only [show 4 % 2 ≠ 0 ↔ False by decide, if_false, Nat.reduceDiv, fft_init_cfg_two,
    ne_eq, not_true_eq_false, Nat.reduceGT, if_true]

/-- With a configuration whose row direction is not `FFT_FORWARD` (sizes 4 by
2, one radix-2 column stage), `fftr2d_r2c` copies the undefined contents of its
local array `tmp` into `out` and transforms them: from `tmp` all ones, cell 0
of `out` ends as `2`. -/
theorem fftr2d_r2c_mismatch_get_zero {K : Type} [Field K] (cfg : t_fftr2d_cfg K)
    (hnx : cfg.nx = 4) (hny : cfg.ny = 2) (hdir : cfg.cfgx.cfg.direction ≠ FFT_FORWARD)
    (hf : cfg.cfgy.factors = [⟨2, 1⟩]) (h0 : tw cfg.cfgy.phase 0 = 1)
    (scratch tmpy : Nat → Buf K) (inp : Nat → K) (out : Buf K) :
    ∃ out', fftr2d_r2c cfg scratch (fun _ => ⟨fun _ => 1⟩) tmpy inp out = some out' ∧
      out'.get 0 = 2 := by
  have key : (fftr2d_r2c cfg scratch (fun _ => ⟨fun _ => 1⟩) tmpy inp out).map
      (fun o => o.get 0) = some 2 := by
    unfold fftr2d_r2c fftr_r2c
    simp only [hnx, hny, if_pos hdir, Nat.reduceDiv, Nat.reduceAdd, fft_c2c, hf,
      transform_single, Option.map_some', forLoop, Option.bind_some, Option.some_bind]
    simp [butterfly, butterfly2, forLoop, InBuf.read, Buf.offset, Buf.get_set, h0]
    norm_num
  obtain ⟨o, ho, hv⟩ := Option.map_eq_some'.1 key
  exact ⟨o, ho, hv⟩

/-- Claim C16 fails: with the configuration that `fftr2d_init_cfg` builds for a 4 by 2 grid
and `FFT_BACKWARD`, `fftr2d_r2c` does not leave `out` alone.  The row
transform returns without writing `tmp`, whose undefined contents are then
copied into `out` and transformed: from `tmp` all ones and `out` all zero,
cell 0 of `out` ends as `2`. -/
theorem fftr2d_r2c_mismatch_writes (scratch tmpy : Nat → Buf ℝ) (inp : Nat → ℝ) :
    ∃ cfg out',
      fftr2d_init_cfg (⟨Real.pi, Real.cos, Real.sin⟩ : Libm ℝ) 32 (cfg2d0 ℝ) 4 2 4
        FFT_BACKWARD = some (0, cfg) ∧
      cfg.cfgx.cfg.direction ≠ FFT_FORWARD ∧
      fftr2d_r2c cfg scratch (fun _ => ⟨fun _ => 1⟩) tmpy inp ⟨fun _ => 0⟩ = some out' ∧
      out'.get 0 = 2 ∧ out'.get 0 ≠ (⟨fun _ => 0⟩ : Buf ℝ).get 0 := by
  obtain ⟨out', h1, h2⟩ := fftr2d_r2c_mismatch_get_zero
    (⟨4, 2, 4,
      ⟨⟨2, FFT_BACKWARD, [⟨2, 1⟩], phaseTable ⟨Real.pi, Real.cos, Real.sin⟩ 2 FFT_BACKWARD⟩,
        packTable ⟨Real.pi, Real.cos, Real.sin⟩ 2 FFT_BACKWARD⟩,
      ⟨2, FFT_BACKWARD, [⟨2, 1⟩], phaseTable ⟨Real.pi, Real.cos, Real.sin⟩ 2 FFT_BACKWARD⟩⟩ :
      t_fftr2d_cfg ℝ) rfl rfl (by decide) rfl
    (tw_phaseTable_zero _ _ _ (by norm_num) Real.cos_zero Real.sin_zero) scratch tmpy inp
    ⟨fun _ => 0⟩
  refine ⟨_, out', fftr2d_init_cfg_4_2 _ FFT_BACKWARD, by decide, h1, h2, ?_⟩
  rw [h2]
  intro h
  have := congrArg Cx.re h
  rw [Cx.ofNat_re] at this
  norm_num at this

/-- A loop of fallible steps stays without result once a step has none. -/
theorem forLoop_bind_none {σ : Type} (body : Nat → σ → Option σ) (n : Nat) :
    forLoop n (fun j r => r.bind (body j)) none = none := by
  induction n with
  | zero => rfl
  | succ n ih => rw [forLoop_succ, ih]; rfl

/-- A loop of fallible steps whose first step has no result has none. -/
theorem forLoop_bind_first_none {σ : Type} (body : Nat → σ → Option σ) (n : Nat) (s : σ)
    (hn : 0 < n) (h : body 0 s = none) :
    forLoop n (fun j r => r.bind (body j)) (some s) = none := by
  induction n with
  | zero => omega
  | succ n ih =>
    rw [forLoop_succ]
    rcases Nat.eq_zero_or_pos n with h0 | h0
    · subst h0
      exact h
    · rw [ih h0]; rfl

/-- With a column configuration that has no factor entry, `fftr2d_r2c` has no
defined result. -/
theorem fftr2d_r2c_no_column_stage {K : Type} [Field K] (cfg : t_fftr2d_cfg K)
    (hf : cfg.cfgy.factors = []) (scratch tmpx tmpy : Nat → Buf K) (inp : Nat → K)
    (out : Buf K) : fftr2d_r2c cfg scratch tmpx tmpy inp out = none := by
  unfold fftr2d_r2c
  simp only
  cases forLoop cfg.ny (fun j r => r.bind (fun out =>
    (fftr_r2c cfg.cfgx (scratch j) (fun k => inp (j * cfg.stridey + k)) (tmpx j)).map
      (fun tmp => forLoop (cfg.nx / 2 + 1)
        (fun i out => out.set (j + i * cfg.ny) (tmp.get i)) out))) (some out) with
  | none => rfl
  | some o =>
    refine forLoop_bind_first_none _ _ o (Nat.succ_pos _) ?_
    simp only [fft_c2c, hf, transform, Option.map_none']

/-- With a row configuration for `FFT_BACKWARD` whose half-length complex part
has no factor entry, `fftr2d_c2r` on at least one row has no defined result. -/
theorem fftr2d_c2r_no_row_stage {K : Type} [Field K] (cfg : t_fftr2d_cfg K)
    (hf : cfg.cfgx.cfg.factors = []) (hdir : cfg.cfgx.cfg.direction = FFT_BACKWARD)
    (hny : 0 < cfg.ny) (scratch tmp_line : Nat → Buf K) (tmp inp : Buf K) (out : Nat → K) :
    fftr2d_c2r cfg scratch tmp_line tmp inp out = none := by
  unfold fftr2d_c2r
  simp only
  cases forLoop (cfg.nx / 2 + 1) (fun j r => r.bind (fun tmp =>
    (fft_c2c cfg.cfgy (InBuf.disjoint (inp.offset (j * cfg.ny))) (tmp_line j)).map
      (fun line => forLoop cfg.ny (fun i tmp =>
        tmp.set (j + i * (cfg.nx / 2 + 1)) (line.get i * Cx.ofReal (1 / (cfg.ny : K)))) tmp)))
    (some tmp) with
  | none => rfl
  | some t =>
    refine forLoop_bind_first_none _ _ out hny ?_
    unfold fftr_c2r
    rw [if_neg (not_not.2 hdir)]
    simp only [fft_c2c, hf, transform, Option.map_none']

theorem fftr2d_init_cfg_4_1 {K : Type} [Field K] (L : Libm K) (direction : fft_direction) :
    fftr2d_init_cfg L 32 (cfg2d0 K) 4 1 4 direction =
      some (0, ⟨4, 1, 4,
        ⟨⟨2, direction, [⟨2, 1⟩], phaseTable L 2 direction⟩, packTable L 2 direction⟩,
        ⟨1, direction, [], phaseTable L 1 direction⟩⟩) := by
  unfold fftr2d_init_cfg fftr_init_cfg
  simp only [show 4 % 2 ≠ 0 ↔ False by decide, if_false, Nat.reduceDiv, fft_init_cfg_two,
    ne_eq, not_true_eq_false, Nat.reduceGT, if_true, fft_init_cfg_one]

theorem fftr2d_init_cfg_2_2 {K : Type} [Field K] (L : Libm K) (direction : fft_direction) :
    fftr2d_init_cfg L 32 (cfg2d0 K) 2 2 3 direction =
      some (0, ⟨2, 2, 3,
        ⟨⟨1, direction, [], phaseTable L 1 direction⟩, packTable L 1 direction⟩,
        ⟨2, direction, [⟨2, 1⟩], phaseTable L 2 direction⟩⟩) := by
  unfold fftr2d_init_cfg fftr_init_cfg
  simp only [show 2 % 2 ≠ 0 ↔ False by decide, if_false, Nat.reduceDiv, fft_init_cfg_two,
    ne_eq, not_true_eq_false, Nat.reduceGT, if_true, fft_init_cfg_one]

/-- Claim C14 fails for a grid of one row (`nx = 4`, `ny = 1`): `fftr2d_init_cfg` returns
`0`, but the column configuration of length 1 has no factor entry, so
`fftr2d_r2c` has no defined output and there is nothing for `fftr2d_c2r` to
recover the grid from. -/
theorem fftr2d_r2c_one_row {K : Type} [Field K] (L : Libm K) (scratch tmpx tmpy : Nat → Buf K)
    (g : Nat → K) (out : Buf K) :
    ∃ cfg, fftr2d_init_cfg L 32 (cfg2d0 K) 4 1 4 FFT_FORWARD = some (0, cfg) ∧
      cfg.cfgy.n = 1 ∧ cfg.cfgy.factors = [] ∧
      fftr2d_r2c cfg scratch tmpx tmpy g out = none :=
  ⟨_, fftr2d_init_cfg_4_1 L FFT_FORWARD, rfl, rfl,
    fftr2d_r2c_no_column_stage _ rfl scratch tmpx tmpy g out⟩

/-- Claim C15 fails for `nx = 2` (`ny = 2`, `stridey = 3`): `fftr2d_init_cfg` returns `0`,
but the row configuration's half-length complex part, of length 1, has no
factor entry, so the row transforms of `fftr2d_c2r` read an entry that was
never written and no final state of `out` is defined. -/
theorem fftr2d_c2r_two_columns {K : Type} [Field K] (L : Libm K)
    (scratch tmp_line : Nat → Buf K) (tmp inp : Buf K) (out : Nat → K) :
    ∃ cfg, fftr2d_init_cfg L 32 (cfg2d0 K) 2 2 3 FFT_BACKWARD = some (0, cfg) ∧
      cfg.cfgx.cfg.n = 1 ∧ cfg.cfgx.cfg.factors = [] ∧
      fftr2d_c2r cfg scratch tmp_line tmp inp out = none :=
  ⟨_, fftr2d_init_cfg_2_2 L FFT_BACKWARD, rfl, rfl,
    fftr2d_c2r_no_row_stage _ rfl rfl Nat.zero_lt_two scratch tmp_line tmp inp out⟩

/-! ## Two-dimensional transforms: rows, then columns -/

/-- Invariant rule for a loop of fallible steps. -/
theorem forLoop_bind_inv {σ : Type} (P : Nat → σ → Prop) (body : Nat → σ → Option σ) (n : Nat)
    (s : σ) (h0 : P 0 s)
    (hstep : ∀ j, j < n → ∀ t, P j t → ∃ t', body j t = some t' ∧ P (j + 1) t') :
    ∃ t, forLoop n (fun j r => r.bind (body j)) (some s) = some t ∧ P n t := by
  induction n with
  | zero => exact ⟨s, rfl, h0⟩
  | succ n ih =>
    obtain ⟨t, ht, hP⟩ := ih (fun j hj => hstep j (by omega))
    obtain ⟨t', ht', hP'⟩ := hstep n (by omega) t hP
    exact ⟨t', by rw [forLoop_succ, ht]; exact ht', hP'⟩

theorem Buf.offset_get {K : Type} (a : Buf K) (off k : Nat) :
    (a.offset off).get k = a.get (off + k) := rfl

/-- The two phases of `fftr2d_r2c`, given what the row transforms return
(`T j` for row `j`) and what the column transforms make of a column of those
(`V kx ky`): the result holds `V kx ky` in cell `kx * ny + ky`, and the cells
from `(nx/2 + 1) * ny` on are not written. -/
theorem fftr2d_r2c_stages {K : Type} [Field K] (cfg : t_fftr2d_cfg K)
    (scratch tmpx tmpy : Nat → Buf K) (inp : Nat → K) (out : Buf K) (T : Nat → Buf K)
    (V : Nat → Nat → Cx K) (hny : 0 < cfg.ny)
    (hrow : ∀ j, j < cfg.ny →
      fftr_r2c cfg.cfgx (scratch j) (fun k => inp (j * cfg.stridey + k)) (tmpx j) = some (T j))
    (hcol : ∀ j, j < cfg.nx / 2 + 1 → ∀ data : Buf K,
      (∀ y, y < cfg.ny → data.get y = (T y).get j) →
      ∃ tmp, fft_c2c cfg.cfgy (InBuf.disjoint data) (tmpy j) = some tmp ∧
        ∀ i, i < cfg.ny → tmp.get i = V j i) :
    ∃ out', fftr2d_r2c cfg scratch tmpx tmpy inp out = some out' ∧
      (∀ kx ky, kx < cfg.nx / 2 + 1 → ky < cfg.ny → out'.get (kx * cfg.ny + ky) = V kx ky) ∧
      (∀ c, (cfg.nx / 2 + 1) * cfg.ny ≤ c → out'.get c = out.get c) := by
  obtain ⟨out1, h1, hP, hF⟩ := forLoop_bind_inv
    (fun j (t : Buf K) =>
      (∀ j' i, j' < j → j' < cfg.ny → i < cfg.nx / 2 + 1 →
        t.get (j' + i * cfg.ny) = (T j').get i) ∧
      (∀ c, (cfg.nx / 2 + 1) * cfg.ny ≤ c → t.get c = out.get c))
    (fun j out =>
      (fftr_r2c cfg.cfgx (scratch j) (fun k => inp (j * cfg.stridey + k)) (tmpx j)).map
        (fun tmp => forLoop (cfg.nx / 2 + 1)
          (fun i out => out.set (j + i * cfg.ny) (tmp.get i)) out))
    cfg.ny out ⟨fun j' i h => absurd h (Nat.not_lt_zero _), fun c _ => rfl⟩
    (by
      intro j hj t ⟨hP, hF⟩
      beta_reduce
      refine ⟨_, by rw [hrow j hj]; rfl, ?_, ?_⟩
      · intro j' i hj' hj'n hi
        rcases Nat.lt_or_ge j' j with hlt | hge
        · rw [forLoop_set_frame (cfg.nx / 2 + 1) (fun i => j + i * cfg.ny)
            (fun i _ => (T j).get i) t]
          · exact hP j' i hlt hj'n hi
          · intro i' _ h
            have := lane_disj hj'n hj h
            omega
        · have hjj : j' = j := by omega
          subst hjj
          exact forLoop_set_get (cfg.nx / 2 + 1) (fun i => j' + i * cfg.ny)
            (fun i => (T j').get i) t (fun a b _ _ h => lane_inj hny h) i hi
      · intro c hc
        rw [forLoop_set_frame (cfg.nx / 2 + 1) (fun i => j + i * cfg.ny)
          (fun i _ => (T j).get i) t]
        · exact hF c hc
        · intro i' hi' h
          have := lane_cell_lt hj hi'
          omega)
  obtain ⟨out2, h2, hQ, hG⟩ := forLoop_bind_inv
    (fun j (t : Buf K) =>
      (∀ j' i, j' < j → i < cfg.ny → t.get (i + j' * cfg.ny) = V j' i) ∧
      (∀ c, j * cfg.ny ≤ c → t.get c = out1.get c))
    (fun j out =>
      (fft_c2c cfg.cfgy (InBuf.disjoint (out.offset (j * cfg.ny))) (tmpy j)).map
        (fun tmp => forLoop cfg.ny (fun i out => out.set (i + j * cfg.ny) (tmp.get i)) out))
    (cfg.nx / 2 + 1) out1 ⟨fun j' i h => absurd h (Nat.not_lt_zero _), fun c _ => rfl⟩
    (by
      intro j hj t ⟨hQ, hG⟩
      obtain ⟨tmp, htmp, hval⟩ := hcol j hj (t.offset (j * cfg.ny)) (by
        intro y hy
        rw [Buf.offset_get, hG _ (Nat.le_add_right _ _), Nat.add_comm]
        exact hP y j (by omega) hy hj)
      beta_reduce
      refine ⟨_, by rw [htmp]; rfl, ?_, ?_⟩
      · intro j' i hj' hi
        rcases Nat.lt_or_ge j' j with hlt | hge
        · rw [forLoop_set_frame cfg.ny (fun i => i + j * cfg.ny) (fun i _ => tmp.get i) t]
          · exact hQ j' i hlt hi
          · intro i' _ h
            have h1 : (j' + 1) * cfg.ny ≤ j * cfg.ny := Nat.mul_le_mul_right _ (by omega)
            have h2 : (j' + 1) * cfg.ny = j' * cfg.ny + cfg.ny := by ring
            omega
        · have hjj : j' = j := by omega
          subst hjj
          rw [forLoop_set_get cfg.ny (fun i => i + j' * cfg.ny) (fun i => tmp.get i) t
            (fun a b _ _ h => Nat.add_right_cancel h) i hi]
          exact hval i hi
      · intro c hc
        have h2 : (j + 1) * cfg.ny = j * cfg.ny + cfg.ny := by ring
        rw [forLoop_set_frame cfg.ny (fun i => i + j * cfg.ny) (fun i _ => tmp.get i) t]
        · exact hG c (by omega)
        · intro i' hi' h
          omega)
  refine ⟨out2, ?_, ?_, ?_⟩
  · unfold fftr2d_r2c
    simp only []
    rw [h1]
    exact h2
  · intro kx ky hkx hky
    rw [Nat.add_comm]
    exact hQ kx ky hkx hky
  · intro c hc
    rw [hG c hc]
    exact hF c hc

theorem fftr2d_init_cfg_fields {K : Type} [Field K] {L : Libm K} {MAX_FACTORS : Nat}
    {cfg0 cfg : t_fftr2d_cfg K} {nx ny stridey : Nat} {direction : fft_direction}
    (h : fftr2d_init_cfg L MAX_FACTORS cfg0 nx ny stridey direction = some (0, cfg)) :
    cfg.nx = nx ∧ cfg.ny = ny ∧ cfg.stridey = (if stridey > 0 then stridey else nx) ∧
      fftr_init_cfg L MAX_FACTORS cfg0.cfgx nx direction = some (0, cfg.cfgx) ∧
      fft_init_cfg L MAX_FACTORS cfg0.cfgy ny direction = some (0, cfg.cfgy) := by
  unfold fftr2d_init_cfg at h
  simp only at h
  cases hx : fftr_init_cfg L MAX_FACTORS cfg0.cfgx nx direction with
  | none => rw [hx] at h; simp at h
  | some rx =>
    obtain ⟨sx, cx⟩ := rx
    rw [hx] at h
    simp only at h
    by_cases hsx : sx ≠ 0
    · rw [if_pos hsx] at h
      have := (Prod.mk.inj (Option.some.inj h)).1
      exact absurd this hsx
    · rw [if_neg hsx] at h
      cases hy : fft_init_cfg L MAX_FACTORS cfg0.cfgy ny direction with
      | none => rw [hy] at h; simp at h
      | some ry =>
        obtain ⟨sy, cy⟩ := ry
        rw [hy] at h
        simp only at h
        by_cases hsy : sy ≠ 0
        · rw [if_pos hsy] at h
          have := (Prod.mk.inj (Option.some.inj h)).1
          exact absurd this hsy
        · rw [if_neg hsy] at h
          have hc := (Prod.mk.inj (Option.some.inj h)).2
          rw [← hc]
          have e1 : sx = 0 := not_not.1 hsx
          have e2 : sy = 0 := not_not.1 hsy
          subst e1 e2
          exact ⟨rfl, rfl, rfl, rfl, rfl⟩

/-- The row-by-row form of the two-dimensional transform. -/
theorem dft2_rows {K : Type} [Field K] (wx wy : Cx K) (nx ny stridey : Nat) (inp : Nat → K)
    (kx ky : Nat) :
    dft2 wx wy nx ny stridey inp kx ky =
      ∑ y in Finset.range ny,
        rdft wx nx (fun k => inp (y * stridey + k)) kx * wy ^ (y * ky) := by
  unfold dft2 rdft
  apply Finset.sum_congr rfl
  intro y _
  rw [Finset.sum_mul]

/-- For every even `4 ≤ nx ≤ 131072`, every `2 ≤ ny ≤ 65536` and row distance
`stridey ≥ nx` whose factorizations succeed, `fftr2d_r2c` writes the
transposed half spectrum `out[kx*ny + ky]`, `kx ≤ nx/2`, `ky < ny`, of the
two-dimensional transform, and no cell from `(nx/2 + 1) * ny` on. -/
theorem fftr2d_r2c_dft (MAX_FACTORS : Nat) (cfg0 cfg : t_fftr2d_cfg ℝ) (nx ny stridey : Nat)
    (hnx4 : 4 ≤ nx) (hnx : nx ≤ 131072) (hny2 : 2 ≤ ny) (hny : ny ≤ 65536)
    (hstride : nx ≤ stridey)
    (hinit : fftr2d_init_cfg ⟨Real.pi, Real.cos, Real.sin⟩ MAX_FACTORS cfg0 nx ny stridey
      FFT_FORWARD = some (0, cfg))
    (hfac : fft_init_cfg ⟨Real.pi, Real.cos, Real.sin⟩ MAX_FACTORS cfg0.cfgx.cfg (nx / 2)
      FFT_FORWARD = some (0, cfg.cfgx.cfg))
    (scratch tmpx tmpy : Nat → Buf ℝ) (inp : Nat → ℝ) (out : Buf ℝ) :
    ∃ out', fftr2d_r2c cfg scratch tmpx tmpy inp out = some out' ∧
      (∀ kx ky, kx ≤ nx / 2 → ky < ny → out'.get (kx * ny + ky) =
        dft2 (twiddle ⟨Real.pi, Real.cos, Real.sin⟩ nx FFT_FORWARD)
          (twiddle ⟨Real.pi, Real.cos, Real.sin⟩ ny FFT_FORWARD) nx ny stridey inp kx ky) ∧
      (∀ c, (nx / 2 + 1) * ny ≤ c → out'.get c = out.get c) := by
  obtain ⟨hcnx, hcny, hcs, hix, hiy⟩ := fftr2d_init_cfg_fields hinit
  rw [if_pos (by omega)] at hcs
  have hrow : ∀ j, ∃ tmp,
      fftr_r2c cfg.cfgx (scratch j) (fun k => inp (j * cfg.stridey + k)) (tmpx j) = some tmp ∧
      ∀ i, i ≤ nx / 2 → tmp.get i =
        rdft (twiddle ⟨Real.pi, Real.cos, Real.sin⟩ nx FFT_FORWARD) nx
          (fun k => inp (j * stridey + k)) i := by
    intro j
    obtain ⟨tmp, h1, h2, -⟩ := fftr_r2c_dft MAX_FACTORS cfg0.cfgx cfg.cfgx nx hnx4 hnx hix hfac
      (fun k => inp (j * cfg.stridey + k)) (scratch j) (tmpx j)
    refine ⟨tmp, h1, ?_⟩
    intro i hi
    rw [h2 i hi, hcs]
  choose T hT1 hT2 using hrow
  obtain ⟨out', h1, h2, h3⟩ := fftr2d_r2c_stages cfg scratch tmpx tmpy inp out T
    (fun kx ky => dft2 (twiddle ⟨Real.pi, Real.cos, Real.sin⟩ nx FFT_FORWARD)
      (twiddle ⟨Real.pi, Real.cos, Real.sin⟩ ny FFT_FORWARD) nx ny stridey inp kx ky)
    (by omega) (fun j _ => hT1 j)
    (by
      intro j hj data hdata
      rw [hcnx] at hj
      obtain ⟨tmp, t1, t2, -⟩ := fft_c2c_dft MAX_FACTORS cfg0.cfgy cfg.cfgy ny FFT_FORWARD
        hny2 hny hiy data (tmpy j)
      refine ⟨tmp, t1, ?_⟩
      intro i hi
      rw [hcny] at hi
      rw [t2 i hi]
      beta_reduce
      rw [dft2_rows]
      unfold dft
      apply Finset.sum_congr rfl
      intro y hy
      have hy' := Finset.mem_range.1 hy
      rw [hdata y (by rw [hcny]; exact hy'), hT2 y j (by omega)])
  rw [hcnx, hcny] at h2 h3
  exact ⟨out', h1, fun kx ky hkx hky => h2 kx ky (by omega) hky, h3⟩

theorem fft_init_cfg_prime {K : Type} [Field K] (L : Libm K) (MAX_FACTORS : Nat)
    (hcap : 0 < MAX_FACTORS) (cfg0 : t_fft_cfg K) (n : Nat) (hn : n.Prime)
    (direction : fft_direction) :
    fft_init_cfg L MAX_FACTORS cfg0 n direction =
      some (0, ⟨n, direction, [⟨n, 1⟩], phaseTable L n direction⟩) :=
  (prime_single_stage MAX_FACTORS
    ({ cfg0 with n := n, direction := direction, phase := phaseTable L n direction } :
      t_fft_cfg K) hcap hn).1

/-- Initialisation for a grid of 4 columns and a prime number of rows. -/
theorem fftr2d_init_cfg_4_prime {K : Type} [Field K] (L : Libm K) (MAX_FACTORS : Nat)
    (hcap : 0 < MAX_FACTORS) (cfg0 : t_fftr2d_cfg K) (ny : Nat) (hny : ny.Prime)
    (direction : fft_direction) :
    fftr2d_init_cfg L MAX_FACTORS cfg0 4 ny 4 direction =
      some (0, ⟨4, ny, 4,
        ⟨⟨2, direction, [⟨2, 1⟩], phaseTable L 2 direction⟩, packTable L 2 direction⟩,
        ⟨ny, direction, [⟨ny, 1⟩], phaseTable L ny direction⟩⟩) := by
  unfold fftr2d_init_cfg fftr_init_cfg
  simp only [show 4 % 2 ≠ 0 ↔ False by decide, if_false, Nat.reduceDiv,
    fft_init_cfg_prime L MAX_FACTORS hcap _ _ Nat.prime_two,
    fft_init_cfg_prime L MAX_FACTORS hcap _ _ hny,
    ne_eq, not_true_eq_false, Nat.reduceGT, if_true]

theorem rdft_impulse_row (w : Cx ℝ) (a j i : Nat) :
    rdft w 4 (fun k => (realImpulse (a * 4) : Nat → ℝ) (j * 4 + k)) i =
      if j = a then 1 else 0 := by
  unfold rdft realImpulse
  simp only [Finset.sum_range_succ, Finset.sum_range_zero, zero_add]
  by_cases h : j = a
  · subst h
    simp only [if_true, Nat.add_zero, Nat.zero_mul, pow_zero, mul_one]
    rw [if_neg (by omega), if_neg (by omega), if_neg (by omega)]
    ext <;> simp
  · rw [if_neg h, if_neg (by omega), if_neg (by omega), if_neg (by omega), if_neg (by omega)]
    ext <;> simp

/-- On a grid of 4 columns and a prime number `5 < ny ≤ INT_MAX` of rows, with the
real impulse at row `a`, column 0: every column transform is one `butterflyN`
call, and cell `kx * ny + ky` ends with the table entry at the 32-bit index
`(a * ky) % ny`. -/
theorem fftr2d_r2c_impulse_prime (MAX_FACTORS : Nat) (hcap : 0 < MAX_FACTORS)
    (cfg0 : t_fftr2d_cfg ℝ) (ny : Nat) (hprime : ny.Prime) (h5 : 5 < ny) (hmax : ny ≤ INT_MAX)
    (a : Nat) (ha1 : 1 ≤ a) (ha : a < ny) (scratch tmpx tmpy : Nat → Buf ℝ) (out : Buf ℝ) :
    ∃ cfg out', fftr2d_init_cfg ⟨Real.pi, Real.cos, Real.sin⟩ MAX_FACTORS cfg0 4 ny 4
        FFT_FORWARD = some (0, cfg) ∧
      fftr2d_r2c cfg scratch tmpx tmpy (realImpulse (a * 4)) out = some out' ∧
      ∀ kx ky, kx ≤ 2 → ky < ny → out'.get (kx * ny + ky) =
        tw (phaseTable ⟨Real.pi, Real.cos, Real.sin⟩ ny FFT_FORWARD) (u32 (a * u32 ky) % ny) := by
  obtain ⟨cfg, hinit, hfac⟩ : ∃ cfg,
      fftr2d_init_cfg ⟨Real.pi, Real.cos, Real.sin⟩ MAX_FACTORS cfg0 4 ny 4 FFT_FORWARD =
        some (0, cfg) ∧
      fft_init_cfg ⟨Real.pi, Real.cos, Real.sin⟩ MAX_FACTORS cfg0.cfgx.cfg (4 / 2)
        FFT_FORWARD = some (0, cfg.cfgx.cfg) :=
    ⟨_, fftr2d_init_cfg_4_prime _ MAX_FACTORS hcap cfg0 ny hprime FFT_FORWARD,
      fft_init_cfg_prime _ MAX_FACTORS hcap _ 2 Nat.prime_two FFT_FORWARD⟩
  obtain ⟨hcnx, hcny, hcs, hix, hiy⟩ := fftr2d_init_cfg_fields hinit
  rw [if_pos (by norm_num)] at hcs
  have hrow : ∀ j, ∃ tmp,
      fftr_r2c cfg.cfgx (scratch j) (fun k => (realImpulse (a * 4) : Nat → ℝ)
        (j * cfg.stridey + k)) (tmpx j) = some tmp ∧
      ∀ i, i ≤ 2 → tmp.get i = if j = a then 1 else 0 := by
    intro j
    obtain ⟨tmp, h1, h2, -⟩ := fftr_r2c_dft MAX_FACTORS cfg0.cfgx cfg.cfgx 4 (le_refl _)
      (by norm_num) hix hfac (fun k => (realImpulse (a * 4) : Nat → ℝ) (j * cfg.stridey + k))
      (scratch j) (tmpx j)
    refine ⟨tmp, h1, ?_⟩
    intro i hi
    rw [h2 i hi, hcs, rdft_impulse_row]
  choose T hT1 hT2 using hrow
  obtain ⟨out', h1, h2, -⟩ := fftr2d_r2c_stages cfg scratch tmpx tmpy (realImpulse (a * 4)) out T
    (fun _ ky => tw (phaseTable ⟨Real.pi, Real.cos, Real.sin⟩ ny FFT_FORWARD)
      (u32 (a * u32 ky) % ny))
    (by omega) (fun j _ => hT1 j)
    (by
      intro j hj data hdata
      rw [hcnx] at hj
      rw [hcny] at hdata
      obtain ⟨cfg', tmp, hi', -, -, -, hc, hv⟩ := fft_c2c_prime
        (⟨Real.pi, Real.cos, Real.sin⟩ : Libm ℝ) MAX_FACTORS cfg0.cfgy ny FFT_FORWARD hcap
        hprime h5 hmax data (tmpy j)
      have hcfg : cfg' = cfg.cfgy := by
        rw [hiy] at hi'
        exact ((Prod.mk.inj (Option.some.inj hi')).2).symm
      rw [hcfg] at hc
      refine ⟨tmp, hc, ?_⟩
      intro i hi
      rw [hcny] at hi
      rw [hv i hi, hdata 0 (by omega), hT2 0 j (by omega), if_neg (by omega), zero_add,
        Finset.sum_eq_single (a - 1)]
      · have e : 1 + (a - 1) = a := by omega
        rw [e, hdata a ha, hT2 a j (by omega), if_pos rfl, one_mul]
      · intro k hk hne
        have hk' := Finset.mem_range.1 hk
        rw [hdata (1 + k) (by omega), hT2 (1 + k) j (by omega), if_neg (by omega), zero_mul]
      · intro h
        exact absurd (Finset.mem_range.2 (by omega)) h)
  rw [hcnx, hcny] at h2
  exact ⟨cfg, out', hinit, h1, fun kx ky hkx hky => h2 kx ky (by omega) hky⟩

/-- The forward twiddle of length 65537 to the power `65536 * 65536` is not 1. -/
theorem twiddle_65537_ne_one :
    twiddle (⟨Real.pi, Real.cos, Real.sin⟩ : Libm ℝ) 65537 FFT_FORWARD ^ (65536 * 65536) ≠ 1 := by
  unfold twiddle angle
  simp only [if_neg (by decide : ¬ FFT_FORWARD = FFT_BACKWARD)]
  rw [cis_pow]
  intro h
  have hcos := congrArg Cx.re h
  simp only [Cx.one_re] at hcos
  rw [Real.cos_eq_one_iff] at hcos
  obtain ⟨m, hm⟩ := hcos
  have hpi : Real.pi ≠ 0 := Real.pi_ne_zero
  have h2 : (m : ℝ) * 65537 = -(65536 * 65536) := by
    push_cast at hm
    field_simp at hm
    nlinarith [hm, Real.pi_pos]
  have h3 : m * 65537 = -(65536 * 65536) := by exact_mod_cast h2
  omega

/-- The two-dimensional transform of the real grid that is 1 in row `a`,
column 0, and 0 elsewhere. -/
theorem dft2_impulse_col0 {K : Type} [Field K] (wx wy : Cx K) (nx ny stridey a : Nat)
    (hnx : 0 < nx) (hs : nx ≤ stridey) (ha : a < ny) (kx ky : Nat) :
    dft2 wx wy nx ny stridey (realImpulse (a * stridey)) kx ky = wy ^ (a * ky) := by
  unfold dft2
  rw [Finset.sum_eq_single a]
  · rw [Finset.sum_eq_single 0]
    · simp [realImpulse]
      ext <;> simp
    · intro x _ hx
      have : ¬ a * stridey + x = a * stridey := by omega
      simp only [realImpulse, if_neg this]
      ext <;> simp
    · intro h
      exact absurd (Finset.mem_range.2 hnx) h
  · intro y _ hy
    apply Finset.sum_eq_zero
    intro x hx
    have hx' := Finset.mem_range.1 hx
    have : ¬ y * stridey + x = a * stridey := by
      intro h
      rcases Nat.lt_or_gt_of_ne hy with hlt | hgt
      · have h1 : (y + 1) * stridey ≤ a * stridey := Nat.mul_le_mul_right _ hlt
        have h2 : (y + 1) * stridey = y * stridey + stridey := by ring
        omega
      · have h1 : (a + 1) * stridey ≤ y * stridey := Nat.mul_le_mul_right _ hgt
        have h2 : (a + 1) * stridey = a * stridey + stridey := by ring
        omega
    simp only [realImpulse, if_neg this]
    ext <;> simp
  · intro h
    exact absurd (Finset.mem_range.2 ha) h

/-- Claim C13 fails for `nx = 4`, `ny = 65537`: on the grid that is 1 at row 65536,
column 0, the code stores `1` in `out[0 * ny + 65536]`, because in the column
transform the twiddle index `65536 * 65536` wraps to `0`, while the
two-dimensional transform there is not `1`. -/
theorem fftr2d_r2c_wraps_65537 (MAX_FACTORS : Nat) (hcap : 0 < MAX_FACTORS)
    (cfg0 : t_fftr2d_cfg ℝ) (scratch tmpx tmpy : Nat → Buf ℝ) (out : Buf ℝ) :
    ∃ cfg out', fftr2d_init_cfg ⟨Real.pi, Real.cos, Real.sin⟩ MAX_FACTORS cfg0 4 65537 4
        FFT_FORWARD = some (0, cfg) ∧
      fftr2d_r2c cfg scratch tmpx tmpy (realImpulse (65536 * 4)) out = some out' ∧
      out'.get (0 * 65537 + 65536) = 1 ∧
      dft2 (twiddle ⟨Real.pi, Real.cos, Real.sin⟩ 4 FFT_FORWARD)
        (twiddle ⟨Real.pi, Real.cos, Real.sin⟩ 65537 FFT_FORWARD) 4 65537 4
        (realImpulse (65536 * 4)) 0 65536 ≠ 1 := by
  obtain ⟨cfg, out', h1, h2, h3⟩ := fftr2d_r2c_impulse_prime MAX_FACTORS hcap cfg0 65537
    prime_65537 (by norm_num) (by decide) 65536 (by norm_num) (by norm_num) scratch tmpx tmpy
    out
  refine ⟨cfg, out', h1, h2, ?_, ?_⟩
  · rw [h3 0 65536 (by norm_num) (by norm_num)]
    have hidx : u32 (65536 * u32 65536) % 65537 = 0 := by norm_num [u32]
    rw [hidx, tw_phaseTable_zero _ _ _ (by norm_num) Real.cos_zero Real.sin_zero]
  · rw [dft2_impulse_col0 _ _ 4 65537 4 65536 (by norm_num) (le_refl _) (by norm_num)]
    exact twiddle_65537_ne_one

/-- Witness for claim C13's failing input with capacity 32. -/
theorem fftr2d_r2c_wraps_65537_witness :
    0 < 32 ∧
    ∃ cfg out', fftr2d_init_cfg ⟨Real.pi, Real.cos, Real.sin⟩ 32 (cfg2d0 ℝ) 4 65537 4
        FFT_FORWARD = some (0, cfg) ∧
      fftr2d_r2c cfg (fun _ => ⟨fun _ => 0⟩) (fun _ => ⟨fun _ => 0⟩) (fun _ => ⟨fun _ => 0⟩)
        (realImpulse (65536 * 4)) ⟨fun _ => 0⟩ = some out' ∧
      out'.get (0 * 65537 + 65536) = 1 ∧
      dft2 (twiddle ⟨Real.pi, Real.cos, Real.sin⟩ 4 FFT_FORWARD)
        (twiddle ⟨Real.pi, Real.cos, Real.sin⟩ 65537 FFT_FORWARD) 4 65537 4
        (realImpulse (65536 * 4)) 0 65536 ≠ 1 :=
  ⟨by decide, fftr2d_r2c_wraps_65537 32 (by decide) (cfg2d0 ℝ) (fun _ => ⟨fun _ => 0⟩)
    (fun _ => ⟨fun _ => 0⟩) (fun _ => ⟨fun _ => 0⟩) ⟨fun _ => 0⟩⟩

/-! ## Totality and frame of the transforms on a well-formed stage sequence -/

/-- The kernel selected for radix `p ≥ 2` writes only the cells
`out[o .. o + p*m)`, whatever the twiddle table holds. -/
theorem butterfly_frame {K : Type} [Field K] (cfg : t_fft_cfg K) (b : Buf K)
    (o s m p : Nat) (hp : 2 ≤ p) (c : Nat) (hc : c < o ∨ o + p * m ≤ c) :
    (butterfly cfg b o s m p).get c = b.get c := by
  have hframe : ∀ i q, i < m → q < p → c ≠ o + (i + q * m) := by
    intro i q hi hq
    have := lane_cell_lt hi hq
    omega
  by_cases h5 : 5 < p
  · rw [butterfly_generic _ _ _ _ _ _ h5]
    exact (butterflyN_lane b o s cfg.phase m p cfg.n).1 c hframe
  · have hp' : p = 2 ∨ p = 3 ∨ p = 4 ∨ p = 5 := by omega
    rcases hp' with rfl | rfl | rfl | rfl
    · have hb : butterfly cfg b o s m 2 = butterfly2 b o s cfg.phase m := rfl
      rw [hb, butterfly2_eq]
      exact (laneKernel_lane (out2 s cfg.phase) b o m 2 (by
        intro t t' i q h
        simp only [out2, h 0 (by norm_num), h 1 (by norm_num)])).1 c hframe
    · have hb : butterfly cfg b o s m 3 = butterfly3 b o s cfg.phase m := rfl
      rw [hb, butterfly3_eq]
      exact (laneKernel_lane (out3 s m cfg.phase) b o m 3 (by
        intro t t' i q h
        simp only [out3, h 0 (by norm_num), h 1 (by norm_num), h 2 (by norm_num)])).1 c hframe
    · have hb : butterfly cfg b o s m 4 = butterfly4 b o s cfg.phase m cfg.direction := rfl
      rw [hb, butterfly4_eq]
      exact (laneKernel_lane (out4 s cfg.phase cfg.direction) b o m 4 (by
        intro t t' i q h
        simp only [out4, h 0 (by norm_num), h 1 (by norm_num), h 2 (by norm_num),
          h 3 (by norm_num)])).1 c hframe
    · have hb : butterfly cfg b o s m 5 = butterfly5 b o s cfg.phase m := rfl
      rw [hb, butterfly5_eq]
      exact (laneKernel_lane (out5 s m cfg.phase) b o m 5 (by
        intro t t' i q h
        simp only [out5, h 0 (by norm_num), h 1 (by norm_num), h 2 (by norm_num),
          h 3 (by norm_num), h 4 (by norm_num)])).1 c hframe

/-- On a well-formed stage sequence for sub-length `2 ≤ N ≤ INT_MAX`,
`transform` returns and writes only the cells `out[o .. o + N)`, for every
input, twiddle table and strides. -/
theorem transform_total {K : Type} [Field K] (cfg : t_fft_cfg K) (inp : InBuf K) :
    ∀ (fs : List t_fft_factors) (N s in_stride i_off o : Nat) (out : Buf K),
      StageChain N fs → 2 ≤ N → N ≤ INT_MAX →
      ∃ out', transform cfg fs inp i_off in_stride out o s = some out' ∧
        ∀ c, (c < o ∨ o + N ≤ c) → out'.get c = out.get c := by
  intro fs
  induction fs with
  | nil =>
    intro N s in_stride i_off o out h hN
    have : N ≤ 1 := h
    omega
  | cons f fs ih =>
    intro N s in_stride i_off o out hch hN hmax
    obtain ⟨hp2, hpm, hrest⟩ := hch
    obtain ⟨hip, him, hipm⟩ := stage_le_int_max hp2 hpm hN hmax
    rw [transform_cons _ _ _ _ _ _ _ _ _ hip him hipm]
    by_cases hm1 : f.n = 1
    · rw [if_pos hm1, Option.map_some']
      refine ⟨_, rfl, ?_⟩
      intro c hc
      have hpN : f.p = N := by rw [← hpm, hm1, Nat.mul_one]
      rw [butterfly_frame cfg _ o s f.n f.p hp2 c (by rw [hpm]; exact hc)]
      rw [forLoop_set_frame f.p (fun i => o + i)
        (fun i out => inp.read out (i_off + i * in_stride * s)) out c]
      intro j hj
      omega
    · rw [if_neg hm1]
      have hm2 : 2 ≤ f.n := by
        rcases Nat.eq_zero_or_pos f.n with h0 | h0
        · rw [h0, Nat.mul_zero] at hpm; omega
        · omega
      obtain ⟨g, hg, hgf⟩ := forLoop_bind_inv
        (fun _ (t : Buf K) => ∀ c, (c < o ∨ o + N ≤ c) → t.get c = out.get c)
        (fun i out => transform cfg fs inp (i_off + i * s * in_stride) in_stride out
          (o + i * f.n) (s * f.p))
        f.p out (fun _ _ => rfl)
        (by
          intro i hi t ht
          obtain ⟨t', h1, h2⟩ := ih f.n (s * f.p) in_stride (i_off + i * s * in_stride)
            (o + i * f.n) t hrest hm2 him
          refine ⟨t', h1, ?_⟩
          intro c hc
          have e1 : (i + 1) * f.n ≤ f.p * f.n := Nat.mul_le_mul_right _ (by omega)
          have e2 : (i + 1) * f.n = i * f.n + f.n := by ring
          rw [h2 c (by omega)]
          exact ht c hc)
      rw [hg, Option.map_some']
      refine ⟨_, rfl, ?_⟩
      intro c hc
      rw [butterfly_frame cfg _ o s f.n f.p hp2 c (by rw [hpm]; exact hc)]
      exact hgf c hc

/-- On a configuration with a well-formed stage sequence whose length fits an
`int`, `fft_c2c` returns and writes only `out[0 .. n)`. -/
theorem fft_c2c_total {K : Type} [Field K] (cfg : t_fft_cfg K)
    (hch : StageChain cfg.n cfg.factors) (hn : 2 ≤ cfg.n) (hmax : cfg.n ≤ INT_MAX)
    (inp : InBuf K) (out : Buf K) :
    ∃ out', fft_c2c cfg inp out = some out' ∧ ∀ c, cfg.n ≤ c → out'.get c = out.get c := by
  obtain ⟨out', h1, h2⟩ := transform_total cfg inp cfg.factors cfg.n 1 1 0 0 out hch hn hmax
  exact ⟨out', h1, fun c hc => h2 c (Or.inr (by omega))⟩

/-- On a configuration with a well-formed stage sequence whose half length `n`
fits an `int`, `fftr_c2r` returns and writes only the first `2 n` cells of its
output, for either direction and every input. -/
theorem fftr_c2r_total {K : Type} [Field K] (rcfg : t_fftr_cfg K)
    (hch : StageChain rcfg.cfg.n rcfg.cfg.factors) (hn : 2 ≤ rcfg.cfg.n)
    (hmax : rcfg.cfg.n ≤ INT_MAX) (scratch X : Buf K) (out : Nat → K) :
    ∃ y, fftr_c2r rcfg scratch X out = some y ∧ ∀ k, 2 * rcfg.cfg.n ≤ k → y k = out k := by
  unfold fftr_c2r
  by_cases hd : rcfg.cfg.direction ≠ FFT_BACKWARD
  · rw [if_pos hd]
    exact ⟨out, rfl, fun _ _ => rfl⟩
  · rw [if_neg hd]
    simp only []
    obtain ⟨z, hz, hzf⟩ := fft_c2c_total rcfg.cfg hch hn hmax
      (InBuf.disjoint (forLoop rcfg.cfg.n (fun i buffer =>
        buffer.set i (buffer.get i * Cx.ofReal (1 / ((2 * rcfg.cfg.n : Nat) : K))))
        (forFrom 1 (rcfg.cfg.n / 2) (fun i buffer =>
          (buffer.set i ((X.get i + Cx.conjf (X.get (rcfg.cfg.n - i))) +
            (X.get i - Cx.conjf (X.get (rcfg.cfg.n - i))) * tw rcfg.phase (i - 1))).set
            (rcfg.cfg.n - i)
            (Cx.conjf ((X.get i + Cx.conjf (X.get (rcfg.cfg.n - i))) -
              (X.get i - Cx.conjf (X.get (rcfg.cfg.n - i))) * tw rcfg.phase (i - 1))))
          (scratch.set 0 (Cx.ofReal (Cx.creal (X.get 0) + Cx.creal (X.get rcfg.cfg.n)) +
            Cx.I * Cx.ofReal (Cx.creal (X.get 0) - Cx.creal (X.get rcfg.cfg.n)))))))
      (castComplex out)
    refine ⟨castReal z, by rw [hz]; rfl, ?_⟩
    intro k hk
    have h1 : castReal z k = castReal (castComplex out) k := by
      unfold castReal
      rw [hzf (k / 2) (by omega)]
    rw [h1, castReal_castComplex_self]

/-! ## Two-dimensional transforms: columns, then rows -/

/-- The two phases of `fftr2d_c2r`, given what the column transforms return
(`line j` for column `j`) and a property `G y x` that the row transforms
establish for the cells they write: the result satisfies `G y x` in cell
`y * stridey + x` of the grid, and every other cell keeps its value. -/
theorem fftr2d_c2r_stages {K : Type} [Field K] (cfg : t_fftr2d_cfg K)
    (scratch tmp_line : Nat → Buf K) (tmp inp : Buf K) (out : Nat → K) (line : Nat → Buf K)
    (G : Nat → Nat → K → Prop) (hs : cfg.nx ≤ cfg.stridey)
    (hcol : ∀ j, j < cfg.nx / 2 + 1 →
      fft_c2c cfg.cfgy (InBuf.disjoint (inp.offset (j * cfg.ny))) (tmp_line j) = some (line j))
    (hrow : ∀ j, j < cfg.ny → ∀ (X : Buf K) (view : Nat → K),
      (∀ i, i < cfg.nx / 2 + 1 →
        X.get i = (line i).get j * Cx.ofReal (1 / (cfg.ny : K))) →
      ∃ row, fftr_c2r cfg.cfgx (scratch j) X view = some row ∧
        (∀ k, k < cfg.nx → G j k (row k)) ∧ (∀ k, cfg.nx ≤ k → row k = view k)) :
    ∃ out', fftr2d_c2r cfg scratch tmp_line tmp inp out = some out' ∧
      (∀ y x, y < cfg.ny → x < cfg.nx → G y x (out' (y * cfg.stridey + x))) ∧
      (∀ k, (∀ y x, y < cfg.ny → x < cfg.nx → k ≠ y * cfg.stridey + x) → out' k = out k) := by
  obtain ⟨tmp1, h1, hP⟩ := forLoop_bind_inv
    (fun j (t : Buf K) =>
      ∀ j' i, j' < j → j' < cfg.nx / 2 + 1 → i < cfg.ny →
        t.get (j' + i * (cfg.nx / 2 + 1)) = (line j').get i * Cx.ofReal (1 / (cfg.ny : K)))
    (fun j tmp =>
      (fft_c2c cfg.cfgy (InBuf.disjoint (inp.offset (j * cfg.ny))) (tmp_line j)).map
        (fun line => forLoop cfg.ny (fun i tmp =>
          tmp.set (j + i * (cfg.nx / 2 + 1))
            (line.get i * Cx.ofReal (1 / (cfg.ny : K)))) tmp))
    (cfg.nx / 2 + 1) tmp (fun j' i h => absurd h (Nat.not_lt_zero _))
    (by
      intro j hj t hP
      beta_reduce
      refine ⟨_, by rw [hcol j hj]; rfl, ?_⟩
      intro j' i hj' hj'n hi
      rcases Nat.lt_or_ge j' j with hlt | hge
      · rw [forLoop_set_frame cfg.ny (fun i => j + i * (cfg.nx / 2 + 1))
          (fun i _ => (line j).get i * Cx.ofReal (1 / (cfg.ny : K))) t]
        · exact hP j' i hlt hj'n hi
        · intro i' _ h
          have := lane_disj hj'n hj h
          omega
      · have hjj : j' = j := by omega
        subst hjj
        exact forLoop_set_get cfg.ny (fun i => j' + i * (cfg.nx / 2 + 1))
          (fun i => (line j').get i * Cx.ofReal (1 / (cfg.ny : K))) t
          (fun a b _ _ h => lane_inj (Nat.succ_pos _) h) i hi)
  obtain ⟨out2, h2, hQ, hF⟩ := forLoop_bind_inv
    (fun j (o : Nat → K) =>
      (∀ y x, y < j → x < cfg.nx → G y x (o (y * cfg.stridey + x))) ∧
      (∀ k, (∀ y x, y < j → x < cfg.nx → k ≠ y * cfg.stridey + x) → o k = out k))
    (fun j out =>
      (fftr_c2r cfg.cfgx (scratch j) (tmp1.offset (j * (cfg.nx / 2 + 1)))
        (fun k => out (j * cfg.stridey + k))).map
        (fun row => fun k =>
          if j * cfg.stridey ≤ k then row (k - j * cfg.stridey) else out k))
    cfg.ny out ⟨fun y x h => absurd h (Nat.not_lt_zero _), fun k _ => rfl⟩
    (by
      intro j hj o ⟨hQ, hF⟩
      beta_reduce
      obtain ⟨row, hrow1, hrowG, hrowF⟩ := hrow j hj (tmp1.offset (j * (cfg.nx / 2 + 1)))
        (fun k => o (j * cfg.stridey + k)) (by
          intro i hi
          rw [Buf.offset_get, Nat.add_comm]
          exact hP i j hi hi hj)
      refine ⟨_, by rw [hrow1]; rfl, ?_, ?_⟩
      · intro y x hy hx
        beta_reduce
        rcases Nat.lt_or_ge y j with hlt | hge
        · have e1 : (y + 1) * cfg.stridey ≤ j * cfg.stridey := Nat.mul_le_mul_right _ hlt
          have e2 : (y + 1) * cfg.stridey = y * cfg.stridey + cfg.stridey := by ring
          rw [if_neg (by omega)]
          exact hQ y x hlt hx
        · have hyj : y = j := by omega
          subst hyj
          rw [if_pos (Nat.le_add_right _ _), Nat.add_sub_cancel_left]
          exact hrowG x hx
      · intro k hk
        beta_reduce
        by_cases hjk : j * cfg.stridey ≤ k
        · rw [if_pos hjk, hrowF]
          · have e : j * cfg.stridey + (k - j * cfg.stridey) = k := by omega
            rw [e]
            refine hF k ?_
            intro y x hy hx
            exact hk y x (by omega) hx
          · by_contra hlt
            exact hk j (k - j * cfg.stridey) (by omega) (by omega) (by omega)
        · rw [if_neg hjk]
          refine hF k ?_
          intro y x hy hx
          exact hk y x (by omega) hx)
  refine ⟨out2, ?_, hQ, hF⟩
  unfold fftr2d_c2r
  simp only []
  rw [h1]
  exact h2

/-- For every even `nx ≥ 4` with `nx / 2 ≤ INT_MAX` (so every `unsigned int`
`nx`), every `2 ≤ ny ≤ INT_MAX`, every row distance `stridey ≥ nx` and either
direction, on a configuration whose factorizations succeeded, `fftr2d_c2r`
returns and writes only the grid cells `out[y*stridey + x]`, `y < ny`,
`x < nx`; every other cell, the padding cells `nx ≤ x < stridey` among them,
keeps its value. -/
theorem fftr2d_c2r_frame {K : Type} [Field K] (L : Libm K) (MAX_FACTORS : Nat)
    (cfg0 cfg : t_fftr2d_cfg K) (nx ny stridey : Nat) (direction : fft_direction)
    (hnx4 : 4 ≤ nx) (hny2 : 2 ≤ ny) (hstride : nx ≤ stridey)
    (hnxmax : nx / 2 ≤ INT_MAX) (hnymax : ny ≤ INT_MAX)
    (hinit : fftr2d_init_cfg L MAX_FACTORS cfg0 nx ny stridey direction = some (0, cfg))
    (hfac : fft_init_cfg L MAX_FACTORS cfg0.cfgx.cfg (nx / 2) direction =
      some (0, cfg.cfgx.cfg))
    (scratch tmp_line : Nat → Buf K) (tmp inp : Buf K) (out : Nat → K) :
    ∃ out', fftr2d_c2r cfg scratch tmp_line tmp inp out = some out' ∧
      (∀ k, (∀ y x, y < ny → x < nx → k ≠ y * stridey + x) → out' k = out k) ∧
      (∀ y x, y < ny → nx ≤ x → x < stridey → out' (y * stridey + x) = out (y * stridey + x)) := by
  obtain ⟨hcnx, hcny, hcs, hix, hiy⟩ := fftr2d_init_cfg_fields hinit
  rw [if_pos (by omega)] at hcs
  obtain ⟨hev, -, -⟩ := fftr_init_cfg_fields hix
  obtain ⟨hxn, -, -, hxch⟩ := fft_init_cfg_fields hfac
  obtain ⟨hyn, -, -, hych⟩ := fft_init_cfg_fields hiy
  have hcol : ∀ j, ∃ line,
      fft_c2c cfg.cfgy (InBuf.disjoint (inp.offset (j * cfg.ny))) (tmp_line j) = some line := by
    intro j
    obtain ⟨line, h, -⟩ := fft_c2c_total cfg.cfgy (by rw [hyn]; exact hych) (by omega)
      (by rw [hyn]; exact hnymax)
      (InBuf.disjoint (inp.offset (j * cfg.ny))) (tmp_line j)
    exact ⟨line, h⟩
  choose line hline using hcol
  obtain ⟨out', h1, -, h3⟩ := fftr2d_c2r_stages cfg scratch tmp_line tmp inp out line
    (fun _ _ _ => True) (by omega) (fun j _ => hline j)
    (by
      intro j hj X view _
      obtain ⟨row, r1, r2⟩ := fftr_c2r_total cfg.cfgx (by rw [hxn]; exact hxch) (by omega)
        (by rw [hxn]; exact hnxmax)
        (scratch j) X view
      refine ⟨row, r1, fun _ _ => trivial, ?_⟩
      intro k hk
      exact r2 k (by omega))
  rw [hcnx, hcny, hcs] at h3
  refine ⟨out', h1, h3, ?_⟩
  intro y x hy hx1 hx2
  refine h3 _ ?_
  intro y' x' hy' hx' h
  rcases Nat.lt_trichotomy y y' with hlt | heq | hgt
  · have e1 : (y + 1) * stridey ≤ y' * stridey := Nat.mul_le_mul_right _ hlt
    have e2 : (y + 1) * stridey = y * stridey + stridey := by ring
    omega
  · subst heq
    omega
  · have e1 : (y' + 1) * stridey ≤ y * stridey := Nat.mul_le_mul_right _ hgt
    have e2 : (y' + 1) * stridey = y' * stridey + stridey := by ring
    omega

theorem natCast_mul_inv (n : Nat) (hn : 0 < n) :
    (n : Cx ℝ) * Cx.ofReal (1 / (n : ℝ)) = 1 := by
  have hn' : (n : ℝ) ≠ 0 := by exact_mod_cast hn.ne'
  ext
  · simp only [Cx.mul_re, Cx.ofReal_re, Cx.ofReal_im, Cx.natCast_re, Cx.natCast_im, Cx.one_re]
    field_simp
  · simp only [Cx.mul_im, Cx.ofReal_re, Cx.ofReal_im, Cx.natCast_re, Cx.natCast_im, Cx.one_im]
    ring

/-- For every even `4 ≤ nx ≤ 131072`, every `2 ≤ ny ≤ 65536` and row distance
`stridey ≥ nx` whose factorizations succeed, `fftr2d_c2r` applied to the
output of `fftr2d_r2c` on a grid `g` returns `g` in every cell of the grid and
leaves every other cell of its output alone. -/
theorem fftr2d_round_trip (MAX_FACTORS : Nat) (cf0 cf cb0 cb : t_fftr2d_cfg ℝ)
    (nx ny stridey : Nat) (hnx4 : 4 ≤ nx) (hnx : nx ≤ 131072) (hny2 : 2 ≤ ny)
    (hny : ny ≤ 65536) (hstride : nx ≤ stridey)
    (hf : fftr2d_init_cfg ⟨Real.pi, Real.cos, Real.sin⟩ MAX_FACTORS cf0 nx ny stridey
      FFT_FORWARD = some (0, cf))
    (hff : fft_init_cfg ⟨Real.pi, Real.cos, Real.sin⟩ MAX_FACTORS cf0.cfgx.cfg (nx / 2)
      FFT_FORWARD = some (0, cf.cfgx.cfg))
    (hb : fftr2d_init_cfg ⟨Real.pi, Real.cos, Real.sin⟩ MAX_FACTORS cb0 nx ny stridey
      FFT_BACKWARD = some (0, cb))
    (hbf : fft_init_cfg ⟨Real.pi, Real.cos, Real.sin⟩ MAX_FACTORS cb0.cfgx.cfg (nx / 2)
      FFT_BACKWARD = some (0, cb.cfgx.cfg))
    (g : Nat → ℝ) (s1 tx ty s2 tl : Nat → Buf ℝ) (tmp out1 : Buf ℝ) (out2 : Nat → ℝ) :
    ∃ F out', fftr2d_r2c cf s1 tx ty g out1 = some F ∧
      fftr2d_c2r cb s2 tl tmp F out2 = some out' ∧
      (∀ y x, y < ny → x < nx → out' (y * stridey + x) = g (y * stridey + x)) ∧
      (∀ k, (∀ y x, y < ny → x < nx → k ≠ y * stridey + x) → out' k = out2 k) := by
  obtain ⟨F, hF1, hFv, -⟩ := fftr2d_r2c_dft MAX_FACTORS cf0 cf nx ny stridey hnx4 hnx hny2 hny
    hstride hf hff s1 tx ty g out1
  obtain ⟨hcnx, hcny, hcs, hix, hiy⟩ := fftr2d_init_cfg_fields hb
  rw [if_pos (by omega)] at hcs
  have hcol : ∀ j, ∃ line,
      fft_c2c cb.cfgy (InBuf.disjoint (F.offset (j * cb.ny))) (tl j) = some line ∧
      ∀ i, i < ny → line.get i =
        dft (twiddle ⟨Real.pi, Real.cos, Real.sin⟩ ny FFT_BACKWARD) ny (F.offset (j * ny)) i := by
    intro j
    obtain ⟨line, h1, h2, -⟩ := fft_c2c_dft MAX_FACTORS cb0.cfgy cb.cfgy ny FFT_BACKWARD hny2 hny
      hiy (F.offset (j * cb.ny)) (tl j)
    refine ⟨line, h1, ?_⟩
    intro i hi
    rw [h2 i hi, hcny]
  choose line hline1 hline2 using hcol
  obtain ⟨out', h1, h2, h3⟩ := fftr2d_c2r_stages cb s2 tl tmp F out2 line
    (fun y x v => v = g (y * stridey + x)) (by omega) (fun j _ => hline1 j)
    (by
      intro j hj X view hX
      rw [hcny] at hj
      have hXv : ∀ k, k ≤ nx / 2 → X.get k =
          rdft (twiddle ⟨Real.pi, Real.cos, Real.sin⟩ nx FFT_FORWARD) nx
            (fun k => g (j * stridey + k)) k := by
        intro i hi
        rw [hX i (by rw [hcnx]; omega), hline2 i j hj, hcny]
        unfold dft
        have e : ∀ ky, ky ∈ Finset.range ny →
            (F.offset (i * ny)).get ky *
              twiddle (⟨Real.pi, Real.cos, Real.sin⟩ : Libm ℝ) ny FFT_BACKWARD ^ (ky * j) =
            dft (twiddle (⟨Real.pi, Real.cos, Real.sin⟩ : Libm ℝ) ny FFT_FORWARD) ny
              ⟨fun y => rdft (twiddle ⟨Real.pi, Real.cos, Real.sin⟩ nx FFT_FORWARD) nx
                (fun k => g (y * stridey + k)) i⟩ ky *
              twiddle (⟨Real.pi, Real.cos, Real.sin⟩ : Libm ℝ) ny FFT_BACKWARD ^ (ky * j) := by
          intro ky hky
          rw [Buf.offset_get, hFv i ky hi (Finset.mem_range.1 hky), dft2_rows]
          rfl
        rw [Finset.sum_congr rfl e, dft_inverse ny (by omega) _ j hj]
        dsimp only
        generalize rdft (twiddle (⟨Real.pi, Real.cos, Real.sin⟩ : Libm ℝ) nx FFT_FORWARD) nx
          (fun k => g (j * stridey + k)) i = R
        linear_combination R * natCast_mul_inv ny (by omega)
      obtain ⟨row, r1, r2, r3⟩ := fftr_c2r_rdft MAX_FACTORS cb0.cfgx cb.cfgx nx hnx4 hnx hix hbf
        (fun k => g (j * stridey + k)) X hXv (s2 j) view
      rw [hcnx]
      exact ⟨row, r1, r2, r3⟩)
  rw [hcnx, hcny, hcs] at h2 h3
  exact ⟨F, out', hF1, h1, h2, h3⟩

/-! ## Concrete instances of the two-dimensional theorems -/

theorem fftr2d_init_cfg_8_8 (direction : fft_direction) :
    fftr2d_init_cfg (⟨Real.pi, Real.cos, Real.sin⟩ : Libm ℝ) 32 (cfg2d0 ℝ) 8 8 9 direction =
      some (0, ⟨8, 8, 9,
        ⟨⟨4, direction, [⟨4, 1⟩], phaseTable ⟨Real.pi, Real.cos, Real.sin⟩ 4 direction⟩,
          packTable ⟨Real.pi, Real.cos, Real.sin⟩ 4 direction⟩,
        ⟨8, direction, [⟨4, 2⟩, ⟨2, 1⟩],
          phaseTable ⟨Real.pi, Real.cos, Real.sin⟩ 8 direction⟩⟩) := by
  unfold fftr2d_init_cfg
  have h1 : (cfg2d0 ℝ).cfgx = ⟨⟨0, FFT_FORWARD, [], []⟩, []⟩ := rfl
  have h2 : (cfg2d0 ℝ).cfgy = ⟨0, FFT_FORWARD, [], []⟩ := rfl
  simp only [h1, h2, fftr_init_cfg_eight, fft_init_cfg_eight, ne_eq, not_true_eq_false,
    if_false, Nat.reduceGT, if_true]

/-- An 8 by 8 grid with row distance 9 and capacity 32: `fftr2d_r2c` writes the
transposed half spectrum of the two-dimensional transform. -/
theorem fftr2d_r2c_dft_eight (scratch tmpx tmpy : Nat → Buf ℝ) (g : Nat → ℝ) (out : Buf ℝ) :
    ∃ cfg out',
      fftr2d_init_cfg (⟨Real.pi, Real.cos, Real.sin⟩ : Libm ℝ) 32 (cfg2d0 ℝ) 8 8 9
        FFT_FORWARD = some (0, cfg) ∧
      fftr2d_r2c cfg scratch tmpx tmpy g out = some out' ∧
      (∀ kx ky, kx ≤ 4 → ky < 8 → out'.get (kx * 8 + ky) =
        dft2 (twiddle ⟨Real.pi, Real.cos, Real.sin⟩ 8 FFT_FORWARD)
          (twiddle ⟨Real.pi, Real.cos, Real.sin⟩ 8 FFT_FORWARD) 8 8 9 g kx ky) ∧
      ∀ c, 40 ≤ c → out'.get c = out.get c := by
  obtain ⟨out', h1, h2, h3⟩ := fftr2d_r2c_dft 32 (cfg2d0 ℝ) _ 8 8 9 (by decide) (by decide)
    (by decide) (by decide) (by decide) (fftr2d_init_cfg_8_8 FFT_FORWARD)
    (fft_init_cfg_four FFT_FORWARD) scratch tmpx tmpy g out
  exact ⟨_, out', fftr2d_init_cfg_8_8 FFT_FORWARD, h1, h2, h3⟩

/-- An 8 by 8 grid with row distance 9 and capacity 32: the inverse after the
forward transform returns the grid and leaves the padding column alone. -/
theorem fftr2d_round_trip_eight (g : Nat → ℝ) (s1 tx ty s2 tl : Nat → Buf ℝ)
    (tmp out1 : Buf ℝ) (out2 : Nat → ℝ) :
    ∃ cf cb F out',
      fftr2d_init_cfg (⟨Real.pi, Real.cos, Real.sin⟩ : Libm ℝ) 32 (cfg2d0 ℝ) 8 8 9
        FFT_FORWARD = some (0, cf) ∧
      fftr2d_init_cfg (⟨Real.pi, Real.cos, Real.sin⟩ : Libm ℝ) 32 (cfg2d0 ℝ) 8 8 9
        FFT_BACKWARD = some (0, cb) ∧
      fftr2d_r2c cf s1 tx ty g out1 = some F ∧
      fftr2d_c2r cb s2 tl tmp F out2 = some out' ∧
      (∀ y x, y < 8 → x < 8 → out' (y * 9 + x) = g (y * 9 + x)) ∧
      (∀ y, y < 8 → out' (y * 9 + 8) = out2 (y * 9 + 8)) := by
  obtain ⟨F, out', h1, h2, h3, h4⟩ := fftr2d_round_trip 32 (cfg2d0 ℝ) _ (cfg2d0 ℝ) _ 8 8 9
    (by decide) (by decide) (by decide) (by decide) (by decide)
    (fftr2d_init_cfg_8_8 FFT_FORWARD) (fft_init_cfg_four FFT_FORWARD)
    (fftr2d_init_cfg_8_8 FFT_BACKWARD) (fft_init_cfg_four FFT_BACKWARD)
    g s1 tx ty s2 tl tmp out1 out2
  refine ⟨_, _, F, out', fftr2d_init_cfg_8_8 FFT_FORWARD, fftr2d_init_cfg_8_8 FFT_BACKWARD,
    h1, h2, h3, ?_⟩
  intro y hy
  refine h4 _ ?_
  intro y' x' hy' hx' h
  omega

/-- An 8 by 8 grid with row distance 9 and capacity 32: `fftr2d_c2r` leaves the
padding column alone, for every input. -/
theorem fftr2d_c2r_frame_eight (scratch tmp_line : Nat → Buf ℝ) (tmp inp : Buf ℝ)
    (out : Nat → ℝ) :
    ∃ cfg out',
      fftr2d_init_cfg (⟨Real.pi, Real.cos, Real.sin⟩ : Libm ℝ) 32 (cfg2d0 ℝ) 8 8 9
        FFT_BACKWARD = some (0, cfg) ∧
      fftr2d_c2r cfg scratch tmp_line tmp inp out = some out' ∧
      ∀ y x, y < 8 → 8 ≤ x → x < 9 → out' (y * 9 + x) = out (y * 9 + x) := by
  obtain ⟨out', h1, -, h3⟩ := fftr2d_c2r_frame (⟨Real.pi, Real.cos, Real.sin⟩ : Libm ℝ) 32
    (cfg2d0 ℝ) _ 8 8 9 FFT_BACKWARD (by decide) (by decide) (by decide) (by decide) (by decide)
    (fftr2d_init_cfg_8_8 FFT_BACKWARD) (fft_init_cfg_four FFT_BACKWARD)
    scratch tmp_line tmp inp out
  exact ⟨_, out', fftr2d_init_cfg_8_8 FFT_BACKWARD, h1, h3⟩

end Fft
